import Mathlib

/-!
# Magic mount: the virtual node tree, its preparation and its mount plan

A shallow embedding of `modules.cpp` and of what it uses from `base.cpp`,
`base.hpp` and `main.cpp`.  System calls are oracles (`BaseFs`, `ModuleFs`) or
recorded operations (`Op`).  The node classes of `node.hpp` are not among the
sources; what the embedding needs of them is modelled from the specification,
each such definition saying so.
-/

namespace MagicMount

/-! ## Data model -/

/-- File type of a node or of a base entry: `d_type & 15`, or the `S_IFMT` class of `st_mode`. -/
inductive FileType where
  | dir
  | reg
  | lnk
  | other
deriving DecidableEq, Repr

/-- The node variants. -/
inductive NodeType where
  | inter
  | module
  | tmpfs
  | root
deriving DecidableEq, Repr

/-- Modelled from the spec: `type_id` of node.hpp, which is not among the sources.
The variants are totally ordered, ascending: intermediate, module, tmpfs, root. -/
def type_id : NodeType → Nat
  | .inter => 0
  | .module => 1
  | .tmpfs => 2
  | .root => 3

/-- A directory entry as `readdir` yields it. -/
structure dirent where
  d_name : String
  d_type : FileType
deriving DecidableEq, Repr

/-- Modelled from the spec: the node classes of node.hpp, as one tagged record.
`module` is the owning module of a module node, `pfx` the root prefix of a root
node; `children` is the name-keyed child map in key order. -/
inductive Node where
  | mk (name : String) (node_type : NodeType) (file_type : FileType)
      (exist : Bool) (replace : Bool) (module : String) (pfx : String)
      (children : List Node)
deriving Repr

namespace Node

def name : Node → String
  | .mk n _ _ _ _ _ _ _ => n

def node_type : Node → NodeType
  | .mk _ t _ _ _ _ _ _ => t

def file_type : Node → FileType
  | .mk _ _ f _ _ _ _ _ => f

def exist : Node → Bool
  | .mk _ _ _ e _ _ _ _ => e

def replace : Node → Bool
  | .mk _ _ _ _ r _ _ _ => r

def module : Node → String
  | .mk _ _ _ _ _ m _ _ => m

def pfx : Node → String
  | .mk _ _ _ _ _ _ p _ => p

def children : Node → List Node
  | .mk _ _ _ _ _ _ _ cs => cs

/-- Modelled from the spec: `set_exist` of node.hpp. -/
def set_exist (b : Bool) : Node → Node
  | .mk n t f _ r m p cs => .mk n t f b r m p cs

/-- Modelled from the spec: `set_replace` of node.hpp. -/
def set_replace (b : Bool) : Node → Node
  | .mk n t f e _ m p cs => .mk n t f e b m p cs

/-- The node with its child map replaced. -/
def set_children (cs : List Node) : Node → Node
  | .mk n t f e r m p _ => .mk n t f e r m p cs

/-- Modelled from the spec: `is_dir()` of node.hpp. -/
def is_dir (n : Node) : Bool := n.file_type == FileType.dir

/-- Modelled from the spec: `is_lnk()` of node.hpp, the file type is symlink. -/
def is_lnk (n : Node) : Bool := n.file_type == FileType.lnk

/-- Modelled from the spec: `is_reg()` of node.hpp. -/
def is_reg (n : Node) : Bool := n.file_type == FileType.reg

/-- Modelled from the spec: `isa<dir_node>`; the directory-capable variants are
intermediate, tmpfs and root. -/
def isa_dir (n : Node) : Bool :=
  match n.node_type with
  | .inter => true
  | .tmpfs => true
  | .root => true
  | .module => false

/-- Modelled from the spec: `isa<inter_node>` of node.hpp. -/
def isa_inter (n : Node) : Bool := n.node_type == NodeType.inter

/-- Modelled from the spec: `isa<tmpfs_node>` of node.hpp. -/
def isa_tmpfs (n : Node) : Bool := n.node_type == NodeType.tmpfs

/-- Modelled from the spec: `is_empty()` of node.hpp, the node has no children. -/
def is_empty (n : Node) : Bool := n.children.isEmpty

end Node

mutual
/-- Equality of nodes is decidable. -/
def Node.decEq : (a b : Node) → Decidable (a = b)
  | .mk n1 t1 f1 e1 r1 m1 p1 cs1, .mk n2 t2 f2 e2 r2 m2 p2 cs2 =>
      if h : n1 = n2 ∧ t1 = t2 ∧ f1 = f2 ∧ e1 = e2 ∧ r1 = r2 ∧ m1 = m2 ∧ p1 = p2 then
        match Node.decEqList cs1 cs2 with
        | isTrue hc =>
            isTrue (by rw [h.1, h.2.1, h.2.2.1, h.2.2.2.1, h.2.2.2.2.1, h.2.2.2.2.2.1,
              h.2.2.2.2.2.2, hc])
        | isFalse hc => isFalse (fun e => hc (by injection e))
      else
        isFalse (fun e => h (by
          injection e with h1 h2 h3 h4 h5 h6 h7
          exact ⟨h1, h2, h3, h4, h5, h6, h7⟩))
/-- Equality of lists of nodes is decidable. -/
def Node.decEqList : (as bs : List Node) → Decidable (as = bs)
  | [], [] => isTrue rfl
  | [], _ :: _ => isFalse (by simp)
  | _ :: _, [] => isFalse (by simp)
  | a :: as, b :: bs =>
      match Node.decEq a b, Node.decEqList as bs with
      | isTrue h1, isTrue h2 => isTrue (by rw [h1, h2])
      | isFalse h1, _ => isFalse (fun e => h1 (by injection e))
      | _, isFalse h2 => isFalse (fun e => h2 (by injection e))
end

instance : DecidableEq Node := Node.decEq

mutual
/-- Number of levels below a node. -/
def Node.height : Node → Nat
  | .mk _ _ _ _ _ _ _ cs => heightList cs
/-- One more than the largest height in a list of nodes, `0` for the empty list. -/
def heightList : List Node → Nat
  | [] => 0
  | c :: cs => max (c.height + 1) (heightList cs)
end

/-- Names of the children, in map order. -/
def names (cs : List Node) : List String := cs.map Node.name

/-! ## The child map (node.hpp) -/

/-- Key order of `std::map<string_view, _>`: lexicographic on the characters. -/
def key_lt (a b : String) : Bool := decide (a.data < b.data)

/-- The child with a given name (`children.find`). -/
def find_child (name : String) (cs : List Node) : Option Node :=
  cs.find? (fun c => c.name == name)

/-- Put a node with a fresh name at its place in key order. -/
def map_put (n : Node) : List Node → List Node
  | [] => [n]
  | c :: cs => if key_lt n.name c.name then n :: c :: cs else c :: map_put n cs

/-- Replace the child that has the name of `n` by `n`, in place. -/
def map_set (n : Node) : List Node → List Node
  | [] => []
  | c :: cs => if c.name == n.name then n :: cs else c :: map_set n cs

/-- Modelled from the spec: `dir_node::emplace` / `dir_node::insert` of node.hpp.
A fresh name is inserted.  At a name already held, a conflict across levels
resolves to the higher variant, and within a level the later contribution
overwrites the earlier one; an intermediate node is a placeholder, not a
contribution, and is created only where the name is free. -/
def emplace (n : Node) (cs : List Node) : List Node :=
  match find_child n.name cs with
  | none => map_put n cs
  | some old =>
      if decide (type_id old.node_type < type_id n.node_type) ||
          (old.node_type == n.node_type && n.node_type != NodeType.inter) then map_set n cs
      else cs

/-- Modelled from the spec: `dir_node::extract` of node.hpp: take the child with
the given name out of the map, if there is one. -/
def extract (name : String) (cs : List Node) : Option (Node × List Node) :=
  match find_child name cs with
  | none => none
  | some old => some (old, cs.filter (fun c => !(c.name == name)))

/-- Modelled from the spec: `inter_node(const char *name)`, a directory placeholder. -/
def inter_node (name : String) : Node :=
  .mk name .inter .dir false false "" "" []

/-- Modelled from the spec: `inter_node(dirent *entry)`, a placeholder for a base entry. -/
def inter_node_of (e : dirent) : Node :=
  .mk e.d_name .inter e.d_type false false "" "" []

/-- Modelled from the spec: `module_node(module, entry)`, holding the module
name and the file type from `d_type`. -/
def module_node (module : String) (e : dirent) : Node :=
  .mk e.d_name .module e.d_type false false module "" []

/-- Modelled from the spec: `root_node(const char *name)`; a partition root is a
directory that exists, with an empty prefix. -/
def root_node (name : String) : Node :=
  .mk name .root .dir true false "" "" []

/-- Modelled from the spec: `root_node(node_entry *node)`, the root made from an
extracted child: same name, file type, flags and children, marked existing,
with the partition as prefix. -/
def root_node_of (old : Node) (pfx : String) : Node :=
  .mk old.name .root old.file_type true old.replace "" pfx old.children

/-! ## The base filesystem -/

/-- The base filesystem as the two calls the tree makes on it: `lstat` (the file
type when it succeeds) and `opendir` + `readdir` (the raw entry stream when the
directory can be opened). -/
structure BaseFs where
  lstat : String → Option FileType
  readdir : String → Option (List dirent)

/-- Longest path the kernel accepts, in bytes. -/
def PATH_MAX : Nat := 4096

/-- The `open_dir` of base.hpp: `opendir` fails on a path of `PATH_MAX` or more. -/
def open_dir (fs : BaseFs) (path : String) : Option (List dirent) :=
  if path.length < PATH_MAX then fs.readdir path else none

/-- The `xreaddir` of base.cpp: the entry stream without `.` and `..`. -/
def xreaddir (raw : List dirent) : List dirent :=
  raw.filter (fun e => !(e.d_name == "." || e.d_name == ".."))

/-- Modelled from the spec: `node_path` of a child, the parent's path, a slash
and the child's name. -/
def child_path (parent_path : String) (name : String) : String :=
  parent_path ++ "/" ++ name

/-! ## Tree construction: upgrade to tmpfs and `prepare` -/

/-- Children of a new tmpfs node before the upgrade loop: when the node is not
replaced and its directory opens, the node exists and every base entry gets a
dummy intermediate child unless the name is taken. -/
def tmpfs_mirror (fs : BaseFs) (path : String) (n : Node) : Bool × List Node :=
  if n.replace then (n.exist, n.children)
  else
    match open_dir fs path with
    | some dir =>
        (true, (xreaddir dir).foldl (fun cs e => emplace (inter_node_of e) cs) n.children)
    | none => (n.exist, n.children)

/-- The constructor `tmpfs_node::tmpfs_node(node_entry *)` with a recursion
budget: the new node takes over name, file type, flags and children of `n`,
mirrors the base directory, and upgrades every intermediate child in turn. -/
def tmpfs_node_fuel (fs : BaseFs) : Nat → String → Node → Node
  | 0, _, n => .mk n.name .tmpfs n.file_type n.exist n.replace "" "" n.children
  | k + 1, path, n =>
      let m := tmpfs_mirror fs path n
      .mk n.name .tmpfs n.file_type m.1 n.replace "" ""
        (m.2.map fun c =>
          if c.isa_inter then tmpfs_node_fuel fs k (child_path path c.name) c else c)

/-- A budget the constructor cannot exhaust: each level either descends into the
given tree or opens a directory whose path is one name longer. -/
def tmpfs_budget (path : String) (n : Node) : Nat :=
  (PATH_MAX - path.length) + n.height + 1

/-- The constructor `tmpfs_node::tmpfs_node(node_entry *)`. -/
def tmpfs_node (fs : BaseFs) (path : String) (n : Node) : Node :=
  tmpfs_node_fuel fs (tmpfs_budget path n) path n

/-- Modelled from the spec: `upgrade<tmpfs_node>(it)` of node.hpp; only a child
of strictly lower `type_id` is replaced, a rejected upgrade leaves it in place. -/
def upgrade_tmpfs (fs : BaseFs) (path : String) (c : Node) : Node :=
  if type_id c.node_type < type_id NodeType.tmpfs then tmpfs_node fs path c else c

/-- The test at the head of the loop in `dir_node::prepare`: `lstat` fails, or
the child is a symlink, or the base entry is one. -/
def cannot_mnt (fs : BaseFs) (path : String) (c : Node) : Bool :=
  match fs.lstat path with
  | none => true
  | some st => c.is_lnk || st == FileType.lnk

mutual
/-- The body of `dir_node::prepare` on a node whose `exist` and `replace` flags
are `ex` and `rep` (the caller sets both right before the call). -/
def prepare_node (fs : BaseFs) (path : String) (ex rep : Bool) : Node → Bool × Node
  | .mk n t f _ _ m p cs =>
      let r := prepare_loop fs path t rep cs (rep || !ex)
      (r.1, .mk n t f ex rep m p r.2)
/-- The loop of `dir_node::prepare` over the children still to visit, with the
current `upgrade_to_tmpfs`. -/
def prepare_loop (fs : BaseFs) (path : String) (t : NodeType) (rep : Bool) :
    List Node → Bool → Bool × List Node
  | [], up => (up, [])
  | c :: cs, up =>
      let cpath := child_path path c.name
      let ex := if (fs.lstat cpath).isSome then true else c.exist
      if cannot_mnt fs cpath c && decide (type_id t > type_id NodeType.tmpfs) then
        prepare_loop fs path t rep cs up
      else
        let c2 :=
          if c.isa_dir then
            let r := prepare_node fs cpath ex (if rep then true else c.replace) c
            if r.1 then upgrade_tmpfs fs cpath r.2 else r.2
          else c.set_exist ex
        let rest := prepare_loop fs path t rep cs (up || cannot_mnt fs cpath c)
        (rest.1, c2 :: rest.2)
end

/-- The method `dir_node::prepare` on a node at `path`. -/
def prepare (fs : BaseFs) (path : String) (n : Node) : Bool × Node :=
  prepare_node fs path n.exist n.replace n

/-- One round of the loop of `dir_node::prepare` on a child it keeps, as the
source words it: mark the child existing when `lstat` succeeds, and for a
directory variant hand down `replace`, prepare it and upgrade it on demand. -/
def prepared_child (fs : BaseFs) (cpath : String) (rep : Bool) (c : Node) : Node :=
  let c1 := if (fs.lstat cpath).isSome then c.set_exist true else c
  if c1.isa_dir then
    let dn := if rep then c1.set_replace true else c1
    let r := prepare fs cpath dn
    if r.1 then upgrade_tmpfs fs cpath r.2 else r.2
  else c1

/-! ## Mount operations -/

/-- The calls of the mount pass, of teardown and of `main`, in the order they
are made.  Of the log lines only the usage text and the error lines of `main`
and `umount_modules` are recorded. -/
inductive Op where
  | mount (source : Option String) (target : String) (fstype : Option String) (flags : Nat)
  | umount2 (target : String) (flags : Nat)
  | mkdirs (path : String)
  | mkdir (path : String)
  | xmkdir (path : String)
  | creat (path : String)
  | clone_attr (src dest : String)
  | cp_afc (src dest : String)
  | log_error (msg : String)
  | log_debug (msg : String)
deriving DecidableEq, Repr

def MS_RDONLY : Nat := 1
def MS_REMOUNT : Nat := 32
def MS_BIND : Nat := 4096
def MS_MOVE : Nat := 8192
def MS_REC : Nat := 16384
def MS_PRIVATE : Nat := 262144
def MNT_DETACH : Nat := 2

def SECURE_DIR : String := "/data/adb"
def MODULEROOT : String := SECURE_DIR ++ "/modules"
def INTLROOT : String := ".magisk"
def WORKERDIR : String := INTLROOT ++ "/worker"

/-- The value `load_modules` gives `node_entry::module_mnt`. -/
def module_mnt : String := MODULEROOT ++ "/"

/-- The static `bind_mount` of modules.cpp. -/
def bind_mount (src dest : String) (move : Bool) : List Op :=
  [Op.mount (some src) dest none ((if move then MS_MOVE else MS_BIND) ||| MS_REC)]

/-- Modelled from the spec: `worker_path` of node.hpp, the staging path of a
node under the working directory `tmp`. -/
def worker_path (tmp path : String) : String :=
  tmp ++ "/" ++ WORKERDIR ++ path

/-- The method `node_entry::create_and_mount` for a node of file type `f` at
`path`; `ptmpfs` says whether the parent is a tmpfs node. -/
def create_and_mount (tmp : String) (ptmpfs : Bool) (path : String) (f : FileType)
    (src : String) (ro : Bool) : List Op :=
  let dest := if ptmpfs then worker_path tmp path else path
  if f == FileType.lnk then [Op.cp_afc src dest]
  else if f == FileType.dir then
    [Op.xmkdir dest] ++ bind_mount src dest false ++
      (if ro then [Op.mount none dest none (MS_REMOUNT ||| MS_BIND ||| MS_RDONLY)] else [])
  else if f == FileType.reg then
    [Op.creat dest] ++ bind_mount src dest false ++
      (if ro then [Op.mount none dest none (MS_REMOUNT ||| MS_BIND ||| MS_RDONLY)] else [])
  else []

/-- The method `module_node::mount`; `rpfx` is the prefix of the root above the
parent. -/
def module_mount (tmp : String) (ptmpfs : Bool) (rpfx path : String) (n : Node) : List Op :=
  let p := n.module ++ (rpfx ++ path)
  let mnt_src := module_mnt ++ p
  let src := MODULEROOT ++ "/" ++ p
  (if n.exist then [Op.clone_attr path src] else []) ++
    (if ptmpfs then create_and_mount tmp ptmpfs path n.file_type mnt_src false
     else bind_mount mnt_src path false)

/-- What `tmpfs_node::mount` does on a directory before it mounts the children. -/
def tmpfs_mount_head (tmp : String) (ptmpfs : Bool) (ppath path : String) (n : Node) :
    List Op :=
  let w := worker_path tmp path
  if !ptmpfs then
    [Op.mkdirs w] ++ bind_mount w w false ++
      [Op.clone_attr (if n.exist then path else ppath) w]
  else
    [Op.mkdir w, Op.clone_attr (if n.exist then path else worker_path tmp ppath) w]

/-- What `tmpfs_node::mount` does on a directory after it mounted the children. -/
def tmpfs_mount_tail (tmp : String) (ptmpfs : Bool) (path : String) : List Op :=
  let w := worker_path tmp path
  if !ptmpfs then
    bind_mount w path true ++
      [Op.mount none path none (MS_REMOUNT ||| MS_RDONLY),
       Op.mount none path none MS_PRIVATE]
  else []

/-- Modelled from the spec: what `root_node.mount` does before its children,
"mkdirs its node path if necessary". -/
def root_mount_head (path : String) (n : Node) : List Op :=
  if n.exist then [] else [Op.mkdir path]

mutual
/-- The virtual `mount` of a node at `path`: `module_node::mount`,
`tmpfs_node::mount`, and `dir_node::mount` for the other directory variants.
`ptmpfs` and `ppath` describe the parent, `rpfx` is `parent()->root()->prefix`. -/
def mount_node (tmp : String) (ptmpfs : Bool) (ppath rpfx path : String) : Node → List Op
  | .mk n t f e r m p cs =>
      match t with
      | .module => module_mount tmp ptmpfs rpfx path (.mk n t f e r m p cs)
      | .tmpfs =>
          if f != FileType.dir then create_and_mount tmp ptmpfs path f path false
          else
            tmpfs_mount_head tmp ptmpfs ppath path (.mk n t f e r m p cs) ++
              mount_children tmp true path rpfx cs ++
              tmpfs_mount_tail tmp ptmpfs path
      | .inter => mount_children tmp false path rpfx cs
      | .root => root_mount_head path (.mk n t f e r m p cs) ++ mount_children tmp false path p cs
/-- Modelled from the spec: `dir_node::mount`, the children mounted in map order. -/
def mount_children (tmp : String) (ptmpfs : Bool) (ppath rpfx : String) : List Node → List Op
  | [] => []
  | c :: cs =>
      mount_node tmp ptmpfs ppath rpfx (child_path ppath c.name) c ++
        mount_children tmp ptmpfs ppath rpfx cs
end

/-- The calls a node makes in its own `mount`, those of its children left out. -/
def own_ops (tmp : String) (ptmpfs : Bool) (ppath rpfx path : String) (n : Node) : List Op :=
  match n.node_type with
  | .module => module_mount tmp ptmpfs rpfx path n
  | .tmpfs =>
      if n.file_type != FileType.dir then create_and_mount tmp ptmpfs path n.file_type path false
      else tmpfs_mount_head tmp ptmpfs ppath path n ++ tmpfs_mount_tail tmp ptmpfs path
  | .inter => []
  | .root => root_mount_head path n

/-- A `mount(2)` call. -/
def Op.is_mount : Op → Bool
  | .mount _ _ _ _ => true
  | _ => false

/-- A bind mount: a `mount(2)` call with `MS_BIND`, as `bind_mount` issues without `move`. -/
def Op.is_bind : Op → Bool
  | .mount _ _ _ flags => flags == (MS_BIND ||| MS_REC)
  | _ => false

/-- Target of a `mount(2)` call. -/
def Op.mount_target : Op → Option String
  | .mount _ t _ _ => some t
  | _ => none

/-! ## Collection of module files -/

/-- An entry of a module's directory: name, `d_type`, whether it opens as a
directory, and the raw entry stream it then yields. -/
inductive ModEntry where
  | mk (d_name : String) (d_type : FileType) (opens : Bool) (entries : List ModEntry)
deriving Repr

mutual
/-- One round of the `xreaddir` loop of `dir_node::collect_module_files` on node
`n`; the call on a child directory is the loop on what opening that entry
yields, and nothing when it does not open. -/
def collect_entry (module : String) : ModEntry → Node → Node
  | .mk name ty opens sub, n =>
      if name == "." || name == ".." then n
      else if name == ".replace" then n.set_replace true
      else if ty == FileType.dir then
        match find_child name n.children with
        | none =>
            let child :=
              if opens then collect_entries module sub (inter_node name) else inter_node name
            n.set_children (map_set child (emplace (inter_node name) n.children))
        | some c =>
            if c.isa_inter then
              let child := if opens then collect_entries module sub c else c
              n.set_children (map_set child n.children)
            else n
      else n.set_children (emplace (module_node module ⟨name, ty⟩) n.children)
/-- The `xreaddir` loop of `dir_node::collect_module_files` over the entries
still to read. -/
def collect_entries (module : String) : List ModEntry → Node → Node
  | [], n => n
  | e :: es, n => collect_entries module es (collect_entry module e n)
end

/-- The method `dir_node::collect_module_files` on node `n`, given what opening
`name()` under `dfd` yields: `none` when `xopen_dir` fails. -/
def collect_module_files (module : String) (dir : Option (List ModEntry)) (n : Node) : Node :=
  match dir with
  | none => n
  | some raw => collect_entries module raw n

/-! ## The module loader -/

/-- The module root as `handle_modules` and `load_modules` see it: the raw entry
stream of `MODULEROOT`, the three existence tests made per module, and what
opening `system` under a module yields. -/
structure ModuleFs where
  listing : Option (List dirent)
  disable : String → Bool
  skip_mount : String → Bool
  has_system : String → Bool
  system_dir : String → Option (List ModEntry)

/-- The first loop of `load_modules`: every module that is not skipped is
collected into the `system` node. -/
def collect_modules (mfs : ModuleFs) : List String → Node → Node
  | [], system => system
  | m :: ms, system =>
      if mfs.skip_mount m then collect_modules mfs ms system
      else if !mfs.has_system m then collect_modules mfs ms system
      else collect_modules mfs ms (collect_module_files m (mfs.system_dir m) system)

/-- The name `part.c_str() + 1` stands for: `part` without its first byte.  The
names of the tree are UTF-8 strings; when the first character of `part` takes
more than one byte, what is left is not one and names no child. -/
def skip_first_byte (part : String) : Option String :=
  if (part.get 0).utf8Size = 1 then some (part.drop 1) else none

/-- One round of the partition loop of `load_modules` on the tree root; `system`
is the child of the tree root that has this name. -/
def extract_partition (fs : BaseFs) (part : String) (root : Node) : Node :=
  if !part.isEmpty && fs.lstat part == some FileType.dir then
    match find_child "system" root.children with
    | none => root
    | some system =>
        match (skip_first_byte part).bind (fun name => extract name system.children) with
        | none => root
        | some (old, rest) =>
            let root1 := root.set_children (map_set (system.set_children rest) root.children)
            root1.set_children (emplace (root_node_of old part) root1.children)
  else root

/-- The tree `load_modules` builds before `prepare`: the root with the collected
`system` node, special partitions extracted. -/
def build_tree (fs : BaseFs) (mfs : ModuleFs) (partitions module_list : List String) : Node :=
  let system := collect_modules mfs module_list (root_node "system")
  let root := (root_node "").set_children (emplace system [])
  partitions.foldl (fun r part => extract_partition fs part r) root

/-- The tree `load_modules` mounts: `none` when no module contributed anything. -/
def prepared_tree (fs : BaseFs) (mfs : ModuleFs) (partitions module_list : List String) :
    Option Node :=
  if (collect_modules mfs module_list (root_node "system")).is_empty then none
  else some (prepare fs "" (build_tree fs mfs partitions module_list)).2

/-- The function `load_modules`: the calls of the mount pass. -/
def load_modules (tmp : String) (fs : BaseFs) (mfs : ModuleFs)
    (partitions module_list : List String) : List Op :=
  match prepared_tree fs mfs partitions module_list with
  | none => []
  | some root => mount_node tmp false "" "" "" root

/-- The template `foreach_module`: `fn` is run on every entry of `MODULEROOT`
that is a directory and is not `.core`. -/
def foreach_module {σ : Type} (mfs : ModuleFs) (fn : σ → dirent → σ) (init : σ) : σ :=
  match mfs.listing with
  | none => init
  | some raw =>
      (xreaddir raw).foldl
        (fun acc e => if e.d_type == FileType.dir && !(e.d_name == ".core") then fn acc e else acc)
        init

/-- The module list `handle_modules` hands to `load_modules`. -/
def module_list (mfs : ModuleFs) : List String :=
  foreach_module mfs
    (fun (acc : List String) e => if mfs.disable e.d_name then acc else acc ++ [e.d_name]) []

/-- The function `handle_modules`. -/
def handle_modules (tmp : String) (fs : BaseFs) (mfs : ModuleFs) (partitions : List String) :
    List Op :=
  load_modules tmp fs mfs partitions (module_list mfs)

/-! ## Teardown -/

/-- A record of `/proc/self/mountinfo`, as `parse_mount_info` returns it. -/
structure mount_info where
  id : Nat
  parent : Nat
  device : Nat
  root : String
  target : String
  vfs_option : String
  type : String
  source : String
  fs_option : String
deriving Repr

/-- The test of the first loop of `umount_modules`. -/
def umount_selected (magic : String) (info : mount_info) : Bool :=
  "/adb/modules/".data.isPrefixOf info.root.data ||
    (info.source == magic && info.type == "tmpfs")

/-- The second loop of `umount_modules`; `fails` tells which `umount2` calls return `-1`. -/
def umount_targets (fails : String → Bool) : List String → List Op
  | [] => []
  | t :: ts =>
      [Op.umount2 t MNT_DETACH,
        if fails t then Op.log_error ("umount " ++ t) else Op.log_debug ("umount " ++ t)] ++
        umount_targets fails ts

/-- The function `umount_modules` on the records `parse_mount_info("self")` returned. -/
def umount_modules (magic : String) (infos : List mount_info) (fails : String → Bool) :
    List Op :=
  umount_targets fails
    (infos.foldl (fun targets info =>
      if umount_selected magic info then targets ++ [info.target] else targets) [])

/-- An `umount2` call. -/
def Op.is_umount2 : Op → Bool
  | .umount2 _ _ => true
  | _ => false

/-! ## A module that ships one regular file -/

/-- The path made of `base` and the components `comps` below it. -/
def path_of (base : String) (comps : List String) : String :=
  comps.foldl child_path base

/-- The entries `.` and `..` every directory stream starts with. -/
def dot_entries : List ModEntry :=
  [.mk "." .dir true [], .mk ".." .dir true []]

/-- The entry stream of a module's `system` directory that holds, below the
directories `dirs`, the one regular file `file`. -/
def single_file : List String → String → List ModEntry
  | [], file => dot_entries ++ [.mk file .reg false []]
  | d :: ds, file => dot_entries ++ [.mk d .dir true (single_file ds file)]

/-- The node collected from `single_file`: a chain of intermediate directories
down to the module node of the file; `ex` is the `exist` flag along the chain. -/
def single_file_node (module : String) (ex : Bool) : List String → String → Node
  | [], file => .mk file .module .reg ex false module "" []
  | d :: ds, file => .mk d .inter .dir ex false "" "" [single_file_node module ex ds file]

/-- Every path from `base` down along `comps` exists in the base filesystem and
is not a symlink. -/
def base_has (fs : BaseFs) : String → List String → Bool
  | _, [] => true
  | base, c :: cs =>
      (match fs.lstat (child_path base c) with
        | some st => !(st == FileType.lnk)
        | none => false) && base_has fs (child_path base c) cs

mutual
/-- Some node of the tree is of the tmpfs variant. -/
def has_tmpfs : Node → Bool
  | .mk _ t _ _ _ _ _ cs => t == NodeType.tmpfs || has_tmpfs_list cs
/-- Some node of the trees in the list is of the tmpfs variant. -/
def has_tmpfs_list : List Node → Bool
  | [] => false
  | c :: cs => has_tmpfs c || has_tmpfs_list cs
end

/-! ## Walking the tree -/

mutual
/-- The node and all nodes below it, going down through the directory variants
only (a module node has no child map). -/
def subnodes : Node → List Node
  | .mk n t f e r m p cs =>
      .mk n t f e r m p cs ::
        (match t with
          | .module => []
          | _ => subnodes_list cs)
/-- The nodes of a list of trees. -/
def subnodes_list : List Node → List Node
  | [] => []
  | c :: cs => subnodes c ++ subnodes_list cs
end

/-- A node of the tree together with what its `mount` reads from its place:
its path, the parent's path, whether the parent is a tmpfs node, and the prefix
of the root above. -/
structure Placed where
  node : Node
  path : String
  ppath : String
  ptmpfs : Bool
  rpfx : String
deriving DecidableEq

mutual
/-- The node at `path` and the nodes below it, each with its place, in the
order `mount` visits them. -/
def placed (ptmpfs : Bool) (ppath rpfx path : String) : Node → List Placed
  | .mk n t f e r m p cs =>
      ⟨.mk n t f e r m p cs, path, ppath, ptmpfs, rpfx⟩ ::
        (match t with
          | .module => []
          | .tmpfs => placed_list true path rpfx cs
          | .inter => placed_list false path rpfx cs
          | .root => placed_list false path p cs)
/-- The nodes of the children of a node at `ppath`, each with its place. -/
def placed_list (ptmpfs : Bool) (ppath rpfx : String) : List Node → List Placed
  | [] => []
  | c :: cs =>
      placed ptmpfs ppath rpfx (child_path ppath c.name) c ++ placed_list ptmpfs ppath rpfx cs
end

mutual
/-- The node at `path` and the nodes below it that `mount` reaches, each with
its place: as `placed`, except that `tmpfs_node::mount` returns before the
children of a node that is not a directory. -/
def reached (ptmpfs : Bool) (ppath rpfx path : String) : Node → List Placed
  | .mk n t f e r m p cs =>
      ⟨.mk n t f e r m p cs, path, ppath, ptmpfs, rpfx⟩ ::
        (match t with
          | .module => []
          | .tmpfs => if f != FileType.dir then [] else reached_list true path rpfx cs
          | .inter => reached_list false path rpfx cs
          | .root => reached_list false path p cs)
/-- The nodes `mount` reaches from the children of a node at `ppath`. -/
def reached_list (ptmpfs : Bool) (ppath rpfx : String) : List Node → List Placed
  | [] => []
  | c :: cs =>
      reached ptmpfs ppath rpfx (child_path ppath c.name) c ++ reached_list ptmpfs ppath rpfx cs
end

mutual
/-- The tree is a tmpfs subtree: tmpfs nodes down to the module nodes. -/
def all_tmpfs : Node → Bool
  | .mk _ t _ _ _ _ _ cs =>
      match t with
      | .module => true
      | .tmpfs => all_tmpfs_list cs
      | _ => false
/-- Every tree of the list is a tmpfs subtree. -/
def all_tmpfs_list : List Node → Bool
  | [] => true
  | c :: cs => all_tmpfs c && all_tmpfs_list cs
end

mutual
/-- The tree can be upgraded to a tmpfs subtree: intermediate nodes over module
nodes and over subtrees that are tmpfs already. -/
def upgradable : Node → Bool
  | .mk _ t _ _ _ _ _ cs =>
      match t with
      | .module => true
      | .tmpfs => all_tmpfs_list cs
      | .inter => upgradable_list cs
      | .root => false
/-- Every tree of the list can be upgraded to a tmpfs subtree. -/
def upgradable_list : List Node → Bool
  | [] => true
  | c :: cs => upgradable c && upgradable_list cs
end

mutual
/-- In the tree at `path`, every node that is a symlink or whose base entry is
a symlink has a tmpfs parent; `ptmpfs` tells whether the parent of the top node
is one. -/
def symlinks_under_tmpfs (fs : BaseFs) (ptmpfs : Bool) (path : String) : Node → Bool
  | .mk _ t f _ _ _ _ cs =>
      (!(f == FileType.lnk || fs.lstat path == some FileType.lnk) || ptmpfs) &&
        (match t with
          | .module => true
          | .tmpfs => symlinks_under_tmpfs_list fs true path cs
          | _ => symlinks_under_tmpfs_list fs false path cs)
/-- The same for the children of a node at `ppath`. -/
def symlinks_under_tmpfs_list (fs : BaseFs) (ptmpfs : Bool) (ppath : String) :
    List Node → Bool
  | [] => true
  | c :: cs =>
      symlinks_under_tmpfs fs ptmpfs (child_path ppath c.name) c &&
        symlinks_under_tmpfs_list fs ptmpfs ppath cs
end

mutual
/-- The shape of a tree before `prepare`: root nodes (only where `roots` allows
them) over intermediate directories over module nodes; no tmpfs node yet, no
root node below an intermediate one, no children below a module node. -/
def well_formed (roots : Bool) : Node → Bool
  | .mk _ t _ _ _ _ _ cs =>
      match t with
      | .module => cs.isEmpty
      | .inter => well_formed_list false cs
      | .root => roots && well_formed_list true cs
      | .tmpfs => false
/-- Every tree of the list has the shape of a tree before `prepare`. -/
def well_formed_list (roots : Bool) : List Node → Bool
  | [] => true
  | c :: cs => well_formed roots c && well_formed_list roots cs
end

/-! ## The command line (main.cpp) -/

/-- The initial value of the global `partitions` of main.cpp. -/
def default_partitions : List String := ["/vendor", "/product", "/system_ext"]

/-- What the option loop of `main` sets: the globals `tmp_path` and `partitions`
and the local `magic`. -/
structure Config where
  tmp_path : String
  magic : String
  partitions : List String
deriving DecidableEq, Repr

/-- The values before any option is read. -/
def default_config : Config :=
  { tmp_path := "/debug_ramdisk", magic := "magic", partitions := default_partitions }

/-- The function `help`: the usage text on the error log. -/
def help : List Op :=
  [Op.log_error ("usage: magic_mount <mount|umount> [--work-dir dir] [--magic magic] " ++
    "[--add-partitions /p1,/p2,....]")]

/-- Index of the first `c` in a character sequence. -/
def index_of (c : Char) : List Char → Option Nat
  | [] => none
  | x :: xs => if x == c then some 0 else (index_of c xs).map (fun i => i + 1)

/-- The call `ps.find(c, pos)` on a `string_view`: the first position from `pos`
on that holds `c`, `none` for `npos`. -/
def sv_find (ps : List Char) (c : Char) (pos : Nat) : Option Nat :=
  (index_of c (ps.drop pos)).map (fun i => pos + i)

/-- The call `ps.substr(pos, n)`. -/
def sv_substr (ps : List Char) (pos n : Nat) : String :=
  String.mk ((ps.drop pos).take n)

/-- The call `ps.substr(pos)`. -/
def sv_substr_from (ps : List Char) (pos : Nat) : String :=
  String.mk (ps.drop pos)

/-- The `for (;;)` loop of the `--add-partitions` branch with the `emplace_back`
after it, started at `pos`; the first argument bounds the number of rounds. -/
def add_partitions_loop (ps : List Char) : Nat → Nat → List String → List String
  | 0, pos, partitions => partitions ++ [sv_substr_from ps pos]
  | k + 1, pos, partitions =>
      match sv_find ps ',' pos with
      | some new_pos =>
          add_partitions_loop ps k (new_pos + 1)
            (partitions ++ [sv_substr ps pos (new_pos - pos)])
      | none => partitions ++ [sv_substr_from ps pos]

/-- The `--add-partitions` branch of `main` on the value `v`: every round moves
`pos` past one comma, so `|v| + 1` rounds are never used up. -/
def add_partitions (v : String) (partitions : List String) : List String :=
  add_partitions_loop v.data (v.length + 1) 0 partitions

/-- The option loop of `main` over `argv[i]`, `argv[i + 1]`, ...: an option
takes effect only when a further argument follows, and that argument is looked
at again in the next round. -/
def parse_options : List String → Config → Config
  | [], cfg => cfg
  | a :: rest, cfg =>
      let has_value := !rest.isEmpty
      let value := rest.headD ""
      if a == "--work-dir" && has_value then
        parse_options rest { cfg with tmp_path := value }
      else if a == "--magic" && has_value then
        parse_options rest { cfg with magic := value }
      else if a == "--add-partitions" && has_value then
        parse_options rest { cfg with partitions := add_partitions value cfg.partitions }
      else parse_options rest cfg

/-- The option names the loop of `main` tests for. -/
def option_names : List String := ["--work-dir", "--magic", "--add-partitions"]

/-- What `main` meets outside the program: which `mount` calls fail, which
`umount2` calls fail, the records of `/proc/self/mountinfo`, the base filesystem
and the module root. -/
structure Sys where
  mount_fails : Option String → String → Option String → Nat → Bool
  umount2_fails : String → Bool
  mountinfo : List mount_info
  fs : BaseFs
  mfs : ModuleFs

/-- The function `main` on `argv` (program name first): exit code and calls. -/
def main (sys : Sys) (argv : List String) : Nat × List Op :=
  if argv.length < 2 then (1, help)
  else
    let sub := argv.getD 1 ""
    let do_umount := sub == "umount"
    if !do_umount && sub != "mount" then (1, help)
    else
      let cfg := parse_options (argv.drop 2) default_config
      if do_umount then (0, umount_modules cfg.magic sys.mountinfo sys.umount2_fails)
      else if sys.mount_fails (some cfg.magic) cfg.tmp_path (some "tmpfs") 0 then
        (1, [Op.mount (some cfg.magic) cfg.tmp_path (some "tmpfs") 0, Op.log_error "mount tmp"])
      else if sys.mount_fails none cfg.tmp_path none MS_PRIVATE then
        (1, [Op.mount (some cfg.magic) cfg.tmp_path (some "tmpfs") 0,
          Op.mount none cfg.tmp_path none MS_PRIVATE, Op.log_error "mount tmp private"])
      else
        (0, [Op.mount (some cfg.magic) cfg.tmp_path (some "tmpfs") 0,
            Op.mount none cfg.tmp_path none MS_PRIVATE] ++
          handle_modules cfg.tmp_path sys.fs sys.mfs cfg.partitions ++
          [Op.umount2 cfg.tmp_path MNT_DETACH] ++
          (if sys.umount2_fails cfg.tmp_path then [Op.log_error "umount tmp"] else []))

/-- The pieces of a character sequence between its commas, read off the words
of the specification ("comma-separated"): a comma ends a piece, every other
character extends the current one. -/
def split_commas : List Char → List (List Char)
  | [] => [[]]
  | c :: cs =>
      if c = ',' then [] :: split_commas cs
      else
        match split_commas cs with
        | [] => [[c]]
        | p :: ps => (c :: p) :: ps

mutual
/-- The tree below a tmpfs node is a tmpfs subtree, and every intermediate node
left elsewhere exists, is not replaced, and has only children that can be
mounted where they are. -/
def inter_settled (fs : BaseFs) (path : String) : Node → Bool
  | .mk _ t _ e r _ _ cs =>
      match t with
      | .module => true
      | .tmpfs => all_tmpfs_list cs
      | .inter => e && !r && inter_settled_list fs true path cs
      | .root => inter_settled_list fs false path cs
/-- The same for the children of a node at `ppath`; with `strict` set every
child must be mountable where it is. -/
def inter_settled_list (fs : BaseFs) (strict : Bool) (ppath : String) : List Node → Bool
  | [] => true
  | c :: cs =>
      (!strict || !cannot_mnt fs (child_path ppath c.name) c) &&
        inter_settled fs (child_path ppath c.name) c &&
        inter_settled_list fs strict ppath cs
end

/-! ## Concrete inputs -/

/-- A base filesystem given by the paths `lstat` knows and the directories that open. -/
def paths_fs (files : List (String × FileType)) (dirs : List (String × List dirent)) :
    BaseFs where
  lstat := fun p => (files.find? (fun x => x.1 == p)).map (fun x => x.2)
  readdir := fun p => (dirs.find? (fun x => x.1 == p)).map (fun x => x.2)

/-- A small base filesystem: `/system` with `lib`, `etc` and `app`, and a `/vendor` partition. -/
def fs_demo : BaseFs :=
  paths_fs
    [("/system", .dir), ("/system/lib", .dir), ("/system/lib/libfoo.so", .reg),
     ("/system/etc", .dir), ("/system/etc/hosts", .reg), ("/system/etc/y", .lnk),
     ("/system/app", .dir), ("/system/app/Old.apk", .reg),
     ("/vendor", .dir), ("/vendor/lib", .dir), ("/vendor/lib/libv.so", .reg)]
    [("/system/etc", [⟨".", .dir⟩, ⟨"..", .dir⟩, ⟨"hosts", .reg⟩, ⟨"y", .lnk⟩]),
     ("/system/app", [⟨".", .dir⟩, ⟨"..", .dir⟩, ⟨"Old.apk", .reg⟩])]

/-- A `system` root holding a directory that exists, a file that does not, and a symlink. -/
def system_demo : Node :=
  .mk "system" .root .dir true false "" ""
    [.mk "etc" .inter .dir false false "" "" [],
     .mk "missing" .module .reg false false "m1" "" [],
     .mk "lib" .module .lnk false false "m1" "" []]

/-- A module root with the single enabled module `m1`, whose `system` holds `content`. -/
def mfs_single (content : List ModEntry) : ModuleFs where
  listing := some [⟨".", .dir⟩, ⟨"..", .dir⟩, ⟨"m1", .dir⟩]
  disable := fun _ => false
  skip_mount := fun _ => false
  has_system := fun _ => true
  system_dir := fun _ => some content

/-- The module `m1` shipping `system/vendor/lib/libv.so`. -/
def mfs_vendor : ModuleFs :=
  mfs_single (single_file ["vendor", "lib"] "libv.so")

/-- The module `m1` shipping `system/system/x`. -/
def mfs_nested_system : ModuleFs :=
  mfs_single (single_file ["system"] "x")

/-- A base filesystem where `/system/vendor` and `/vendor` are both real directories. -/
def fs_two_vendors : BaseFs :=
  paths_fs
    [("/system", .dir), ("/system/vendor", .dir), ("/system/vendor/lib", .dir),
     ("/system/vendor/lib/libv.so", .reg),
     ("/vendor", .dir), ("/vendor/lib", .dir), ("/vendor/lib/libv.so", .reg)]
    []

/-- A base filesystem where `/system/etc/x` is a symlink. -/
def fs_link : BaseFs :=
  paths_fs
    [("/system", .dir), ("/system/etc", .dir), ("/system/etc/hosts", .reg),
     ("/system/etc/x", .lnk)]
    [("/system/etc", [⟨".", .dir⟩, ⟨"..", .dir⟩, ⟨"hosts", .reg⟩, ⟨"x", .lnk⟩])]

/-- The module `m1` shipping the regular file `system/etc/x`. -/
def mfs_etc_x : ModuleFs := mfs_single (single_file ["etc"] "x")

/-- The module `m1` shipping the symlink `system/etc/lnk`. -/
def mfs_etc_lnk : ModuleFs :=
  mfs_single (dot_entries ++ [.mk "etc" .dir true (dot_entries ++ [.mk "lnk" .lnk false []])])

/-- The collected node of `system/app` with `.replace`, `Foo.apk` and a directory `res`. -/
def app_replaced : Node :=
  .mk "app" .inter .dir true true "" ""
    [.mk "Foo.apk" .module .reg false false "m1" "" [],
     .mk "res" .inter .dir false false "" ""
       [.mk "a.xml" .module .reg false false "m1" "" []]]

/-- The collected node of `system/app` with `.replace` and `Foo.apk` only. -/
def app_foo : Node :=
  .mk "app" .inter .dir true true "" "" [.mk "Foo.apk" .module .reg false false "m1" "" []]

/-- The collected node of `system/etc` holding the symlink `x`. -/
def etc_x : Node :=
  .mk "etc" .inter .dir true false "" "" [.mk "x" .module .lnk false false "m1" "" []]

/-- A tmpfs node for `/system/app` holding `Foo.apk`. -/
def app_tmpfs : Node :=
  .mk "app" .tmpfs .dir true true "" "" [.mk "Foo.apk" .module .reg false false "m1" "" []]


/-- The node of `/system/lib` after `prepare` when `m1` ships `system/lib/libfoo.so`
and both exist in the base file system: still an intermediate node. -/
def lib_kept : Node :=
  .mk "lib" .inter .dir true false "" "" [.mk "libfoo.so" .module .reg true false "m1" "" []]

/-- A `system` root in which an earlier module `m0` holds the name `lib` with a file. -/
def system_lib_file : Node :=
  .mk "system" .root .dir false false "" "" [.mk "lib" .module .reg false false "m0" "" []]

/-- The module node of `/system/lib/libfoo.so` of module `m1`, present in the base
file system. -/
def libfoo_node : Node := .mk "libfoo.so" .module .reg true false "m1" "" []

/-- A system in which every call succeeds, nothing is mounted yet, and `m1`
ships `system/lib/libfoo.so`. -/
def sys_demo : Sys where
  mount_fails := fun _ _ _ _ => false
  umount2_fails := fun _ => false
  mountinfo := []
  fs := fs_demo
  mfs := mfs_single (single_file ["lib"] "libfoo.so")

/-- The system `sys_demo` where mounting on the work dir fails. -/
def sys_no_tmp : Sys :=
  { sys_demo with mount_fails := fun _ target _ _ => target == "/debug_ramdisk" }

/-- A base filesystem where `/system/etc/d` is a symlink that opens as a
directory holding the symlink `z`. -/
def fs_link_dir : BaseFs :=
  paths_fs
    [("/system", .dir), ("/system/etc", .dir), ("/system/etc/d", .lnk),
     ("/system/etc/d/z", .lnk)]
    [("/system/etc", [⟨".", .dir⟩, ⟨"..", .dir⟩, ⟨"d", .lnk⟩]),
     ("/system/etc/d", [⟨".", .dir⟩, ⟨"..", .dir⟩, ⟨"z", .lnk⟩])]

/-- The module `m1` shipping the regular file `system/etc/new`. -/
def mfs_etc_new : ModuleFs := mfs_single (single_file ["etc"] "new")
/-! ## Basic facts about the node record and the child map -/

@[simp] theorem Node.name_mk (n t f e r m p cs) : (Node.mk n t f e r m p cs).name = n := rfl
@[simp] theorem Node.node_type_mk (n t f e r m p cs) :
    (Node.mk n t f e r m p cs).node_type = t := rfl
@[simp] theorem Node.file_type_mk (n t f e r m p cs) :
    (Node.mk n t f e r m p cs).file_type = f := rfl
@[simp] theorem Node.exist_mk (n t f e r m p cs) : (Node.mk n t f e r m p cs).exist = e := rfl
@[simp] theorem Node.replace_mk (n t f e r m p cs) :
    (Node.mk n t f e r m p cs).replace = r := rfl
@[simp] theorem Node.module_mk (n t f e r m p cs) : (Node.mk n t f e r m p cs).module = m := rfl
@[simp] theorem Node.pfx_mk (n t f e r m p cs) : (Node.mk n t f e r m p cs).pfx = p := rfl
@[simp] theorem Node.children_mk (n t f e r m p cs) :
    (Node.mk n t f e r m p cs).children = cs := rfl

theorem Node.eta (n : Node) :
    Node.mk n.name n.node_type n.file_type n.exist n.replace n.module n.pfx n.children = n := by
  cases n; rfl

@[simp] theorem Node.name_set_exist (b : Bool) (n : Node) : (n.set_exist b).name = n.name := by
  cases n; rfl
@[simp] theorem Node.node_type_set_exist (b : Bool) (n : Node) :
    (n.set_exist b).node_type = n.node_type := by
  cases n; rfl
@[simp] theorem Node.file_type_set_exist (b : Bool) (n : Node) :
    (n.set_exist b).file_type = n.file_type := by
  cases n; rfl
@[simp] theorem Node.children_set_exist (b : Bool) (n : Node) :
    (n.set_exist b).children = n.children := by
  cases n; rfl
@[simp] theorem Node.name_set_children (cs : List Node) (n : Node) :
    (n.set_children cs).name = n.name := by
  cases n; rfl
@[simp] theorem Node.children_set_children (cs : List Node) (n : Node) :
    (n.set_children cs).children = cs := by
  cases n; rfl
@[simp] theorem Node.node_type_set_children (cs : List Node) (n : Node) :
    (n.set_children cs).node_type = n.node_type := by
  cases n; rfl

theorem name_tmpfs_node_fuel (fs : BaseFs) (k : Nat) (path : String) (n : Node) :
    (tmpfs_node_fuel fs k path n).name = n.name := by
  cases k <;> simp [tmpfs_node_fuel]

theorem node_type_tmpfs_node_fuel (fs : BaseFs) (k : Nat) (path : String) (n : Node) :
    (tmpfs_node_fuel fs k path n).node_type = NodeType.tmpfs := by
  cases k <;> simp [tmpfs_node_fuel]

theorem name_tmpfs_node (fs : BaseFs) (path : String) (n : Node) :
    (tmpfs_node fs path n).name = n.name :=
  name_tmpfs_node_fuel fs _ path n

theorem name_upgrade_tmpfs (fs : BaseFs) (path : String) (n : Node) :
    (upgrade_tmpfs fs path n).name = n.name := by
  unfold upgrade_tmpfs
  split
  · exact name_tmpfs_node fs path n
  · rfl

theorem name_prepare_node (fs : BaseFs) (path : String) (ex rep : Bool) (n : Node) :
    (prepare_node fs path ex rep n).2.name = n.name := by
  cases n; simp [prepare_node]

@[simp] theorem Node.name_set_replace (b : Bool) (n : Node) :
    (n.set_replace b).name = n.name := by
  cases n; rfl
@[simp] theorem Node.node_type_set_replace (b : Bool) (n : Node) :
    (n.set_replace b).node_type = n.node_type := by
  cases n; rfl
@[simp] theorem Node.file_type_set_replace (b : Bool) (n : Node) :
    (n.set_replace b).file_type = n.file_type := by
  cases n; rfl
@[simp] theorem Node.children_set_replace (b : Bool) (n : Node) :
    (n.set_replace b).children = n.children := by
  cases n; rfl
@[simp] theorem Node.exist_set_exist (b : Bool) (n : Node) : (n.set_exist b).exist = b := by
  cases n; rfl
@[simp] theorem Node.replace_set_exist (b : Bool) (n : Node) :
    (n.set_exist b).replace = n.replace := by
  cases n; rfl
@[simp] theorem Node.exist_set_replace (b : Bool) (n : Node) :
    (n.set_replace b).exist = n.exist := by
  cases n; rfl
@[simp] theorem Node.replace_set_replace (b : Bool) (n : Node) :
    (n.set_replace b).replace = b := by
  cases n; rfl
@[simp] theorem Node.isa_dir_set_exist (b : Bool) (n : Node) :
    (n.set_exist b).isa_dir = n.isa_dir := by
  cases n; rfl
@[simp] theorem Node.isa_dir_set_replace (b : Bool) (n : Node) :
    (n.set_replace b).isa_dir = n.isa_dir := by
  cases n; rfl

/-- The recursive form of `prepare` with the flags passed along is `prepare` on
the node carrying those flags. -/
theorem prepare_node_eq (fs : BaseFs) (path : String) (ex rep : Bool) (n : Node) :
    prepare_node fs path ex rep n = prepare fs path ((n.set_exist ex).set_replace rep) := by
  cases n; simp [prepare, prepare_node, Node.set_exist, Node.set_replace]

theorem name_prepare (fs : BaseFs) (path : String) (n : Node) :
    (prepare fs path n).2.name = n.name :=
  name_prepare_node fs path _ _ n

theorem name_prepared_child (fs : BaseFs) (cpath : String) (rep : Bool) (c : Node) :
    (prepared_child fs cpath rep c).name = c.name := by
  simp only [prepared_child]
  split_ifs <;> simp [name_upgrade_tmpfs, name_prepare]

/-- The loop of `prepare` on a child it keeps. -/
theorem prepare_loop_cons_keep (fs : BaseFs) (path : String) (t : NodeType) (rep : Bool)
    (c : Node) (cs : List Node) (up : Bool)
    (h : (cannot_mnt fs (child_path path c.name) c &&
      decide (type_id t > type_id NodeType.tmpfs)) = false) :
    prepare_loop fs path t rep (c :: cs) up =
      ((prepare_loop fs path t rep cs (up || cannot_mnt fs (child_path path c.name) c)).1,
        prepared_child fs (child_path path c.name) rep c ::
          (prepare_loop fs path t rep cs
            (up || cannot_mnt fs (child_path path c.name) c)).2) := by
  rw [prepare_loop]
  simp only [h, Bool.false_eq_true, if_false]
  congr 2
  unfold prepared_child
  rw [prepare_node_eq]
  cases hs : (fs.lstat (child_path path c.name)).isSome <;> cases rep <;>
    cases hd : c.isa_dir <;> cases c <;>
    simp [Node.set_exist, Node.set_replace, Node.isa_dir] at hd ⊢ <;> simp [hd, Node.isa_dir]

theorem prepare_loop_cons_drop (fs : BaseFs) (path : String) (t : NodeType) (rep : Bool)
    (c : Node) (cs : List Node) (up : Bool)
    (h : (cannot_mnt fs (child_path path c.name) c &&
      decide (type_id t > type_id NodeType.tmpfs)) = true) :
    prepare_loop fs path t rep (c :: cs) up = prepare_loop fs path t rep cs up := by
  rw [prepare_loop]
  simp only [h, if_true]

theorem prepare_loop_fst (fs : BaseFs) (path : String) (t : NodeType) (rep : Bool)
    (cs : List Node) (up : Bool) :
    (prepare_loop fs path t rep cs up).1 =
      (up || (decide (type_id t ≤ type_id NodeType.tmpfs) &&
        cs.any (fun c => cannot_mnt fs (child_path path c.name) c))) := by
  induction cs generalizing up with
  | nil => simp [prepare_loop]
  | cons c cs ih =>
    rw [prepare_loop]
    by_cases hc : cannot_mnt fs (child_path path c.name) c = true
    · by_cases ht : type_id t > type_id NodeType.tmpfs
      · have : ¬ type_id t ≤ type_id NodeType.tmpfs := by omega
        simp [hc, ht, ih, this]
      · have : type_id t ≤ type_id NodeType.tmpfs := by omega
        simp [hc, ht, ih, this]
    · simp only [Bool.not_eq_true] at hc
      simp [hc, ih]

theorem prepare_fst (fs : BaseFs) (path : String) (D : Node) :
    (prepare fs path D).1 =
      (D.replace || !D.exist || (decide (type_id D.node_type ≤ type_id NodeType.tmpfs) &&
        D.children.any (fun c => cannot_mnt fs (child_path path c.name) c))) := by
  cases D with
  | mk n t f e r m p cs => simp [prepare, prepare_node, prepare_loop_fst]

theorem prepare_children (fs : BaseFs) (path : String) (D : Node) :
    (prepare fs path D).2.children =
      (prepare_loop fs path D.node_type D.replace D.children (D.replace || !D.exist)).2 := by
  cases D with
  | mk n t f e r m p cs => simp [prepare, prepare_node]

theorem cannot_mnt_iff (fs : BaseFs) (path : String) (c : Node) :
    cannot_mnt fs path c = true ↔
      (fs.lstat path = none ∨ c.is_lnk = true ∨ fs.lstat path = some FileType.lnk) := by
  unfold cannot_mnt
  cases h : fs.lstat path with
  | none => simp
  | some st => cases st <;> simp

theorem cannot_mnt_eq_false_iff (fs : BaseFs) (path : String) (c : Node) :
    cannot_mnt fs path c = false ↔
      ∃ st, fs.lstat path = some st ∧ st ≠ FileType.lnk ∧ c.is_lnk = false := by
  unfold cannot_mnt
  cases h : fs.lstat path with
  | none => simp
  | some st => cases st <;> simp

/-- Under a root node the loop keeps exactly the children that can be mounted. -/
theorem names_prepare_loop_root (fs : BaseFs) (path : String) (t : NodeType) (rep : Bool)
    (ht : type_id t > type_id NodeType.tmpfs) (cs : List Node) (up : Bool) :
    names (prepare_loop fs path t rep cs up).2 =
      names (cs.filter (fun c => !cannot_mnt fs (child_path path c.name) c)) := by
  induction cs generalizing up with
  | nil => simp [prepare_loop, names]
  | cons c cs ih =>
    by_cases hc : cannot_mnt fs (child_path path c.name) c = true
    · rw [prepare_loop_cons_drop fs path t rep c cs up (by simp [hc, ht])]
      simp [List.filter_cons, hc, ih]
    · simp only [Bool.not_eq_true] at hc
      rw [prepare_loop_cons_keep fs path t rep c cs up (by simp [hc])]
      simp only [names, List.map_cons, List.filter_cons, hc, Bool.not_false, if_true,
        name_prepared_child]
      congr 1
      exact ih _

/-! ## C1 -/

/-- C1: `prepare` on a directory node returns true exactly when the node is
replaced, or does not exist, or is of a variant not above tmpfs and has a child
that cannot be mounted (its `lstat` fails, it is a symlink, or the base entry is
one).  Nothing else enters the result, in particular not what a child's own
`prepare` returned. -/
theorem prepare_returns_true_iff (fs : BaseFs) (path : String) (D : Node) :
    (prepare fs path D).1 = true ↔
      (D.replace = true ∨ D.exist = false ∨
        (type_id D.node_type ≤ type_id NodeType.tmpfs ∧
          ∃ c ∈ D.children,
            (fs.lstat (child_path path c.name) = none ∨ c.is_lnk = true ∨
              fs.lstat (child_path path c.name) = some FileType.lnk))) := by
  rw [prepare_fst]
  simp only [Bool.or_eq_true, Bool.and_eq_true, decide_eq_true_eq, List.any_eq_true,
    Bool.not_eq_true', or_assoc, cannot_mnt_iff]

/-! ## C4 -/

/-- C4: after `prepare` on a root node (a variant above tmpfs) the children are,
in order, those original children whose path exists in the base filesystem with
neither the child nor the base entry a symlink; the others are gone, and the
result of `prepare` is just `replace || !exist`, whatever was deleted. -/
theorem prepare_root_children (fs : BaseFs) (path : String) (D : Node)
    (hD : type_id D.node_type > type_id NodeType.tmpfs) :
    names (prepare fs path D).2.children =
        names (D.children.filter (fun c =>
          decide (∃ st, fs.lstat (child_path path c.name) = some st ∧ st ≠ FileType.lnk ∧
            c.is_lnk = false))) ∧
      (∀ x, x ∈ names (prepare fs path D).2.children ↔
        ∃ c ∈ D.children, c.name = x ∧
          ∃ st, fs.lstat (child_path path c.name) = some st ∧ st ≠ FileType.lnk ∧
            c.is_lnk = false) ∧
      (prepare fs path D).1 = (D.replace || !D.exist) := by
  have hfilter : (fun c : Node => !cannot_mnt fs (child_path path c.name) c) =
      (fun c : Node => decide (∃ st, fs.lstat (child_path path c.name) = some st ∧
        st ≠ FileType.lnk ∧ c.is_lnk = false)) := by
    funext c
    rw [Bool.eq_iff_iff]
    simp only [Bool.not_eq_true', decide_eq_true_eq]
    exact cannot_mnt_eq_false_iff fs _ c
  have h1 := names_prepare_loop_root fs path D.node_type D.replace hD D.children
    (D.replace || !D.exist)
  rw [← prepare_children, hfilter] at h1
  refine ⟨h1, ?_, ?_⟩
  · intro x
    rw [h1]
    simp only [names, List.mem_map, List.mem_filter, decide_eq_true_eq]
    constructor
    · rintro ⟨c, ⟨hc, hst⟩, rfl⟩
      exact ⟨c, hc, rfl, hst⟩
    · rintro ⟨c, hc, rfl, hst⟩
      exact ⟨c, ⟨hc, hst⟩, rfl⟩
  · rw [prepare_fst]
    have : ¬ type_id D.node_type ≤ type_id NodeType.tmpfs := by omega
    simp [this]

/-- Instance of C4 on a `system` root: only `etc` stays. -/
theorem prepare_root_children_witness :
    type_id system_demo.node_type > type_id NodeType.tmpfs ∧
      names (prepare fs_demo "/system" system_demo).2.children = ["etc"] ∧
      (prepare fs_demo "/system" system_demo).1 = false :=
  ⟨by decide,
    (prepare_root_children fs_demo "/system" system_demo (by decide)).1.trans (by decide),
    (prepare_root_children fs_demo "/system" system_demo (by decide)).2.2.trans (by decide)⟩

/-! ## C8 -/

theorem umount_collect_targets (magic : String) (infos : List mount_info) (acc : List String) :
    infos.foldl (fun targets info =>
        if umount_selected magic info then targets ++ [info.target] else targets) acc =
      acc ++ (infos.filter (umount_selected magic)).map (fun i => i.target) := by
  induction infos generalizing acc with
  | nil => simp
  | cons i is ih =>
    simp only [List.foldl_cons, List.filter_cons]
    rw [ih]
    by_cases h : umount_selected magic i = true
    · simp [h]
    · simp [h]

theorem umount_targets_calls (fails : String → Bool) (ts : List String) :
    (umount_targets fails ts).filter Op.is_umount2 =
      ts.map (fun t => Op.umount2 t MNT_DETACH) := by
  induction ts with
  | nil => simp [umount_targets]
  | cons t ts ih =>
    simp only [umount_targets, List.filter_append, ih, List.map_cons]
    cases fails t <;> simp [List.filter_cons, Op.is_umount2]

theorem umount_selected_iff (magic : String) (i : mount_info) :
    umount_selected magic i = true ↔
      ("/adb/modules/".data <+: i.root.data ∨ (i.source = magic ∧ i.type = "tmpfs")) := by
  simp [umount_selected, List.isPrefixOf_iff_prefix]

/-- C8: whatever the `umount2` calls return, `umount_modules` calls
`umount2(_, MNT_DETACH)` on the targets of exactly the records whose root starts
with `/adb/modules/` or whose source is `magic` with type `tmpfs`, in mountinfo
order, each once per record; with no such record it makes no call at all. -/
theorem umount_modules_calls (magic : String) (infos : List mount_info)
    (fails : String → Bool) :
    (umount_modules magic infos fails).filter Op.is_umount2 =
      (infos.filter (fun i => decide ("/adb/modules/".data <+: i.root.data ∨
        (i.source = magic ∧ i.type = "tmpfs")))).map
        (fun i => Op.umount2 i.target MNT_DETACH) := by
  have hsel : (fun i : mount_info => decide ("/adb/modules/".data <+: i.root.data ∨
      (i.source = magic ∧ i.type = "tmpfs"))) = umount_selected magic := by
    funext i
    rw [Bool.eq_iff_iff, decide_eq_true_eq]
    exact (umount_selected_iff magic i).symm
  rw [hsel]
  unfold umount_modules
  rw [umount_collect_targets, umount_targets_calls]
  simp [List.map_map, Function.comp_def]

/-! ## C9 -/

theorem find_child_some {x : String} {cs : List Node} {c : Node}
    (h : find_child x cs = some c) : c ∈ cs ∧ c.name = x := by
  unfold find_child at h
  refine ⟨List.mem_of_find?_eq_some h, ?_⟩
  have := List.find?_some h
  simpa using this

theorem find_child_none {x : String} {cs : List Node} :
    find_child x cs = none ↔ x ∉ names cs := by
  unfold find_child names
  rw [List.find?_eq_none]
  simp only [beq_iff_eq, List.mem_map, not_exists, not_and]

theorem mem_map_put (n c : Node) (cs : List Node) : c ∈ map_put n cs ↔ c = n ∨ c ∈ cs := by
  induction cs with
  | nil => simp [map_put]
  | cons d cs ih =>
    simp only [map_put]
    split
    · simp
    · simp only [List.mem_cons, ih]
      tauto

theorem names_map_set (n : Node) (cs : List Node) : names (map_set n cs) = names cs := by
  induction cs with
  | nil => rfl
  | cons d cs ih =>
    simp only [map_set]
    split
    · rename_i h
      simp only [beq_iff_eq] at h
      simp [names, h]
    · simp only [names, List.map_cons] at ih ⊢
      rw [ih]

theorem mem_names_emplace (n : Node) (cs : List Node) (x : String) :
    x ∈ names (emplace n cs) ↔ x = n.name ∨ x ∈ names cs := by
  unfold emplace
  cases h : find_child n.name cs with
  | none =>
    simp only [names, List.mem_map, mem_map_put]
    constructor
    · rintro ⟨c, hc | hc, rfl⟩
      · exact Or.inl (by rw [hc])
      · exact Or.inr ⟨c, hc, rfl⟩
    · rintro (rfl | ⟨c, hc, rfl⟩)
      · exact ⟨n, Or.inl rfl, rfl⟩
      · exact ⟨c, Or.inr hc, rfl⟩
  | some old =>
    have hold := find_child_some h
    have hmem : n.name ∈ names cs := List.mem_map.mpr ⟨old, hold.1, hold.2⟩
    simp only
    split
    · rw [names_map_set]
      constructor
      · exact Or.inr
      · rintro (rfl | hx)
        · exact hmem
        · exact hx
    · constructor
      · exact Or.inr
      · rintro (rfl | hx)
        · exact hmem
        · exact hx

/-- An intermediate node never displaces a child: emplacing one keeps every child. -/
theorem mem_emplace_inter (n : Node) (hn : n.node_type = NodeType.inter) (cs : List Node)
    (c : Node) : c ∈ emplace n cs ↔ c ∈ cs ∨ (c = n ∧ n.name ∉ names cs) := by
  unfold emplace
  cases h : find_child n.name cs with
  | none =>
    have := find_child_none.mp h
    simp only [mem_map_put]
    tauto
  | some old =>
    have hold := find_child_some h
    have hmem : n.name ∈ names cs := List.mem_map.mpr ⟨old, hold.1, hold.2⟩
    have : (decide (type_id old.node_type < type_id n.node_type) ||
        (old.node_type == n.node_type && n.node_type != NodeType.inter)) = false := by
      rw [hn]; simp [type_id]
    simp only [this, Bool.false_eq_true, if_false]
    tauto

theorem mem_mirror_fold (es : List dirent) (cs : List Node) (c : Node) :
    c ∈ es.foldl (fun cs e => emplace (inter_node_of e) cs) cs →
      c ∈ cs ∨ ∃ e ∈ es, c = inter_node_of e := by
  induction es generalizing cs with
  | nil => intro h; exact Or.inl h
  | cons e es ih =>
    intro h
    rcases ih _ h with h | ⟨e', he', rfl⟩
    · rw [mem_emplace_inter (inter_node_of e) rfl] at h
      rcases h with h | ⟨rfl, _⟩
      · exact Or.inl h
      · exact Or.inr ⟨e, List.mem_cons_self _ _, rfl⟩
    · exact Or.inr ⟨e', List.mem_cons_of_mem _ he', rfl⟩

theorem mem_mirror_fold_of_mem (es : List dirent) (cs : List Node) (c : Node) (h : c ∈ cs) :
    c ∈ es.foldl (fun cs e => emplace (inter_node_of e) cs) cs := by
  induction es generalizing cs with
  | nil => exact h
  | cons e es ih =>
    apply ih
    rw [mem_emplace_inter (inter_node_of e) rfl]
    exact Or.inl h

theorem names_mirror_fold (es : List dirent) (cs : List Node) (x : String) :
    x ∈ names (es.foldl (fun cs e => emplace (inter_node_of e) cs) cs) ↔
      x ∈ names cs ∨ ∃ e ∈ es, e.d_name = x := by
  induction es generalizing cs with
  | nil => simp
  | cons e es ih =>
    simp only [List.foldl_cons]
    rw [ih, mem_names_emplace]
    simp only [inter_node_of, Node.name_mk, List.mem_cons, exists_eq_or_imp]
    constructor
    · rintro ((rfl | h) | h)
      · exact Or.inr (Or.inl rfl)
      · exact Or.inl h
      · exact Or.inr (Or.inr h)
    · rintro (h | rfl | h)
      · exact Or.inl (Or.inr h)
      · exact Or.inl (Or.inl rfl)
      · exact Or.inr h

theorem mem_xreaddir (raw : List dirent) (e : dirent) :
    e ∈ xreaddir raw ↔ e ∈ raw ∧ e.d_name ≠ "." ∧ e.d_name ≠ ".." := by
  simp [xreaddir, List.mem_filter]

/-! ## The tmpfs constructor -/

theorem tmpfs_budget_pos (path : String) (n : Node) :
    tmpfs_budget path n = ((PATH_MAX - path.length) + n.height) + 1 := rfl

/-- The constructor, one level unfolded. -/
theorem tmpfs_node_unfold (fs : BaseFs) (path : String) (n : Node) :
    tmpfs_node fs path n =
      .mk n.name .tmpfs n.file_type (tmpfs_mirror fs path n).1 n.replace "" ""
        ((tmpfs_mirror fs path n).2.map fun c =>
          if c.isa_inter then
            tmpfs_node_fuel fs ((PATH_MAX - path.length) + n.height) (child_path path c.name) c
          else c) := by
  unfold tmpfs_node
  rw [tmpfs_budget_pos, tmpfs_node_fuel]

theorem names_tmpfs_node (fs : BaseFs) (path : String) (n : Node) :
    names (tmpfs_node fs path n).children = names (tmpfs_mirror fs path n).2 := by
  rw [tmpfs_node_unfold]
  simp only [Node.children_mk, names, List.map_map]
  apply List.map_congr_left
  intro c _
  simp only [Function.comp_apply]
  split
  · exact name_tmpfs_node_fuel fs _ _ c
  · rfl

/-! ## C6 -/

/-- C6: upgrading a directory node to tmpfs gives a tmpfs node whose child names
are the old child names, joined, when the node is not replaced and its base
directory opens, by the names of the base entries other than `.` and `..`; a
replaced node keeps exactly its child names, in order; and every module child
of the old node is a child of the new one, unchanged. -/
theorem tmpfs_node_child_names (fs : BaseFs) (path : String) (n : Node) :
    (tmpfs_node fs path n).node_type = NodeType.tmpfs ∧
      (n.replace = true → names (tmpfs_node fs path n).children = names n.children) ∧
      (∀ x, x ∈ names (tmpfs_node fs path n).children ↔
        (x ∈ names n.children ∨
          (n.replace = false ∧ ∃ dir, open_dir fs path = some dir ∧
            ∃ e ∈ dir, e.d_name = x ∧ x ≠ "." ∧ x ≠ ".."))) ∧
      (∀ c ∈ n.children, c.node_type = NodeType.module →
        c ∈ (tmpfs_node fs path n).children) := by
  refine ⟨node_type_tmpfs_node_fuel fs _ path n, ?_, ?_, ?_⟩
  · intro hr
    rw [names_tmpfs_node]
    simp [tmpfs_mirror, hr]
  · intro x
    rw [names_tmpfs_node]
    unfold tmpfs_mirror
    cases hr : n.replace with
    | true => simp
    | false =>
      cases hd : open_dir fs path with
      | none => simp
      | some dir =>
        simp only [Bool.false_eq_true, if_false, names_mirror_fold, mem_xreaddir, true_and,
          Option.some.injEq, exists_eq_left']
        constructor
        · rintro (h | ⟨e, ⟨he, h1, h2⟩, rfl⟩)
          · exact Or.inl h
          · exact Or.inr ⟨e, he, rfl, h1, h2⟩
        · rintro (h | ⟨e, he, rfl, h1, h2⟩)
          · exact Or.inl h
          · exact Or.inr ⟨e, ⟨he, h1, h2⟩, rfl⟩
  · intro c hc hm
    rw [tmpfs_node_unfold]
    simp only [Node.children_mk, List.mem_map]
    refine ⟨c, ?_, ?_⟩
    · unfold tmpfs_mirror
      split
      · exact hc
      · split
        · exact mem_mirror_fold_of_mem _ _ c hc
        · exact hc
    · simp [Node.isa_inter, hm]

/-! ## Targets of the mount pass -/

theorem length_child_path (p x : String) : p.length < (child_path p x).length := by
  simp [child_path, String.length_append]
  have : "/".length = 1 := rfl
  omega

theorem length_worker_path (tmp p : String) : p.length < (worker_path tmp p).length := by
  simp only [worker_path, String.length_append]
  have : WORKERDIR.length = 14 := by decide
  omega

theorem bind_mount_target (src dest : String) (move : Bool) (op : Op) (t : String)
    (h : op ∈ bind_mount src dest move) (ht : op.mount_target = some t) : t = dest := by
  simp only [bind_mount, List.mem_singleton] at h
  subst h
  simpa [Op.mount_target] using ht.symm

theorem create_and_mount_target_eq (tmp : String) (ptmpfs : Bool) (path : String)
    (f : FileType) (src : String) (ro : Bool) :
    ∀ op ∈ create_and_mount tmp ptmpfs path f src ro, ∀ t, op.mount_target = some t →
      t = (if ptmpfs then worker_path tmp path else path) := by
  unfold create_and_mount
  simp only
  split_ifs <;> simp [bind_mount, Op.mount_target]

theorem create_and_mount_target (tmp : String) (ptmpfs : Bool) (path : String) (f : FileType)
    (src : String) (ro : Bool) (op : Op) (t : String)
    (h : op ∈ create_and_mount tmp ptmpfs path f src ro) (ht : op.mount_target = some t) :
    path.length ≤ t.length := by
  rw [create_and_mount_target_eq tmp ptmpfs path f src ro op h t ht]
  split
  · exact Nat.le_of_lt (length_worker_path tmp path)
  · exact Nat.le_refl _

theorem module_mount_target (tmp : String) (ptmpfs : Bool) (rpfx path : String) (n : Node)
    (op : Op) (t : String) (h : op ∈ module_mount tmp ptmpfs rpfx path n)
    (ht : op.mount_target = some t) : path.length ≤ t.length := by
  unfold module_mount at h
  simp only [List.mem_append] at h
  rcases h with h | h
  · split at h
    · simp only [List.mem_singleton] at h
      subst h
      simp [Op.mount_target] at ht
    · simp at h
  · split at h
    · exact create_and_mount_target _ _ _ _ _ _ op t h ht
    · rw [bind_mount_target _ _ _ op t h ht]

theorem tmpfs_mount_head_target (tmp : String) (ptmpfs : Bool) (ppath path : String)
    (n : Node) (op : Op) (t : String) (h : op ∈ tmpfs_mount_head tmp ptmpfs ppath path n)
    (ht : op.mount_target = some t) : t = worker_path tmp path := by
  unfold tmpfs_mount_head at h
  simp only at h
  split at h
  · simp only [List.mem_append, List.mem_singleton, bind_mount] at h
    rcases h with (h | h) | h <;> subst h <;> simp [Op.mount_target] at ht
    exact ht.symm
  · simp only [List.mem_cons, List.mem_singleton, List.not_mem_nil, or_false] at h
    rcases h with h | h <;> subst h <;> simp [Op.mount_target] at ht

theorem tmpfs_mount_tail_target (tmp : String) (ptmpfs : Bool) (path : String)
    (op : Op) (t : String) (h : op ∈ tmpfs_mount_tail tmp ptmpfs path)
    (ht : op.mount_target = some t) : t = path := by
  unfold tmpfs_mount_tail at h
  simp only at h
  split at h
  · simp only [List.mem_append, List.mem_cons, List.mem_singleton, bind_mount,
      List.not_mem_nil, or_false] at h
    rcases h with h | h | h <;> subst h <;> simp [Op.mount_target] at ht <;> exact ht.symm
  · simp at h

theorem root_mount_head_target (path : String) (n : Node) (op : Op) (t : String)
    (h : op ∈ root_mount_head path n) (ht : op.mount_target = some t) : False := by
  unfold root_mount_head at h
  split at h
  · simp at h
  · simp only [List.mem_singleton] at h
    subst h
    simp [Op.mount_target] at ht

mutual
/-- No `mount(2)` target of a node's mount is shorter than the node's path. -/
theorem mount_node_target (tmp : String) (ptmpfs : Bool) (ppath rpfx path : String) :
    ∀ (n : Node) (op : Op) (t : String), op ∈ mount_node tmp ptmpfs ppath rpfx path n →
      op.mount_target = some t → path.length ≤ t.length
  | .mk n ty f e r m p cs, op, t, h, ht => by
    cases ty with
    | module =>
      simp only [mount_node] at h
      exact module_mount_target _ _ _ _ _ op t h ht
    | tmpfs =>
      simp only [mount_node] at h
      split at h
      · exact create_and_mount_target _ _ _ _ _ _ op t h ht
      · simp only [List.mem_append] at h
        rcases h with (h | h) | h
        · rw [tmpfs_mount_head_target _ _ _ _ _ op t h ht]
          exact Nat.le_of_lt (length_worker_path tmp path)
        · exact Nat.le_of_lt (mount_children_target tmp true path rpfx cs op t h ht)
        · rw [tmpfs_mount_tail_target _ _ _ op t h ht]
    | inter =>
      simp only [mount_node] at h
      exact Nat.le_of_lt (mount_children_target tmp false path rpfx cs op t h ht)
    | root =>
      simp only [mount_node, List.mem_append] at h
      rcases h with h | h
      · exact (root_mount_head_target _ _ op t h ht).elim
      · exact Nat.le_of_lt (mount_children_target tmp false path p cs op t h ht)
/-- Every `mount(2)` target of the children's mounts is longer than the parent's path. -/
theorem mount_children_target (tmp : String) (ptmpfs : Bool) (ppath rpfx : String) :
    ∀ (cs : List Node) (op : Op) (t : String), op ∈ mount_children tmp ptmpfs ppath rpfx cs →
      op.mount_target = some t → ppath.length < t.length
  | [], op, t, h, _ => by simp [mount_children] at h
  | c :: cs, op, t, h, ht => by
    simp only [mount_children, List.mem_append] at h
    rcases h with h | h
    · exact Nat.lt_of_lt_of_le (length_child_path ppath c.name)
        (mount_node_target tmp ptmpfs ppath rpfx _ c op t h ht)
    · exact mount_children_target tmp ptmpfs ppath rpfx cs op t h ht
end


theorem mount_node_tmpfs_dir (tmp : String) (ptmpfs : Bool) (ppath rpfx path : String)
    (n : Node) (ht : n.node_type = NodeType.tmpfs) (hd : n.file_type = FileType.dir) :
    mount_node tmp ptmpfs ppath rpfx path n =
      tmpfs_mount_head tmp ptmpfs ppath path n ++
        mount_children tmp true path rpfx n.children ++ tmpfs_mount_tail tmp ptmpfs path := by
  cases n with
  | mk nm ty f e r m p cs =>
    simp only [Node.node_type_mk, Node.file_type_mk] at ht hd
    subst ht hd
    simp [mount_node]

/-! ## C7 -/

/-- C7: a tmpfs directory node whose parent is not tmpfs mounts as: `mkdirs` of
the worker path, the self bind of the worker path, `clone_attr` onto it, all
calls of all children, the move of the worker path to the node path, the
read-only remount and the `MS_PRIVATE` remount of the node path.  No `mount`
before the move has the node path as target, and the `MS_PRIVATE` remount comes
last.  Under a tmpfs parent the node itself only makes a `mkdir` and a
`clone_attr` before its children's calls. -/
theorem tmpfs_mount_sequence (tmp ppath rpfx path : String) (n : Node)
    (ht : n.node_type = NodeType.tmpfs) (hd : n.file_type = FileType.dir) :
    mount_node tmp false ppath rpfx path n =
        [Op.mkdirs (worker_path tmp path),
         Op.mount (some (worker_path tmp path)) (worker_path tmp path) none (MS_BIND ||| MS_REC),
         Op.clone_attr (if n.exist then path else ppath) (worker_path tmp path)] ++
        mount_children tmp true path rpfx n.children ++
        [Op.mount (some (worker_path tmp path)) path none (MS_MOVE ||| MS_REC),
         Op.mount none path none (MS_REMOUNT ||| MS_RDONLY),
         Op.mount none path none MS_PRIVATE] ∧
      (∀ op ∈ [Op.mkdirs (worker_path tmp path),
          Op.mount (some (worker_path tmp path)) (worker_path tmp path) none (MS_BIND ||| MS_REC),
          Op.clone_attr (if n.exist then path else ppath) (worker_path tmp path)] ++
          mount_children tmp true path rpfx n.children,
        op.mount_target ≠ some path) ∧
      (mount_node tmp false ppath rpfx path n).getLast? =
        some (Op.mount none path none MS_PRIVATE) ∧
      mount_node tmp true ppath rpfx path n =
        [Op.mkdir (worker_path tmp path),
         Op.clone_attr (if n.exist then path else worker_path tmp ppath)
           (worker_path tmp path)] ++
        mount_children tmp true path rpfx n.children := by
  have hw : worker_path tmp path ≠ path := by
    intro h
    have := length_worker_path tmp path
    rw [h] at this
    exact Nat.lt_irrefl _ this
  have h1 : mount_node tmp false ppath rpfx path n =
        [Op.mkdirs (worker_path tmp path),
         Op.mount (some (worker_path tmp path)) (worker_path tmp path) none (MS_BIND ||| MS_REC),
         Op.clone_attr (if n.exist then path else ppath) (worker_path tmp path)] ++
        mount_children tmp true path rpfx n.children ++
        [Op.mount (some (worker_path tmp path)) path none (MS_MOVE ||| MS_REC),
         Op.mount none path none (MS_REMOUNT ||| MS_RDONLY),
         Op.mount none path none MS_PRIVATE] := by
    rw [mount_node_tmpfs_dir tmp false ppath rpfx path n ht hd]
    simp [tmpfs_mount_head, tmpfs_mount_tail, bind_mount]
  refine ⟨h1, ?_, ?_, ?_⟩
  · intro op hop
    rw [List.mem_append] at hop
    rcases hop with hop | hop
    · simp only [List.mem_cons, List.mem_singleton, List.not_mem_nil, or_false] at hop
      rcases hop with rfl | rfl | rfl
      · simp [Op.mount_target]
      · simpa [Op.mount_target] using hw
      · simp [Op.mount_target]
    · intro h
      exact Nat.lt_irrefl _ (mount_children_target tmp true path rpfx n.children op path hop h)
  · rw [h1]
    have : ∀ (xs : List Op) (a b c : Op), (xs ++ [a, b, c]).getLast? = some c := by
      intro xs a b c
      have : xs ++ [a, b, c] = (xs ++ [a, b]) ++ [c] := by simp
      rw [this, List.getLast?_append]
      simp
    exact this _ _ _ _
  · rw [mount_node_tmpfs_dir tmp true ppath rpfx path n ht hd]
    simp [tmpfs_mount_head, tmpfs_mount_tail]
/-! ## Lookups in the child map -/

theorem mem_names_of_find_child {x : String} {cs : List Node} {c : Node}
    (h : find_child x cs = some c) : x ∈ names cs :=
  List.mem_map.mpr ⟨c, (find_child_some h).1, (find_child_some h).2⟩

/-! ## One round of the partition loop -/

theorem skip_first_byte_eq {part name : String} (h : skip_first_byte part = some name) :
    name = part.drop 1 := by
  unfold skip_first_byte at h
  split at h
  · exact (Option.some.inj h).symm
  · simp at h

theorem extract_bind_some {part : String} {cs : List Node} {old : Node} {rest : List Node}
    (h : (skip_first_byte part).bind (fun name => extract name cs) = some (old, rest)) :
    ∃ name, skip_first_byte part = some name ∧ find_child name cs = some old ∧
      rest = cs.filter (fun c => !(c.name == name)) := by
  cases hs : skip_first_byte part with
  | none => simp [hs] at h
  | some name =>
    simp only [hs, Option.some_bind, extract] at h
    cases hf : find_child name cs with
    | none => simp [hf] at h
    | some old1 =>
      simp only [hf, Option.some.injEq, Prod.mk.injEq] at h
      exact ⟨name, rfl, by rw [hf, h.1], h.2.symm⟩

theorem extract_partition_unchanged (fs : BaseFs) (part : String) (root system : Node)
    (hsys : find_child "system" root.children = some system)
    (h : part.isEmpty = true ∨ fs.lstat part ≠ some FileType.dir ∨
      ∀ name, skip_first_byte part = some name → name ∉ names system.children) :
    extract_partition fs part root = root := by
  unfold extract_partition
  split
  · rename_i hc
    simp only [Bool.and_eq_true, Bool.not_eq_true', beq_iff_eq] at hc
    rcases h with h | h | h
    · rw [hc.1] at h; exact absurd h (by simp)
    · exact absurd hc.2 h
    · rw [hsys]
      simp only
      have : (skip_first_byte part).bind (fun name => extract name system.children) = none := by
        cases hs : skip_first_byte part with
        | none => rfl
        | some name =>
          simp only [Option.some_bind, extract]
          rw [find_child_none.mpr (h name hs)]
      rw [this]
  · rfl

theorem mem_map_set (n c : Node) (cs : List Node) (h : c ∈ map_set n cs) : c = n ∨ c ∈ cs := by
  induction cs with
  | nil => simp [map_set] at h
  | cons d cs ih =>
    simp only [map_set] at h
    split at h
    · simp only [List.mem_cons] at h ⊢
      tauto
    · simp only [List.mem_cons] at h ⊢
      rcases h with h | h
      · exact Or.inr (Or.inl h)
      · rcases ih h with h | h
        · exact Or.inl h
        · exact Or.inr (Or.inr h)

theorem mem_emplace (n c : Node) (cs : List Node) (h : c ∈ emplace n cs) : c = n ∨ c ∈ cs := by
  unfold emplace at h
  split at h
  · exact (mem_map_put n c cs).mp h
  · split at h
    · exact mem_map_set n c cs h
    · exact Or.inr h

/-- A round of the collection loop keeps the name and the variant of the node. -/
theorem name_collect_entry (module : String) (e : ModEntry) (n : Node) :
    (collect_entry module e n).name = n.name ∧
      (collect_entry module e n).node_type = n.node_type := by
  cases e with
  | mk name ty opens sub =>
    simp only [collect_entry]
    by_cases h1 : (name == "." || name == "..") = true
    · rw [if_pos h1]
      exact ⟨rfl, rfl⟩
    · rw [if_neg h1]
      by_cases h2 : (name == ".replace") = true
      · rw [if_pos h2]
        exact ⟨by simp, by simp⟩
      · rw [if_neg h2]
        by_cases h3 : (ty == FileType.dir) = true
        · rw [if_pos h3]
          cases find_child name n.children with
          | none => exact ⟨by simp, by simp⟩
          | some c =>
            simp only
            by_cases h4 : c.isa_inter = true
            · rw [if_pos h4]
              exact ⟨by simp, by simp⟩
            · rw [if_neg h4]
              exact ⟨rfl, rfl⟩
        · rw [if_neg h3]
          exact ⟨by simp, by simp⟩

theorem name_collect_entries (module : String) (es : List ModEntry) (n : Node) :
    (collect_entries module es n).name = n.name ∧
      (collect_entries module es n).node_type = n.node_type := by
  induction es generalizing n with
  | nil => simp [collect_entries]
  | cons e es ih =>
    rw [collect_entries]
    have h := name_collect_entry module e n
    exact ⟨(ih _).1.trans h.1, (ih _).2.trans h.2⟩

theorem name_collect_module_files (module : String) (dir : Option (List ModEntry)) (n : Node) :
    (collect_module_files module dir n).name = n.name ∧
      (collect_module_files module dir n).node_type = n.node_type := by
  cases dir with
  | none => simp [collect_module_files]
  | some raw =>
    simp only [collect_module_files]
    exact name_collect_entries module raw n

theorem name_collect_modules (mfs : ModuleFs) (ms : List String) (n : Node) :
    (collect_modules mfs ms n).name = n.name ∧
      (collect_modules mfs ms n).node_type = n.node_type := by
  induction ms generalizing n with
  | nil => simp [collect_modules]
  | cons m ms ih =>
    simp only [collect_modules]
    split_ifs
    · exact ih n
    · exact ih n
    · have h1 := ih (collect_module_files m (mfs.system_dir m) n)
      have h2 := name_collect_module_files m (mfs.system_dir m) n
      exact ⟨h1.1.trans h2.1, h1.2.trans h2.2⟩

/-- Instance of C10 where the names meet: `m1` ships `system/system/x` and
`/system` is among the partitions.  The child `system` is taken out of the
`system` node, and the root node made of it, with the child `x`, is the child
`system` of the tree root. -/
theorem partition_round_same_name :
    (build_tree fs_demo mfs_nested_system ["/system"] ["m1"]).children =
      [Node.mk "system" .root .dir true false "" "/system"
        [Node.mk "x" .module .reg false false "m1" "" []]] := by
  decide

/-! ## C3: one module, one regular file -/

theorem collect_dot_entries (module : String) (es : List ModEntry) (n : Node) :
    collect_entries module (dot_entries ++ es) n = collect_entries module es n := by
  simp [dot_entries, collect_entries, collect_entry]

theorem collect_single_file (module : String) (dirs : List String) (file : String) (n : Node)
    (hn : n.children = [])
    (hnames : ∀ c ∈ dirs ++ [file], c ≠ "." ∧ c ≠ ".." ∧ c ≠ ".replace") :
    collect_entries module (single_file dirs file) n =
      n.set_children [single_file_node module false dirs file] := by
  induction dirs generalizing n with
  | nil =>
    have h := hnames file (by simp)
    rw [single_file, collect_dot_entries]
    simp only [collect_entries, collect_entry]
    have h1 : (file == "." || file == "..") = false := by simp [h.1, h.2.1]
    have h2 : (file == ".replace") = false := by simp [h.2.2]
    simp [h1, h2, hn, emplace, find_child, map_put, module_node, single_file_node]
  | cons d ds ih =>
    have h := hnames d (by simp)
    have hrest : ∀ c ∈ ds ++ [file], c ≠ "." ∧ c ≠ ".." ∧ c ≠ ".replace" := by
      intro c hc
      exact hnames c (by simp at hc ⊢; tauto)
    have hchild := ih (inter_node d) rfl hrest
    rw [single_file, collect_dot_entries]
    simp only [collect_entries, collect_entry]
    have h1 : (d == "." || d == "..") = false := by simp [h.1, h.2.1]
    have h2 : (d == ".replace") = false := by simp [h.2.2]
    simp only [h1, h2, Bool.false_eq_true, if_false, beq_self_eq_true, if_true, hn, find_child,
      List.find?_nil, hchild]
    simp [emplace, find_child, map_put, map_set, inter_node, single_file_node, Node.set_children]

theorem collect_modules_single (mfs : ModuleFs) (m : String) (dirs : List String)
    (file : String) (hskip : mfs.skip_mount m = false) (hsys : mfs.has_system m = true)
    (hdir : mfs.system_dir m = some (single_file dirs file))
    (hnames : ∀ c ∈ dirs ++ [file], c ≠ "." ∧ c ≠ ".." ∧ c ≠ ".replace") :
    collect_modules mfs [m] (root_node "system") =
      (root_node "system").set_children [single_file_node m false dirs file] := by
  simp only [collect_modules, hskip, hsys, hdir, collect_module_files, Bool.false_eq_true,
    if_false, Bool.not_true]
  exact collect_single_file m dirs file _ rfl hnames

theorem name_single_file_node (m : String) (ex : Bool) (dirs : List String) (file : String) :
    (single_file_node m ex dirs file).name = (dirs ++ [file]).head (by simp) := by
  cases dirs <;> simp [single_file_node]

theorem is_lnk_single_file_node (m : String) (ex : Bool) (dirs : List String) (file : String) :
    (single_file_node m ex dirs file).is_lnk = false := by
  cases dirs <;> simp [single_file_node, Node.is_lnk]

theorem foldl_extract_unchanged (fs : BaseFs) (partitions : List String) (root system : Node)
    (hsys : find_child "system" root.children = some system)
    (h : ∀ part ∈ partitions, part.isEmpty = true ∨ fs.lstat part ≠ some FileType.dir ∨
      part.drop 1 ∉ names system.children) :
    partitions.foldl (fun r part => extract_partition fs part r) root = root := by
  induction partitions with
  | nil => rfl
  | cons p ps ih =>
    simp only [List.foldl_cons]
    have hp : p.isEmpty = true ∨ fs.lstat p ≠ some FileType.dir ∨
        ∀ name, skip_first_byte p = some name → name ∉ names system.children := by
      rcases h p (by simp) with h1 | h1 | h1
      · exact Or.inl h1
      · exact Or.inr (Or.inl h1)
      · refine Or.inr (Or.inr ?_)
        intro name hn
        rw [skip_first_byte_eq hn]
        exact h1
    rw [extract_partition_unchanged fs p root system hsys hp]
    exact ih (fun part hp => h part (by simp [hp]))

/-- Preparing the chain of a single file whose path exists in the base
filesystem marks every node existing and upgrades nothing. -/
theorem prepare_loop_single_file (fs : BaseFs) (m : String) (t : NodeType)
    (ht : t = NodeType.inter ∨ t = NodeType.root)
    (dirs : List String) (file : String) (path : String)
    (hbase : base_has fs path (dirs ++ [file]) = true) :
    prepare_loop fs path t false [single_file_node m false dirs file] false =
      (false, [single_file_node m true dirs file]) := by
  induction dirs generalizing path t with
  | nil =>
    simp only [List.nil_append, base_has, Bool.and_true] at hbase
    have hc : cannot_mnt fs (child_path path file)
        (single_file_node m false [] file) = false := by
      unfold cannot_mnt
      cases hl : fs.lstat (child_path path file) with
      | none => simp [hl] at hbase
      | some st =>
        simp only [hl] at hbase
        cases st <;> simp_all [single_file_node, Node.is_lnk]
    have hs : (fs.lstat (child_path path file)).isSome = true := by
      cases hl : fs.lstat (child_path path file) with
      | none => simp [hl] at hbase
      | some st => rfl
    have hname : (single_file_node m false [] file).name = file := rfl
    rw [prepare_loop_cons_keep _ _ _ _ _ _ _ (by rw [hname, hc]; rfl)]
    simp only [hname, hc, Bool.or_false, prepare_loop]
    simp [prepared_child, hs, single_file_node, Node.set_exist, Node.isa_dir]
  | cons d ds ih =>
    simp only [List.cons_append, base_has, Bool.and_eq_true] at hbase
    obtain ⟨hd, hrest⟩ := hbase
    have hc : cannot_mnt fs (child_path path d)
        (single_file_node m false (d :: ds) file) = false := by
      unfold cannot_mnt
      cases hl : fs.lstat (child_path path d) with
      | none => simp [hl] at hd
      | some st =>
        simp only [hl] at hd
        cases st <;> simp_all [single_file_node, Node.is_lnk]
    have hs : (fs.lstat (child_path path d)).isSome = true := by
      cases hl : fs.lstat (child_path path d) with
      | none => simp [hl] at hd
      | some st => rfl
    have hname : (single_file_node m false (d :: ds) file).name = d := rfl
    rw [prepare_loop_cons_keep _ _ _ _ _ _ _ (by rw [hname, hc]; rfl)]
    simp only [hname, hc, Bool.or_false, prepare_loop]
    have hrec := ih NodeType.inter (Or.inl rfl) (child_path path d) hrest
    simp [prepared_child, hs, single_file_node, Node.set_exist, Node.isa_dir, prepare,
      prepare_node, hrec]

theorem mount_children_single_file (tmp m rpfx : String) (dirs : List String) (file : String)
    (path : String) :
    mount_children tmp false path rpfx [single_file_node m true dirs file] =
      [Op.clone_attr (path_of path (dirs ++ [file]))
          (MODULEROOT ++ "/" ++ (m ++ (rpfx ++ path_of path (dirs ++ [file])))),
        Op.mount (some (module_mnt ++ (m ++ (rpfx ++ path_of path (dirs ++ [file])))))
          (path_of path (dirs ++ [file])) none (MS_BIND ||| MS_REC)] := by
  induction dirs generalizing path with
  | nil =>
    simp [mount_children, mount_node, single_file_node, module_mount, bind_mount, path_of]
  | cons d ds ih =>
    have := ih (child_path path d)
    simp only [mount_children, single_file_node, mount_node, List.append_nil, Node.name_mk] at this ⊢
    rw [this]
    simp [path_of]

theorem has_tmpfs_single_file_node (m : String) (ex : Bool) (dirs : List String)
    (file : String) : has_tmpfs (single_file_node m ex dirs file) = false := by
  induction dirs with
  | nil => simp [single_file_node, has_tmpfs, has_tmpfs_list]
  | cons d ds ih => simp [single_file_node, has_tmpfs, has_tmpfs_list, ih]

theorem child_path_system : child_path "" "system" = "/system" := by decide

theorem module_mnt_eq : module_mnt = "/data/adb/modules/" := by decide

theorem prepared_tree_single_file (fs : BaseFs) (mfs : ModuleFs) (partitions : List String)
    (m : String) (dirs : List String) (file : String)
    (hskip : mfs.skip_mount m = false) (hsys : mfs.has_system m = true)
    (hdir : mfs.system_dir m = some (single_file dirs file))
    (hnames : ∀ c ∈ dirs ++ [file], c ≠ "." ∧ c ≠ ".." ∧ c ≠ ".replace")
    (hbase : base_has fs "" ("system" :: (dirs ++ [file])) = true)
    (hpart : ∀ part ∈ partitions, part.isEmpty = true ∨ fs.lstat part ≠ some FileType.dir ∨
      part.drop 1 ≠ (dirs ++ [file]).head (by simp)) :
    prepared_tree fs mfs partitions [m] =
      some (.mk "" .root .dir true false "" ""
        [.mk "system" .root .dir true false "" "" [single_file_node m true dirs file]]) := by
  have hcol := collect_modules_single mfs m dirs file hskip hsys hdir hnames
  have hbuild : build_tree fs mfs partitions [m] =
      .mk "" .root .dir true false "" ""
        [.mk "system" .root .dir true false "" "" [single_file_node m false dirs file]] := by
    unfold build_tree
    rw [hcol]
    simp only
    have hroot : (root_node "").set_children
        (emplace ((root_node "system").set_children [single_file_node m false dirs file]) []) =
        .mk "" .root .dir true false "" ""
          [.mk "system" .root .dir true false "" "" [single_file_node m false dirs file]] := rfl
    rw [hroot]
    apply foldl_extract_unchanged fs partitions _
      (.mk "system" .root .dir true false "" "" [single_file_node m false dirs file])
    · simp [find_child]
    · intro part hp
      rcases hpart part hp with h | h | h
      · exact Or.inl h
      · exact Or.inr (Or.inl h)
      · refine Or.inr (Or.inr ?_)
        simp only [Node.children_mk, names, List.map_cons, List.map_nil, List.mem_singleton,
          name_single_file_node]
        exact h
  unfold prepared_tree
  rw [hcol, hbuild]
  simp only [Node.is_empty, root_node, Node.set_children, Node.children_mk, List.isEmpty_cons,
    Bool.false_eq_true, if_false]
  congr 1
  simp only [base_has, Bool.and_eq_true] at hbase
  obtain ⟨hs1, hrest⟩ := hbase
  rw [child_path_system] at hs1 hrest
  have hc : cannot_mnt fs "/system"
      (.mk "system" .root .dir true false "" "" [single_file_node m false dirs file]) = false := by
    unfold cannot_mnt
    cases hl : fs.lstat "/system" with
    | none => simp [hl] at hs1
    | some st =>
      simp only [hl] at hs1
      cases st <;> simp_all [Node.is_lnk]
  have hloop := prepare_loop_single_file fs m NodeType.root (Or.inr rfl) dirs file "/system" hrest
  simp only [prepare, prepare_node, Node.exist_mk, Node.replace_mk, Bool.not_true, Bool.or_self]
  rw [prepare_loop_cons_keep _ _ _ _ _ _ _ (by
    simp only [Node.name_mk, child_path_system, hc]; rfl)]
  simp only [Node.name_mk, child_path_system, hc, Bool.or_false, prepare_loop]
  simp [prepared_child, Node.set_exist, Node.isa_dir, prepare, prepare_node, hloop]

/-- C3, amended: one enabled module `m` ships one regular file `system/<p>`, no
name on the way is `.replace`, `/system`, `/system/<p>` and the directories
between exist in the base filesystem as non-symlinks, and no configured
partition that is a directory bears the name of the first component of `<p>`.
Then `load_modules` copies the attributes of `/system/<p>` onto the module's
file and makes exactly one `mount` call, the bind mount (`MS_BIND | MS_REC`) of
`/data/adb/modules/m/system/<p>` on `/system/<p>`; the prepared tree has no
tmpfs node. -/
theorem load_modules_single_file (tmp : String) (fs : BaseFs) (mfs : ModuleFs)
    (partitions : List String) (m : String) (dirs : List String) (file : String)
    (hskip : mfs.skip_mount m = false) (hsys : mfs.has_system m = true)
    (hdir : mfs.system_dir m = some (single_file dirs file))
    (hnames : ∀ c ∈ dirs ++ [file], c ≠ "." ∧ c ≠ ".." ∧ c ≠ ".replace")
    (hbase : base_has fs "" ("system" :: (dirs ++ [file])) = true)
    (hpart : ∀ part ∈ partitions, part.isEmpty = true ∨ fs.lstat part ≠ some FileType.dir ∨
      part.drop 1 ≠ (dirs ++ [file]).head (by simp)) :
    load_modules tmp fs mfs partitions [m] =
        [Op.clone_attr (path_of "/system" (dirs ++ [file]))
            ("/data/adb/modules/" ++ m ++ path_of "/system" (dirs ++ [file])),
          Op.mount (some ("/data/adb/modules/" ++ m ++ path_of "/system" (dirs ++ [file])))
            (path_of "/system" (dirs ++ [file])) none (MS_BIND ||| MS_REC)] ∧
      (load_modules tmp fs mfs partitions [m]).filter Op.is_mount =
        [Op.mount (some ("/data/adb/modules/" ++ m ++ path_of "/system" (dirs ++ [file])))
          (path_of "/system" (dirs ++ [file])) none (MS_BIND ||| MS_REC)] ∧
      ∃ t, prepared_tree fs mfs partitions [m] = some t ∧ has_tmpfs t = false := by
  have hprep := prepared_tree_single_file fs mfs partitions m dirs file hskip hsys hdir hnames
    hbase hpart
  have hops : load_modules tmp fs mfs partitions [m] =
      [Op.clone_attr (path_of "/system" (dirs ++ [file]))
          ("/data/adb/modules/" ++ m ++ path_of "/system" (dirs ++ [file])),
        Op.mount (some ("/data/adb/modules/" ++ m ++ path_of "/system" (dirs ++ [file])))
          (path_of "/system" (dirs ++ [file])) none (MS_BIND ||| MS_REC)] := by
    unfold load_modules
    rw [hprep]
    have hch := mount_children_single_file tmp m "" dirs file "/system"
    simp only [mount_children, List.append_nil] at hch
    simp only [mount_node, root_mount_head, Node.exist_mk, if_true, List.nil_append,
      mount_children, Node.name_mk, child_path_system, List.append_nil]
    rw [hch, module_mnt_eq]
    have hroot : MODULEROOT ++ "/" = "/data/adb/modules/" := by decide
    simp only [String.empty_append, ← String.append_assoc, hroot]
  refine ⟨hops, ?_, _, hprep, ?_⟩
  · rw [hops]
    simp [Op.is_mount]
  · simp [has_tmpfs, has_tmpfs_list, has_tmpfs_single_file_node]

/-- Instance of C3: `m1` ships `system/lib/libfoo.so`. -/
theorem load_modules_single_file_witness :
    load_modules "/debug_ramdisk" fs_demo (mfs_single (single_file ["lib"] "libfoo.so"))
        default_partitions ["m1"] =
      [Op.clone_attr "/system/lib/libfoo.so" "/data/adb/modules/m1/system/lib/libfoo.so",
        Op.mount (some "/data/adb/modules/m1/system/lib/libfoo.so") "/system/lib/libfoo.so"
          none (MS_BIND ||| MS_REC)] :=
  (load_modules_single_file "/debug_ramdisk" fs_demo
    (mfs_single (single_file ["lib"] "libfoo.so")) default_partitions "m1" ["lib"] "libfoo.so"
    rfl rfl rfl (by decide) (by decide) (by decide)).1

/-- Counterexample to C3 as stated: `m1` ships the one regular file
`system/vendor/lib/libv.so`, `/system/vendor/lib/libv.so` and its ancestors are
real directories and files, but `/vendor` is a directory too: the one mount
goes to `/vendor/lib/libv.so`, not to `/system/vendor/lib/libv.so`. -/
theorem load_modules_single_file_vendor :
    base_has fs_two_vendors "" ["system", "vendor", "lib", "libv.so"] = true ∧
      mfs_vendor.system_dir "m1" = some (single_file ["vendor", "lib"] "libv.so") ∧
      ((load_modules "/debug_ramdisk" fs_two_vendors mfs_vendor default_partitions
          ["m1"]).filter Op.is_mount).map Op.mount_target = [some "/vendor/lib/libv.so"] ∧
      (load_modules "/debug_ramdisk" fs_two_vendors mfs_vendor default_partitions
          ["m1"]).filter Op.is_mount ≠
        [Op.mount (some "/data/adb/modules/m1/system/vendor/lib/libv.so")
          "/system/vendor/lib/libv.so" none (MS_BIND ||| MS_REC)] := by
  refine ⟨by decide, rfl, by decide, by decide⟩

/-! ## C5: `replace` is handed down -/

theorem mem_subnodes_list {x : Node} {cs : List Node} :
    x ∈ subnodes_list cs ↔ ∃ c ∈ cs, x ∈ subnodes c := by
  induction cs with
  | nil => simp [subnodes_list]
  | cons c cs ih => simp [subnodes_list, ih]

theorem mem_subnodes {x n : Node} :
    x ∈ subnodes n ↔ x = n ∨ (n.isa_dir = true ∧ x ∈ subnodes_list n.children) := by
  cases n with
  | mk nm t f e r m p cs =>
    cases t <;> simp [subnodes, Node.isa_dir]

theorem replace_tmpfs_node_fuel (fs : BaseFs) (k : Nat) (path : String) (n : Node) :
    (tmpfs_node_fuel fs k path n).replace = n.replace := by
  cases k <;> simp [tmpfs_node_fuel]

theorem isa_dir_tmpfs_node_fuel (fs : BaseFs) (k : Nat) (path : String) (n : Node) :
    (tmpfs_node_fuel fs k path n).isa_dir = true := by
  cases k <;> simp [tmpfs_node_fuel, Node.isa_dir]

theorem children_tmpfs_node_fuel_replaced (fs : BaseFs) (k : Nat) (path : String) (n : Node)
    (hr : n.replace = true) :
    (tmpfs_node_fuel fs (k + 1) path n).children =
      n.children.map fun c =>
        if c.isa_inter then tmpfs_node_fuel fs k (child_path path c.name) c else c := by
  simp [tmpfs_node_fuel, tmpfs_mirror, hr]

/-- Upgrading a replaced directory whose directories below are all replaced
gives a tree with the same property, at every recursion budget. -/
theorem replaced_tmpfs_node_fuel (fs : BaseFs) (k : Nat) :
    ∀ (path : String) (n : Node), n.replace = true →
      (∀ x ∈ subnodes_list n.children, x.isa_dir = true → x.replace = true) →
      ∀ x ∈ subnodes (tmpfs_node_fuel fs k path n), x.isa_dir = true → x.replace = true := by
  induction k with
  | zero =>
    intro path n hr hsub x hx _
    rw [mem_subnodes] at hx
    rcases hx with rfl | ⟨_, hx⟩
    · rw [replace_tmpfs_node_fuel]; exact hr
    · simp only [tmpfs_node_fuel, Node.children_mk] at hx
      exact hsub x hx ‹_›
  | succ k ih =>
    intro path n hr hsub x hx hxd
    rw [mem_subnodes] at hx
    rcases hx with rfl | ⟨_, hx⟩
    · rw [replace_tmpfs_node_fuel]; exact hr
    · rw [children_tmpfs_node_fuel_replaced fs k path n hr, mem_subnodes_list] at hx
      obtain ⟨c', hc', hxc⟩ := hx
      rw [List.mem_map] at hc'
      obtain ⟨c, hc, rfl⟩ := hc'
      have hcsub : ∀ y ∈ subnodes c, y.isa_dir = true → y.replace = true := fun y hy =>
        hsub y (mem_subnodes_list.mpr ⟨c, hc, hy⟩)
      by_cases hi : c.isa_inter = true
      · simp only [hi, if_true] at hxc
        have hcd : c.isa_dir = true := by
          simp only [Node.isa_inter, beq_iff_eq] at hi
          simp [Node.isa_dir, hi]
        refine ih (child_path path c.name) c ?_ ?_ x hxc hxd
        · exact hcsub c (mem_subnodes.mpr (Or.inl rfl)) hcd
        · intro y hy
          exact hcsub y (mem_subnodes.mpr (Or.inr ⟨hcd, hy⟩))
      · simp only [hi, Bool.false_eq_true, if_false] at hxc
        exact hcsub x hxc hxd

theorem replaced_upgrade_tmpfs (fs : BaseFs) (path : String) (n : Node)
    (h : ∀ x ∈ subnodes n, x.isa_dir = true → x.replace = true) (hd : n.isa_dir = true) :
    ∀ x ∈ subnodes (upgrade_tmpfs fs path n), x.isa_dir = true → x.replace = true := by
  unfold upgrade_tmpfs
  split
  · apply replaced_tmpfs_node_fuel
    · exact h n (mem_subnodes.mpr (Or.inl rfl)) hd
    · intro y hy
      exact h y (mem_subnodes.mpr (Or.inr ⟨hd, hy⟩))
  · exact h

@[simp] theorem Node.isa_dir_mk (n t f e r m p cs) :
    (Node.mk n t f e r m p cs).isa_dir =
      (match t with
        | .inter => true
        | .tmpfs => true
        | .root => true
        | .module => false) := rfl

mutual
/-- Below a node prepared with `replace` set, every directory below is replaced. -/
theorem replaced_prepare_node (fs : BaseFs) :
    ∀ (n : Node) (path : String) (ex : Bool),
      ∀ x ∈ subnodes_list (prepare_node fs path ex true n).2.children,
        x.isa_dir = true → x.replace = true
  | .mk nm t f e r m p cs, path, ex => by
    simp only [prepare_node, Node.children_mk]
    exact replaced_prepare_loop fs cs path t _
/-- The loop of `prepare` in a replaced node leaves replaced directories only. -/
theorem replaced_prepare_loop (fs : BaseFs) :
    ∀ (cs : List Node) (path : String) (t : NodeType) (up : Bool),
      ∀ x ∈ subnodes_list (prepare_loop fs path t true cs up).2,
        x.isa_dir = true → x.replace = true
  | [], path, t, up => by simp [prepare_loop, subnodes_list]
  | c :: cs, path, t, up => by
    rw [prepare_loop]
    split
    · exact replaced_prepare_loop fs cs path t up
    · simp only [if_true, subnodes_list, List.mem_append]
      intro x hx hxd
      rcases hx with hx | hx
      · by_cases hcd : c.isa_dir = true
        · simp only [hcd, if_true] at hx
          generalize (if (fs.lstat (child_path path c.name)).isSome = true then true
            else c.exist) = ex at hx
          have hsub := replaced_prepare_node fs c (child_path path c.name) ex
          have hnode : ∀ y ∈ subnodes (prepare_node fs (child_path path c.name) ex true c).2,
              y.isa_dir = true → y.replace = true := by
            intro y hy hyd
            rw [mem_subnodes] at hy
            rcases hy with rfl | ⟨_, hy⟩
            · cases c; simp [prepare_node]
            · exact hsub y hy hyd
          have hdir : (prepare_node fs (child_path path c.name) ex true c).2.isa_dir = true := by
            cases c; simpa [prepare_node] using hcd
          split at hx
          · exact replaced_upgrade_tmpfs fs _ _ hnode hdir x hx hxd
          · exact hnode x hx hxd
        · simp only [hcd, Bool.false_eq_true, if_false] at hx
          rw [mem_subnodes] at hx
          rcases hx with rfl | ⟨hd, _⟩
          · simp [hcd] at hxd
          · simp [hcd] at hd
      · exact replaced_prepare_loop fs cs path t _ x hx hxd
end

/-- C5: when `prepare` is called on a directory node with `replace` set, every
node below it that is a directory variant and is still in the tree afterwards
has `replace` set. -/
theorem prepare_propagates_replace (fs : BaseFs) (path : String) (D : Node)
    (hD : D.replace = true) :
    ∀ x ∈ subnodes_list (prepare fs path D).2.children,
      x.isa_dir = true → x.replace = true := by
  unfold prepare
  rw [hD]
  exact replaced_prepare_node fs D path D.exist

/-! ## The tmpfs constructor builds a tmpfs subtree -/

theorem all_tmpfs_list_iff {cs : List Node} :
    all_tmpfs_list cs = true ↔ ∀ c ∈ cs, all_tmpfs c = true := by
  induction cs with
  | nil => simp [all_tmpfs_list]
  | cons c cs ih => simp [all_tmpfs_list, ih]

theorem upgradable_list_iff {cs : List Node} :
    upgradable_list cs = true ↔ ∀ c ∈ cs, upgradable c = true := by
  induction cs with
  | nil => simp [upgradable_list]
  | cons c cs ih => simp [upgradable_list, ih]

theorem height_lt_of_mem {c : Node} {cs : List Node} (h : c ∈ cs) :
    c.height < heightList cs := by
  induction cs with
  | nil => simp at h
  | cons d cs ih =>
    simp only [heightList]
    rcases List.mem_cons.mp h with rfl | h
    · omega
    · have := ih h
      omega

theorem height_children {c n : Node} (h : c ∈ n.children) : c.height < n.height := by
  cases n with
  | mk nm t f e r m p cs =>
    simp only [Node.height]
    exact height_lt_of_mem h

theorem mem_tmpfs_mirror (fs : BaseFs) (path : String) (n c : Node)
    (h : c ∈ (tmpfs_mirror fs path n).2) :
    c ∈ n.children ∨ (path.length < PATH_MAX ∧ ∃ e, c = inter_node_of e) := by
  unfold tmpfs_mirror at h
  split at h
  · exact Or.inl h
  · split at h
    · rename_i dir hdir
      rcases mem_mirror_fold _ _ c h with h | ⟨e, _, rfl⟩
      · exact Or.inl h
      · refine Or.inr ⟨?_, e, rfl⟩
        unfold open_dir at hdir
        split at hdir
        · assumption
        · simp at hdir
    · exact Or.inl h

theorem upgradable_of_all_tmpfs (c : Node) (h : all_tmpfs c = true) : upgradable c = true := by
  cases c with
  | mk nm t f e r m p cs => cases t <;> simp_all [all_tmpfs, upgradable]

theorem all_tmpfs_of_upgradable_not_inter (c : Node) (h : upgradable c = true)
    (hi : c.isa_inter = false) : all_tmpfs c = true := by
  cases c with
  | mk nm t f e r m p cs => cases t <;> simp_all [all_tmpfs, upgradable, Node.isa_inter]

theorem upgradable_children_of_inter (c : Node) (h : upgradable c = true)
    (hi : c.isa_inter = true) : upgradable_list c.children = true := by
  cases c with
  | mk nm t f e r m p cs => cases t <;> simp_all [upgradable, Node.isa_inter]

theorem height_inter_node_of (e : dirent) : (inter_node_of e).height = 0 := by
  simp [inter_node_of, Node.height, heightList]

/-- With a budget above `PATH_MAX - |path| + height`, the constructor turns an
upgradable directory into a tmpfs subtree: the budget never runs out. -/
theorem all_tmpfs_tmpfs_node_fuel (fs : BaseFs) (k : Nat) :
    ∀ (path : String) (n : Node), upgradable_list n.children = true →
      (PATH_MAX - path.length) + n.height < k →
      all_tmpfs (tmpfs_node_fuel fs k path n) = true := by
  induction k with
  | zero => intro path n _ hk; omega
  | succ k ih =>
    intro path n hup hk
    simp only [tmpfs_node_fuel, all_tmpfs]
    rw [all_tmpfs_list_iff]
    intro c' hc'
    rw [List.mem_map] at hc'
    obtain ⟨c, hc, rfl⟩ := hc'
    have hlen := length_child_path path c.name
    rcases mem_tmpfs_mirror fs path n c hc with hold | ⟨hpath, e, rfl⟩
    · have hcu : upgradable c = true := upgradable_list_iff.mp hup c hold
      have hh := height_children hold
      by_cases hi : c.isa_inter = true
      · simp only [hi, if_true]
        apply ih
        · exact upgradable_children_of_inter c hcu hi
        · omega
      · simp only [hi, Bool.false_eq_true, if_false]
        exact all_tmpfs_of_upgradable_not_inter c hcu (by simpa using hi)
    · have hi : (inter_node_of e).isa_inter = true := rfl
      simp only [hi, if_true]
      apply ih
      · rfl
      · rw [height_inter_node_of]
        omega

theorem all_tmpfs_tmpfs_node (fs : BaseFs) (path : String) (n : Node)
    (h : upgradable_list n.children = true) : all_tmpfs (tmpfs_node fs path n) = true := by
  apply all_tmpfs_tmpfs_node_fuel
  · exact h
  · unfold tmpfs_budget
    omega

/-- Budget is no concern: any two budgets above the bound build the same node. -/
theorem tmpfs_node_fuel_stable (fs : BaseFs) (k : Nat) :
    ∀ (j : Nat) (path : String) (n : Node),
      (PATH_MAX - path.length) + n.height < k → (PATH_MAX - path.length) + n.height < j →
      tmpfs_node_fuel fs k path n = tmpfs_node_fuel fs j path n := by
  induction k with
  | zero => intro j path n hk; omega
  | succ k ih =>
    intro j path n hk hj
    cases j with
    | zero => omega
    | succ j =>
      simp only [tmpfs_node_fuel]
      congr 1
      apply List.map_congr_left
      intro c hc
      have hlen := length_child_path path c.name
      split
      · rcases mem_tmpfs_mirror fs path n c hc with hold | ⟨hpath, e, rfl⟩
        · have hh := height_children hold
          apply ih <;> omega
        · apply ih <;> rw [height_inter_node_of] <;> omega
      · rfl

/-- The constructor as the source states it: the upgrade of an intermediate
child is the constructor again. -/
theorem tmpfs_node_eq (fs : BaseFs) (path : String) (n : Node) :
    tmpfs_node fs path n =
      .mk n.name .tmpfs n.file_type (tmpfs_mirror fs path n).1 n.replace "" ""
        ((tmpfs_mirror fs path n).2.map fun c =>
          if c.isa_inter then tmpfs_node fs (child_path path c.name) c else c) := by
  rw [tmpfs_node_unfold]
  congr 1
  apply List.map_congr_left
  intro c hc
  have hlen := length_child_path path c.name
  split
  · unfold tmpfs_node tmpfs_budget
    rcases mem_tmpfs_mirror fs path n c hc with hold | ⟨hpath, e, rfl⟩
    · have hh := height_children hold
      apply tmpfs_node_fuel_stable <;> omega
    · apply tmpfs_node_fuel_stable <;> rw [height_inter_node_of] <;> omega
  · rfl

/-! ## Symlinks end up below tmpfs nodes -/

theorem symlinks_under_tmpfs_eq (fs : BaseFs) (ptmpfs : Bool) (path : String) (n : Node) :
    symlinks_under_tmpfs fs ptmpfs path n =
      ((!(n.is_lnk || fs.lstat path == some FileType.lnk) || ptmpfs) &&
        (match n.node_type with
          | .module => true
          | .tmpfs => symlinks_under_tmpfs_list fs true path n.children
          | _ => symlinks_under_tmpfs_list fs false path n.children)) := by
  cases n with
  | mk nm t f e r m p cs => cases t <;> simp [symlinks_under_tmpfs, Node.is_lnk]

mutual
theorem symlinks_ok_of_all_tmpfs (fs : BaseFs) :
    ∀ (n : Node) (path : String), all_tmpfs n = true →
      symlinks_under_tmpfs fs true path n = true
  | .mk nm t f e r m p cs, path, h => by
    cases t with
    | module => simp [symlinks_under_tmpfs]
    | tmpfs =>
      simp only [all_tmpfs] at h
      simp only [symlinks_under_tmpfs, Bool.or_true, Bool.true_and]
      exact symlinks_ok_of_all_tmpfs_list fs cs path h
    | inter => simp [all_tmpfs] at h
    | root => simp [all_tmpfs] at h
theorem symlinks_ok_of_all_tmpfs_list (fs : BaseFs) :
    ∀ (cs : List Node) (ppath : String), all_tmpfs_list cs = true →
      symlinks_under_tmpfs_list fs true ppath cs = true
  | [], _, _ => by simp [symlinks_under_tmpfs_list]
  | c :: cs, ppath, h => by
    simp only [all_tmpfs_list, Bool.and_eq_true] at h
    simp only [symlinks_under_tmpfs_list, Bool.and_eq_true]
    exact ⟨symlinks_ok_of_all_tmpfs fs c _ h.1, symlinks_ok_of_all_tmpfs_list fs cs ppath h.2⟩
end

mutual
theorem placed_of_symlinks_ok (fs : BaseFs) :
    ∀ (n : Node) (ptmpfs : Bool) (ppath rpfx path : String),
      symlinks_under_tmpfs fs ptmpfs path n = true →
      ∀ x ∈ placed ptmpfs ppath rpfx path n,
        (x.node.is_lnk = true ∨ fs.lstat x.path = some FileType.lnk) → x.ptmpfs = true
  | .mk nm t f e r m p cs, ptmpfs, ppath, rpfx, path, h, x, hx, hlnk => by
    simp only [symlinks_under_tmpfs, Bool.and_eq_true, Bool.or_eq_true, Bool.not_eq_true',
      Bool.or_eq_false_iff, beq_eq_false_iff_ne, ne_eq, beq_iff_eq] at h
    simp only [placed, List.mem_cons] at hx
    rcases hx with rfl | hx
    · simp only [Node.is_lnk, Node.file_type_mk, beq_iff_eq] at hlnk
      rcases h.1 with ⟨h1, h2⟩ | h1
      · rcases hlnk with hl | hl
        · exact absurd hl h1
        · exact absurd hl h2
      · exact h1
    · cases t with
      | module => simp at hx
      | tmpfs => exact placed_list_of_symlinks_ok fs cs true path rpfx h.2 x hx hlnk
      | inter => exact placed_list_of_symlinks_ok fs cs false path rpfx h.2 x hx hlnk
      | root => exact placed_list_of_symlinks_ok fs cs false path p h.2 x hx hlnk
theorem placed_list_of_symlinks_ok (fs : BaseFs) :
    ∀ (cs : List Node) (ptmpfs : Bool) (ppath rpfx : String),
      symlinks_under_tmpfs_list fs ptmpfs ppath cs = true →
      ∀ x ∈ placed_list ptmpfs ppath rpfx cs,
        (x.node.is_lnk = true ∨ fs.lstat x.path = some FileType.lnk) → x.ptmpfs = true
  | [], _, _, _, _, x, hx, _ => by simp [placed_list] at hx
  | c :: cs, ptmpfs, ppath, rpfx, h, x, hx, hlnk => by
    simp only [symlinks_under_tmpfs_list, Bool.and_eq_true] at h
    simp only [placed_list, List.mem_append] at hx
    rcases hx with hx | hx
    · exact placed_of_symlinks_ok fs c ptmpfs ppath rpfx _ h.1 x hx hlnk
    · exact placed_list_of_symlinks_ok fs cs ptmpfs ppath rpfx h.2 x hx hlnk
end

theorem file_type_tmpfs_node (fs : BaseFs) (path : String) (n : Node) :
    (tmpfs_node fs path n).file_type = n.file_type := by
  rw [tmpfs_node_unfold]; rfl

theorem node_type_tmpfs_node (fs : BaseFs) (path : String) (n : Node) :
    (tmpfs_node fs path n).node_type = NodeType.tmpfs :=
  node_type_tmpfs_node_fuel fs _ path n

theorem own_ok_of_can_mount (fs : BaseFs) (path : String) (c : Node)
    (h : cannot_mnt fs path c = false) :
    (!(c.is_lnk || fs.lstat path == some FileType.lnk)) = true := by
  obtain ⟨st, hst, hne, hl⟩ := (cannot_mnt_eq_false_iff fs path c).mp h
  simp [hl, hst, hne]

/-- The child `prepare` leaves for an intermediate child: upgradable in any case,
and with all symlinks below tmpfs nodes when the child itself can be mounted. -/
theorem kept_inter_child (fs : BaseFs) (cpath : String) (c : Node) (b : Bool) (r : Node)
    (hrt : r.node_type = NodeType.inter) (hrf : r.file_type = c.file_type)
    (hup : upgradable_list r.children = true)
    (hsym : b = false → symlinks_under_tmpfs_list fs false cpath r.children = true) :
    upgradable (if b then upgrade_tmpfs fs cpath r else r) = true ∧
      (cannot_mnt fs cpath c = false →
        symlinks_under_tmpfs fs false cpath (if b then upgrade_tmpfs fs cpath r else r) = true) := by
  cases b with
  | true =>
    have hu : upgrade_tmpfs fs cpath r = tmpfs_node fs cpath r := by
      simp [upgrade_tmpfs, hrt, type_id]
    simp only [if_true, hu]
    have hall := all_tmpfs_tmpfs_node fs cpath r hup
    refine ⟨upgradable_of_all_tmpfs _ hall, ?_⟩
    intro hc
    have hown := own_ok_of_can_mount fs cpath c hc
    have hsub := symlinks_ok_of_all_tmpfs fs _ cpath hall
    rw [symlinks_under_tmpfs_eq] at hsub ⊢
    simp only [node_type_tmpfs_node, Bool.and_eq_true] at hsub ⊢
    refine ⟨?_, hsub.2⟩
    simp only [Node.is_lnk, file_type_tmpfs_node, hrf] at hown ⊢
    simp [hown]
  | false =>
    simp only [Bool.false_eq_true, if_false]
    constructor
    · cases r with
      | mk nm t f e rr m p cs =>
        simp only [Node.node_type_mk] at hrt
        subst hrt
        simpa [upgradable] using hup
    · intro hc
      have hown := own_ok_of_can_mount fs cpath c hc
      rw [symlinks_under_tmpfs_eq]
      simp only [hrt, Bool.and_eq_true]
      refine ⟨?_, hsym rfl⟩
      simp only [Node.is_lnk, hrf] at hown ⊢
      simp [hown]

theorem kept_root_child (fs : BaseFs) (cpath : String) (c : Node) (b : Bool) (r : Node)
    (hrt : r.node_type = NodeType.root) (hrf : r.file_type = c.file_type)
    (hsym : symlinks_under_tmpfs_list fs false cpath r.children = true)
    (hc : cannot_mnt fs cpath c = false) :
    symlinks_under_tmpfs fs false cpath (if b then upgrade_tmpfs fs cpath r else r) = true := by
  have hu : upgrade_tmpfs fs cpath r = r := by
    simp [upgrade_tmpfs, hrt, type_id]
  have : (if b then upgrade_tmpfs fs cpath r else r) = r := by
    cases b <;> simp [hu]
  rw [this]
  have hown := own_ok_of_can_mount fs cpath c hc
  rw [symlinks_under_tmpfs_eq]
  simp only [hrt, Bool.and_eq_true]
  refine ⟨?_, hsym⟩
  simp only [Node.is_lnk, hrf] at hown ⊢
  simp [hown]

theorem kept_module_child (fs : BaseFs) (cpath : String) (c : Node) (ex : Bool)
    (hct : c.node_type = NodeType.module) :
    upgradable (c.set_exist ex) = true ∧
      (cannot_mnt fs cpath c = false →
        symlinks_under_tmpfs fs false cpath (c.set_exist ex) = true) := by
  cases c with
  | mk nm t f e r m p cs =>
    simp only [Node.node_type_mk] at hct
    subst hct
    refine ⟨by simp [Node.set_exist, upgradable], ?_⟩
    intro hc
    have hown := own_ok_of_can_mount fs cpath _ hc
    simp only [Node.is_lnk, Node.file_type_mk] at hown
    simp [Node.set_exist, symlinks_under_tmpfs, hown]

theorem prepare_node_shape (fs : BaseFs) (path : String) (ex rep : Bool) (n : Node) :
    (prepare_node fs path ex rep n).2.node_type = n.node_type ∧
      (prepare_node fs path ex rep n).2.file_type = n.file_type := by
  cases n; simp [prepare_node]

theorem well_formed_cases (roots : Bool) (c : Node) (h : well_formed roots c = true) :
    c.node_type = NodeType.module ∨ c.node_type = NodeType.inter ∨
      (c.node_type = NodeType.root ∧ roots = true) := by
  cases c with
  | mk nm t f e r m p cs =>
    cases t <;> simp_all [well_formed]

theorem prepare_loop_snd_cons_keep (fs : BaseFs) (path : String) (t : NodeType) (rep : Bool)
    (c : Node) (cs : List Node) (up : Bool)
    (h : (cannot_mnt fs (child_path path c.name) c &&
      decide (type_id t > type_id NodeType.tmpfs)) = false) :
    ∃ ex, prepare_loop fs path t rep (c :: cs) up =
      ((prepare_loop fs path t rep cs (up || cannot_mnt fs (child_path path c.name) c)).1,
        (if c.isa_dir then
          (if (prepare_node fs (child_path path c.name) ex
              (if rep then true else c.replace) c).1 then
            upgrade_tmpfs fs (child_path path c.name)
              (prepare_node fs (child_path path c.name) ex
                (if rep then true else c.replace) c).2
          else (prepare_node fs (child_path path c.name) ex
            (if rep then true else c.replace) c).2)
        else c.set_exist ex) ::
          (prepare_loop fs path t rep cs
            (up || cannot_mnt fs (child_path path c.name) c)).2) := by
  refine ⟨if (fs.lstat (child_path path c.name)).isSome then true else c.exist, ?_⟩
  rw [prepare_loop]
  simp only [h, Bool.false_eq_true, if_false]

theorem kept_child_name (fs : BaseFs) (cpath : String) (ex rep : Bool) (c : Node) :
    (if c.isa_dir then
      (if (prepare_node fs cpath ex rep c).1 then
        upgrade_tmpfs fs cpath (prepare_node fs cpath ex rep c).2
      else (prepare_node fs cpath ex rep c).2)
    else c.set_exist ex).name = c.name := by
  split_ifs <;> simp [name_upgrade_tmpfs, name_prepare_node]

mutual
/-- What `prepare` establishes below a well-formed node: below an intermediate
node everything can be upgraded, and all symlinks are below tmpfs nodes if
`prepare` returned false; below a root node all symlinks are below tmpfs nodes. -/
theorem prepared_node_ok (fs : BaseFs) :
    ∀ (n : Node) (roots : Bool) (path : String) (ex rep : Bool),
      well_formed roots n = true →
      (n.node_type = NodeType.inter →
        upgradable_list (prepare_node fs path ex rep n).2.children = true ∧
          ((prepare_node fs path ex rep n).1 = false →
            symlinks_under_tmpfs_list fs false path
              (prepare_node fs path ex rep n).2.children = true)) ∧
      (n.node_type = NodeType.root →
        symlinks_under_tmpfs_list fs false path
          (prepare_node fs path ex rep n).2.children = true)
  | .mk nm t f e r m p cs, roots, path, ex, rep, hwf => by
    simp only [prepare_node, Node.children_mk, Node.node_type_mk]
    cases t with
    | inter =>
      simp only [well_formed] at hwf
      have h := prepared_loop_ok fs cs false path NodeType.inter rep (rep || !ex) hwf
      exact ⟨fun _ => h.1 rfl rfl, fun hh => by simp at hh⟩
    | root =>
      simp only [well_formed, Bool.and_eq_true] at hwf
      have h := prepared_loop_ok fs cs true path NodeType.root rep (rep || !ex) hwf.2
      exact ⟨fun hh => by simp at hh, fun _ => h.2 rfl⟩
    | module => exact ⟨fun hh => by simp at hh, fun hh => by simp at hh⟩
    | tmpfs => exact ⟨fun hh => by simp at hh, fun hh => by simp at hh⟩
/-- The same for the loop of `prepare` in a node of variant `t`. -/
theorem prepared_loop_ok (fs : BaseFs) :
    ∀ (cs : List Node) (roots : Bool) (path : String) (t : NodeType) (rep up : Bool),
      well_formed_list roots cs = true →
      (t = NodeType.inter → roots = false →
        upgradable_list (prepare_loop fs path t rep cs up).2 = true ∧
          ((prepare_loop fs path t rep cs up).1 = false →
            symlinks_under_tmpfs_list fs false path (prepare_loop fs path t rep cs up).2 = true)) ∧
      (t = NodeType.root →
        symlinks_under_tmpfs_list fs false path (prepare_loop fs path t rep cs up).2 = true)
  | [], roots, path, t, rep, up, _ => by
    simp [prepare_loop, upgradable_list, symlinks_under_tmpfs_list]
  | c :: cs, roots, path, t, rep, up, hwf => by
    simp only [well_formed_list, Bool.and_eq_true] at hwf
    obtain ⟨hwc, hwcs⟩ := hwf
    by_cases hdrop : (cannot_mnt fs (child_path path c.name) c &&
        decide (type_id t > type_id NodeType.tmpfs)) = true
    · rw [prepare_loop_cons_drop fs path t rep c cs up hdrop]
      exact prepared_loop_ok fs cs roots path t rep up hwcs
    · simp only [Bool.not_eq_true] at hdrop
      obtain ⟨ex, heq⟩ := prepare_loop_snd_cons_keep fs path t rep c cs up hdrop
      rw [heq]
      have ihcs := prepared_loop_ok fs cs roots path t rep
        (up || cannot_mnt fs (child_path path c.name) c) hwcs
      have ihc := prepared_node_ok fs c roots (child_path path c.name) ex
        (if rep then true else c.replace) hwc
      have hshape := prepare_node_shape fs (child_path path c.name) ex
        (if rep then true else c.replace) c
      simp only [upgradable_list, symlinks_under_tmpfs_list, Bool.and_eq_true, kept_child_name]
      constructor
      · intro ht hroots
        subst ht hroots
        obtain ⟨hupcs, hsymcs⟩ := ihcs.1 rfl rfl
        have hcm : (prepare_loop fs path NodeType.inter rep cs
            (up || cannot_mnt fs (child_path path c.name) c)).1 = false →
            cannot_mnt fs (child_path path c.name) c = false := by
          intro h
          rw [prepare_loop_fst] at h
          simp only [Bool.or_eq_false_iff] at h
          exact h.1.2
        rcases well_formed_cases false c hwc with hct | hct | ⟨_, hr⟩
        · have hd : c.isa_dir = false := by simp [Node.isa_dir, hct]
          simp only [hd, Bool.false_eq_true, if_false]
          have hk := kept_module_child fs (child_path path c.name) c ex hct
          exact ⟨⟨hk.1, hupcs⟩, fun h => ⟨hk.2 (hcm h), hsymcs h⟩⟩
        · have hd : c.isa_dir = true := by simp [Node.isa_dir, hct]
          simp only [hd, if_true]
          obtain ⟨hup, hsym⟩ := ihc.1 hct
          have hk := kept_inter_child fs (child_path path c.name) c _ _
            (hshape.1.trans hct) hshape.2 hup hsym
          exact ⟨⟨hk.1, hupcs⟩, fun h => ⟨hk.2 (hcm h), hsymcs h⟩⟩
        · simp at hr
      · intro ht
        subst ht
        have hsymcs := ihcs.2 rfl
        have hcm : cannot_mnt fs (child_path path c.name) c = false := by
          simpa [type_id] using hdrop
        refine ⟨?_, hsymcs⟩
        rcases well_formed_cases roots c hwc with hct | hct | ⟨hct, _⟩
        · have hd : c.isa_dir = false := by simp [Node.isa_dir, hct]
          simp only [hd, Bool.false_eq_true, if_false]
          exact (kept_module_child fs (child_path path c.name) c ex hct).2 hcm
        · have hd : c.isa_dir = true := by simp [Node.isa_dir, hct]
          simp only [hd, if_true]
          obtain ⟨hup, hsym⟩ := ihc.1 hct
          exact (kept_inter_child fs (child_path path c.name) c _ _
            (hshape.1.trans hct) hshape.2 hup hsym).2 hcm
        · have hd : c.isa_dir = true := by simp [Node.isa_dir, hct]
          simp only [hd, if_true]
          exact kept_root_child fs (child_path path c.name) c _ _
            (hshape.1.trans hct) hshape.2 (ihc.2 hct) hcm
end

/-- After `prepare` on a well-formed root, every node below it that is a
symlink or has a symlink as base entry has a tmpfs parent. -/
theorem prepare_root_symlinks (fs : BaseFs) (path : String) (root : Node)
    (hwf : well_formed true root = true) (hroot : root.node_type = NodeType.root) :
    symlinks_under_tmpfs_list fs false path (prepare fs path root).2.children = true :=
  (prepared_node_ok fs root true path root.exist root.replace hwf).2 hroot

/-! ## The tree `load_modules` builds is well formed -/

theorem well_formed_list_iff {roots : Bool} {cs : List Node} :
    well_formed_list roots cs = true ↔ ∀ c ∈ cs, well_formed roots c = true := by
  induction cs with
  | nil => simp [well_formed_list]
  | cons c cs ih => simp [well_formed_list, ih]

theorem well_formed_mono (c : Node) (h : well_formed false c = true) :
    well_formed true c = true := by
  cases c with
  | mk nm t f e r m p cs => cases t <;> simp_all [well_formed]

theorem well_formed_children (c : Node) (h : well_formed true c = true) :
    well_formed_list true c.children = true := by
  cases c with
  | mk nm t f e r m p cs =>
    cases t with
    | module =>
      simp only [well_formed, List.isEmpty_iff] at h
      simp [h, well_formed_list]
    | inter =>
      simp only [well_formed] at h
      rw [well_formed_list_iff] at h ⊢
      exact fun c hc => well_formed_mono c (h c hc)
    | root => simpa [well_formed] using h
    | tmpfs => simp [well_formed] at h

theorem well_formed_set_children (roots : Bool) (n : Node) (cs : List Node)
    (h : well_formed roots n = true) (hsub : ∀ c ∈ cs, c ∈ n.children) :
    well_formed roots (n.set_children cs) = true := by
  cases n with
  | mk nm t f e r m p old =>
    cases t with
    | module =>
      simp only [well_formed, List.isEmpty_iff] at h
      subst h
      cases cs with
      | nil => simp [Node.set_children, well_formed]
      | cons c cs => exact absurd (hsub c (List.mem_cons_self _ _)) (by simp)
    | inter =>
      simp only [well_formed, Node.set_children] at h ⊢
      rw [well_formed_list_iff] at h ⊢
      exact fun c hc => h c (hsub c hc)
    | root =>
      simp only [well_formed, Node.set_children, Bool.and_eq_true] at h ⊢
      refine ⟨h.1, ?_⟩
      rw [well_formed_list_iff]
      exact fun c hc => well_formed_list_iff.mp h.2 c (hsub c hc)
    | tmpfs => simp [well_formed] at h

theorem well_formed_inter (c : Node) (hc : c.node_type = NodeType.inter) :
    well_formed false c = well_formed_list false c.children := by
  cases c with
  | mk nm t f e r m p cs =>
    simp only [Node.node_type_mk] at hc
    subst hc
    simp [well_formed]

mutual
theorem well_formed_collect_entry (module : String) :
    ∀ (e : ModEntry) (n : Node), well_formed_list false n.children = true →
      well_formed_list false (collect_entry module e n).children = true
  | .mk name ty opens sub, n, h => by
    simp only [collect_entry]
    by_cases h1 : (name == "." || name == "..") = true
    · rw [if_pos h1]; exact h
    · rw [if_neg h1]
      by_cases h2 : (name == ".replace") = true
      · rw [if_pos h2]; simpa using h
      · rw [if_neg h2]
        by_cases h3 : (ty == FileType.dir) = true
        · rw [if_pos h3]
          cases hf : find_child name n.children with
          | none =>
            simp only [Node.children_set_children]
            rw [well_formed_list_iff] at h ⊢
            intro c hc
            have hchild : well_formed false
                (if opens then collect_entries module sub (inter_node name)
                  else inter_node name) = true := by
              cases opens with
              | true =>
                simp only [if_true]
                rw [well_formed_inter _
                  ((name_collect_entries module sub (inter_node name)).2.trans rfl)]
                exact well_formed_collect_entries module sub (inter_node name) rfl
              | false => rfl
            rcases mem_map_set _ _ _ hc with rfl | hc
            · exact hchild
            · rcases mem_emplace _ _ _ hc with rfl | hc
              · rfl
              · exact h c hc
          | some c0 =>
            simp only
            by_cases h4 : c0.isa_inter = true
            · rw [if_pos h4]
              simp only [Node.children_set_children]
              have hc0 := (find_child_some hf).1
              have hc0t : c0.node_type = NodeType.inter := by
                simpa [Node.isa_inter] using h4
              rw [well_formed_list_iff] at h ⊢
              intro c hc
              have hchild : well_formed false
                  (if opens then collect_entries module sub c0 else c0) = true := by
                cases opens with
                | true =>
                  simp only [if_true]
                  rw [well_formed_inter _
                    ((name_collect_entries module sub c0).2.trans hc0t)]
                  apply well_formed_collect_entries module sub c0
                  rw [← well_formed_inter c0 hc0t]
                  exact h c0 hc0
                | false => exact h c0 hc0
              rcases mem_map_set _ _ _ hc with rfl | hc
              · exact hchild
              · exact h c hc
            · rw [if_neg h4]; exact h
        · rw [if_neg h3]
          simp only [Node.children_set_children]
          rw [well_formed_list_iff] at h ⊢
          intro c hc
          rcases mem_emplace _ _ _ hc with rfl | hc
          · rfl
          · exact h c hc
theorem well_formed_collect_entries (module : String) :
    ∀ (es : List ModEntry) (n : Node), well_formed_list false n.children = true →
      well_formed_list false (collect_entries module es n).children = true
  | [], n, h => by simpa [collect_entries] using h
  | e :: es, n, h => by
    rw [collect_entries]
    exact well_formed_collect_entries module es _ (well_formed_collect_entry module e n h)
end

theorem well_formed_collect_modules (mfs : ModuleFs) (ms : List String) (n : Node)
    (h : well_formed_list false n.children = true) :
    well_formed_list false (collect_modules mfs ms n).children = true := by
  induction ms generalizing n with
  | nil => simpa [collect_modules] using h
  | cons m ms ih =>
    simp only [collect_modules]
    split_ifs
    · exact ih n h
    · exact ih n h
    · apply ih
      unfold collect_module_files
      split
      · exact h
      · exact well_formed_collect_entries m _ n h

theorem well_formed_extract_partition (fs : BaseFs) (part : String) (root : Node)
    (hroot : root.node_type = NodeType.root) (h : well_formed true root = true) :
    (extract_partition fs part root).node_type = NodeType.root ∧
      well_formed true (extract_partition fs part root) = true := by
  unfold extract_partition
  split
  · cases hs : find_child "system" root.children with
    | none => exact ⟨hroot, h⟩
    | some system =>
      simp only
      cases he : (skip_first_byte part).bind (fun name => extract name system.children) with
      | none => exact ⟨hroot, h⟩
      | some pr =>
        obtain ⟨old', rest⟩ := pr
        simp only [Node.children_set_children]
        have hch := well_formed_children root h
        rw [well_formed_list_iff] at hch
        have hsys : well_formed true system = true := hch system (find_child_some hs).1
        have hsysch := well_formed_children system hsys
        rw [well_formed_list_iff] at hsysch
        obtain ⟨name, _, hf, rfl⟩ := extract_bind_some he
        · have hold : well_formed true old' = true := hsysch old' (find_child_some hf).1
          have hsys' : well_formed true (system.set_children
              (system.children.filter (fun c => !(c.name == name)))) = true :=
            well_formed_set_children true system _ hsys (fun c hc => (List.mem_filter.mp hc).1)
          have hnew : well_formed true (root_node_of old' part) = true := by
            simp only [root_node_of, well_formed, Bool.true_and]
            exact well_formed_children old' hold
          refine ⟨by simpa using hroot, ?_⟩
          cases root with
          | mk nm t f e r m p cs =>
            simp only [Node.node_type_mk] at hroot
            subst hroot
            simp only [Node.set_children, well_formed, Bool.true_and, Node.children_mk] at hch ⊢
            rw [well_formed_list_iff]
            intro c hc
            rcases mem_emplace _ _ _ hc with rfl | hc
            · exact hnew
            · rcases mem_map_set _ _ _ hc with rfl | hc
              · exact hsys'
              · exact hch c hc
  · exact ⟨hroot, h⟩

theorem well_formed_build_tree (fs : BaseFs) (mfs : ModuleFs) (partitions ms : List String) :
    (build_tree fs mfs partitions ms).node_type = NodeType.root ∧
      well_formed true (build_tree fs mfs partitions ms) = true := by
  unfold build_tree
  simp only
  have hsys : well_formed true (collect_modules mfs ms (root_node "system")) = true := by
    have ht := (name_collect_modules mfs ms (root_node "system")).2
    have hc := well_formed_collect_modules mfs ms (root_node "system") rfl
    generalize collect_modules mfs ms (root_node "system") = s at ht hc
    cases s with
    | mk nm t f e r m p cs =>
      simp only [Node.node_type_mk, root_node] at ht
      subst ht
      simp only [well_formed, Bool.true_and, Node.children_mk] at hc ⊢
      rw [well_formed_list_iff] at hc ⊢
      exact fun c hcm => well_formed_mono c (hc c hcm)
  have h0 : ((root_node "").set_children
      (emplace (collect_modules mfs ms (root_node "system")) [])).node_type = NodeType.root ∧
      well_formed true ((root_node "").set_children
        (emplace (collect_modules mfs ms (root_node "system")) [])) = true := by
    refine ⟨rfl, ?_⟩
    have : (root_node "").set_children
        (emplace (collect_modules mfs ms (root_node "system")) []) =
        .mk "" .root .dir true false "" "" [collect_modules mfs ms (root_node "system")] := rfl
    rw [this]
    simp only [well_formed, well_formed_list, Bool.true_and, Bool.and_true]
    exact hsys
  generalize (root_node "").set_children
    (emplace (collect_modules mfs ms (root_node "system")) []) = root at h0
  induction partitions generalizing root with
  | nil => exact h0
  | cons p ps ih =>
    simp only [List.foldl_cons]
    exact ih _ (well_formed_extract_partition fs p root h0.1 h0.2)

/-! ## C2: what the mount pass does for symlinks -/

mutual
/-- Every call of a node's `mount` is made by the node or by a node below it. -/
theorem mount_node_own (tmp : String) :
    ∀ (n : Node) (ptmpfs : Bool) (ppath rpfx path : String),
      ∀ op ∈ mount_node tmp ptmpfs ppath rpfx path n,
        ∃ x ∈ placed ptmpfs ppath rpfx path n,
          op ∈ own_ops tmp x.ptmpfs x.ppath x.rpfx x.path x.node
  | .mk nm t f e r m p cs, ptmpfs, ppath, rpfx, path, op, hop => by
    have hself : (⟨.mk nm t f e r m p cs, path, ppath, ptmpfs, rpfx⟩ : Placed) ∈
        placed ptmpfs ppath rpfx path (.mk nm t f e r m p cs) := by
      simp [placed]
    cases t with
    | module =>
      simp only [mount_node] at hop
      exact ⟨_, hself, by simpa [own_ops] using hop⟩
    | tmpfs =>
      simp only [mount_node] at hop
      split at hop
      · rename_i hf
        exact ⟨_, hself, by simpa [own_ops, hf] using hop⟩
      · rename_i hf
        simp only [List.mem_append] at hop
        rcases hop with (hop | hop) | hop
        · exact ⟨_, hself, by simp [own_ops, hf, hop]⟩
        · obtain ⟨x, hx, hxo⟩ := mount_children_own tmp cs true path rpfx op hop
          exact ⟨x, by simp [placed, hx], hxo⟩
        · exact ⟨_, hself, by simp [own_ops, hf, hop]⟩
    | inter =>
      simp only [mount_node] at hop
      obtain ⟨x, hx, hxo⟩ := mount_children_own tmp cs false path rpfx op hop
      exact ⟨x, by simp [placed, hx], hxo⟩
    | root =>
      simp only [mount_node, List.mem_append] at hop
      rcases hop with hop | hop
      · exact ⟨_, hself, by simpa [own_ops] using hop⟩
      · obtain ⟨x, hx, hxo⟩ := mount_children_own tmp cs false path p op hop
        exact ⟨x, by simp [placed, hx], hxo⟩
theorem mount_children_own (tmp : String) :
    ∀ (cs : List Node) (ptmpfs : Bool) (ppath rpfx : String),
      ∀ op ∈ mount_children tmp ptmpfs ppath rpfx cs,
        ∃ x ∈ placed_list ptmpfs ppath rpfx cs,
          op ∈ own_ops tmp x.ptmpfs x.ppath x.rpfx x.path x.node
  | [], _, _, _, op, hop => by simp [mount_children] at hop
  | c :: cs, ptmpfs, ppath, rpfx, op, hop => by
    simp only [mount_children, List.mem_append] at hop
    rcases hop with hop | hop
    · obtain ⟨x, hx, hxo⟩ := mount_node_own tmp c ptmpfs ppath rpfx _ op hop
      exact ⟨x, by simp [placed_list, hx], hxo⟩
    · obtain ⟨x, hx, hxo⟩ := mount_children_own tmp cs ptmpfs ppath rpfx op hop
      exact ⟨x, by simp [placed_list, hx], hxo⟩
end

/-- A symlink node below a tmpfs node makes no `mount` call; as a module or
tmpfs node it is installed by `cp_afc` at its worker path. -/
theorem own_ops_symlink (tmp ppath rpfx path : String) (n : Node) (hl : n.is_lnk = true) :
    (∀ op ∈ own_ops tmp true ppath rpfx path n, op.is_mount = false) ∧
      (n.node_type = NodeType.module ∨ n.node_type = NodeType.tmpfs →
        ∃ src, Op.cp_afc src (worker_path tmp path) ∈ own_ops tmp true ppath rpfx path n) := by
  cases n with
  | mk nm t f e r m p cs =>
    simp only [Node.is_lnk, Node.file_type_mk, beq_iff_eq] at hl
    subst hl
    cases t with
    | module =>
      constructor
      · intro op hop
        cases e <;>
          simp [own_ops, module_mount, create_and_mount] at hop <;>
          rcases hop with rfl | rfl <;> rfl
      · intro _
        exact ⟨module_mnt ++ (m ++ (rpfx ++ path)),
          by simp [own_ops, module_mount, create_and_mount]⟩
    | tmpfs =>
      constructor
      · intro op hop
        simp [own_ops, create_and_mount] at hop
        subst hop
        rfl
      · intro _
        exact ⟨path, by simp [own_ops, create_and_mount]⟩
    | inter =>
      constructor
      · intro op hop
        simp [own_ops] at hop
      · intro h
        simp at h
    | root =>
      constructor
      · intro op hop
        cases e <;> simp [own_ops, root_mount_head] at hop
        subst hop
        rfl
      · intro h
        simp at h

/-- Below a tmpfs node, the only `mount` target of a node's own calls is its
worker path. -/
theorem own_ops_target (tmp ppath rpfx path : String) (n : Node) :
    ∀ op ∈ own_ops tmp true ppath rpfx path n, ∀ tg, op.mount_target = some tg →
      tg = worker_path tmp path := by
  intro op hop tg htg
  cases n with
  | mk nm t f e r m p cs =>
    cases t with
    | module =>
      simp only [own_ops, Node.node_type_mk, module_mount, List.mem_append] at hop
      rcases hop with hop | hop
      · split at hop
        · simp only [List.mem_singleton] at hop
          subst hop
          simp [Op.mount_target] at htg
        · simp at hop
      · simp only [if_true] at hop
        simpa using create_and_mount_target_eq _ _ _ _ _ _ op hop tg htg
    | tmpfs =>
      simp only [own_ops, Node.node_type_mk, Node.file_type_mk] at hop
      split at hop
      · simpa using create_and_mount_target_eq _ _ _ _ _ _ op hop tg htg
      · simp only [List.mem_append] at hop
        rcases hop with hop | hop
        · exact tmpfs_mount_head_target _ _ _ _ _ op tg hop htg
        · simp [tmpfs_mount_tail] at hop
    | inter => simp [own_ops] at hop
    | root =>
      simp only [own_ops, Node.node_type_mk] at hop
      exact (root_mount_head_target _ _ op tg hop htg).elim

mutual
/-- Every node `mount` reaches is a node of the tree. -/
theorem reached_sub_placed :
    ∀ (n : Node) (ptmpfs : Bool) (ppath rpfx path : String),
      ∀ x ∈ reached ptmpfs ppath rpfx path n, x ∈ placed ptmpfs ppath rpfx path n
  | .mk nm t f e r m p cs, ptmpfs, ppath, rpfx, path, x, hx => by
    simp only [reached, List.mem_cons] at hx
    simp only [placed, List.mem_cons]
    rcases hx with hx | hx
    · exact Or.inl hx
    · right
      cases t with
      | module => simp at hx
      | tmpfs =>
        simp only at hx ⊢
        split at hx
        · simp at hx
        · exact reached_list_sub_placed_list cs true path rpfx x hx
      | inter => exact reached_list_sub_placed_list cs false path rpfx x hx
      | root => exact reached_list_sub_placed_list cs false path p x hx
/-- The same for the children of a node. -/
theorem reached_list_sub_placed_list :
    ∀ (cs : List Node) (ptmpfs : Bool) (ppath rpfx : String),
      ∀ x ∈ reached_list ptmpfs ppath rpfx cs, x ∈ placed_list ptmpfs ppath rpfx cs
  | [], _, _, _, x, hx => by simp [reached_list] at hx
  | c :: cs, ptmpfs, ppath, rpfx, x, hx => by
    simp only [reached_list, List.mem_append] at hx
    simp only [placed_list, List.mem_append]
    rcases hx with hx | hx
    · exact Or.inl (reached_sub_placed c ptmpfs ppath rpfx _ x hx)
    · exact Or.inr (reached_list_sub_placed_list cs ptmpfs ppath rpfx x hx)
end

mutual
/-- The calls of a node's `mount` are exactly the calls the nodes it reaches
make themselves. -/
theorem mount_node_reached (tmp : String) :
    ∀ (n : Node) (ptmpfs : Bool) (ppath rpfx path : String) (op : Op),
      op ∈ mount_node tmp ptmpfs ppath rpfx path n ↔
        ∃ x ∈ reached ptmpfs ppath rpfx path n,
          op ∈ own_ops tmp x.ptmpfs x.ppath x.rpfx x.path x.node
  | .mk nm t f e r m p cs, ptmpfs, ppath, rpfx, path, op => by
    cases t with
    | module =>
      have hr : reached ptmpfs ppath rpfx path (.mk nm .module f e r m p cs) =
          [⟨.mk nm .module f e r m p cs, path, ppath, ptmpfs, rpfx⟩] := by simp [reached]
      rw [hr]
      simp [mount_node, own_ops]
    | tmpfs =>
      by_cases hf : (f != FileType.dir) = true
      · have hr : reached ptmpfs ppath rpfx path (.mk nm .tmpfs f e r m p cs) =
            [⟨.mk nm .tmpfs f e r m p cs, path, ppath, ptmpfs, rpfx⟩] := by simp [reached, hf]
        have hne : ¬ f = FileType.dir := by simpa using hf
        rw [hr]
        simp [mount_node, own_ops, hf, hne]
      · have hr : reached ptmpfs ppath rpfx path (.mk nm .tmpfs f e r m p cs) =
            ⟨.mk nm .tmpfs f e r m p cs, path, ppath, ptmpfs, rpfx⟩ ::
              reached_list true path rpfx cs := by simp [reached, hf]
        have hm : mount_node tmp ptmpfs ppath rpfx path (.mk nm .tmpfs f e r m p cs) =
            tmpfs_mount_head tmp ptmpfs ppath path (.mk nm .tmpfs f e r m p cs) ++
              mount_children tmp true path rpfx cs ++ tmpfs_mount_tail tmp ptmpfs path := by
          simp [mount_node, hf]
        have ho : own_ops tmp ptmpfs ppath rpfx path (.mk nm .tmpfs f e r m p cs) =
            tmpfs_mount_head tmp ptmpfs ppath path (.mk nm .tmpfs f e r m p cs) ++
              tmpfs_mount_tail tmp ptmpfs path := by
          simp [own_ops, hf]
        rw [hr, hm, List.exists_mem_cons_iff]
        show _ ↔ op ∈ own_ops tmp ptmpfs ppath rpfx path (.mk nm .tmpfs f e r m p cs) ∨ _
        rw [ho, ← mount_children_reached tmp cs true path rpfx op]
        simp only [List.mem_append]
        tauto
    | inter =>
      have hr : reached ptmpfs ppath rpfx path (.mk nm .inter f e r m p cs) =
          ⟨.mk nm .inter f e r m p cs, path, ppath, ptmpfs, rpfx⟩ ::
            reached_list false path rpfx cs := by simp [reached]
      have hm : mount_node tmp ptmpfs ppath rpfx path (.mk nm .inter f e r m p cs) =
          mount_children tmp false path rpfx cs := by simp [mount_node]
      have ho : own_ops tmp ptmpfs ppath rpfx path (.mk nm .inter f e r m p cs) = [] := by
        simp [own_ops]
      rw [hr, hm, List.exists_mem_cons_iff]
      show _ ↔ op ∈ own_ops tmp ptmpfs ppath rpfx path (.mk nm .inter f e r m p cs) ∨ _
      rw [ho, ← mount_children_reached tmp cs false path rpfx op]
      simp
    | root =>
      have hr : reached ptmpfs ppath rpfx path (.mk nm .root f e r m p cs) =
          ⟨.mk nm .root f e r m p cs, path, ppath, ptmpfs, rpfx⟩ ::
            reached_list false path p cs := by simp [reached]
      have hm : mount_node tmp ptmpfs ppath rpfx path (.mk nm .root f e r m p cs) =
          root_mount_head path (.mk nm .root f e r m p cs) ++
            mount_children tmp false path p cs := by simp [mount_node]
      have ho : own_ops tmp ptmpfs ppath rpfx path (.mk nm .root f e r m p cs) =
          root_mount_head path (.mk nm .root f e r m p cs) := by
        simp [own_ops]
      rw [hr, hm, List.exists_mem_cons_iff]
      show _ ↔ op ∈ own_ops tmp ptmpfs ppath rpfx path (.mk nm .root f e r m p cs) ∨ _
      rw [ho, ← mount_children_reached tmp cs false path p op]
      simp only [List.mem_append]
/-- The same for the children of a node. -/
theorem mount_children_reached (tmp : String) :
    ∀ (cs : List Node) (ptmpfs : Bool) (ppath rpfx : String) (op : Op),
      op ∈ mount_children tmp ptmpfs ppath rpfx cs ↔
        ∃ x ∈ reached_list ptmpfs ppath rpfx cs,
          op ∈ own_ops tmp x.ptmpfs x.ppath x.rpfx x.path x.node
  | [], _, _, _, op => by simp [mount_children, reached_list]
  | c :: cs, ptmpfs, ppath, rpfx, op => by
    simp only [mount_children, reached_list, List.mem_append]
    rw [mount_node_reached tmp c ptmpfs ppath rpfx _ op,
      mount_children_reached tmp cs ptmpfs ppath rpfx op]
    constructor
    · rintro (⟨x, hx, h⟩ | ⟨x, hx, h⟩)
      · exact ⟨x, Or.inl hx, h⟩
      · exact ⟨x, Or.inr hx, h⟩
    · rintro ⟨x, hx | hx, h⟩
      · exact Or.inl ⟨x, hx, h⟩
      · exact Or.inr ⟨x, hx, h⟩
end

/-- C2, amended: in the tree `load_modules` prepares, every node below the root
that is a symlink or whose base entry is a symlink has a tmpfs parent.  The
calls of the mount pass are exactly the calls of the nodes it reaches, which
are nodes of the tree but not all of them: `tmpfs_node::mount` returns before
the children of a node that is not a directory.  A symlink node makes no
`mount` call at all, and when the pass reaches it as a module or tmpfs node it
is installed by `cp_afc` at its worker path.  For a node that is no symlink but
whose base entry is one, any `mount` call it makes has its worker path as
target, never its node path. -/
theorem symlink_nodes_not_bind_mounted (tmp : String) (fs : BaseFs) (mfs : ModuleFs)
    (partitions ms : List String) (t : Node)
    (h : prepared_tree fs mfs partitions ms = some t) :
    (∀ op, op ∈ load_modules tmp fs mfs partitions ms ↔
      ∃ x ∈ reached false "" "" "" t,
        op ∈ own_ops tmp x.ptmpfs x.ppath x.rpfx x.path x.node) ∧
    (∀ x ∈ reached false "" "" "" t, x ∈ placed false "" "" "" t) ∧
    (∀ x ∈ placed_list false "" t.pfx t.children,
      (x.node.is_lnk = true ∨ fs.lstat x.path = some FileType.lnk) →
        x.ptmpfs = true ∧
        (x.node.is_lnk = true →
          ∀ op ∈ own_ops tmp x.ptmpfs x.ppath x.rpfx x.path x.node, op.is_mount = false) ∧
        (∀ op ∈ own_ops tmp x.ptmpfs x.ppath x.rpfx x.path x.node,
          ∀ tg, op.mount_target = some tg → tg = worker_path tmp x.path ∧ tg ≠ x.path)) ∧
    ∀ x ∈ reached_list false "" t.pfx t.children, x.node.is_lnk = true →
      (x.node.node_type = NodeType.module ∨ x.node.node_type = NodeType.tmpfs) →
        ∃ src, Op.cp_afc src (worker_path tmp x.path) ∈
          load_modules tmp fs mfs partitions ms := by
  have hload : load_modules tmp fs mfs partitions ms = mount_node tmp false "" "" "" t := by
    unfold load_modules
    rw [h]
  have ht : t = (prepare fs "" (build_tree fs mfs partitions ms)).2 := by
    unfold prepared_tree at h
    split at h
    · simp at h
    · exact (Option.some.inj h).symm
  have hwf := well_formed_build_tree fs mfs partitions ms
  have hsym := prepare_root_symlinks fs "" _ hwf.2 hwf.1
  rw [← ht] at hsym
  have htroot : t.node_type = NodeType.root := by
    rw [ht]
    exact (prepare_node_shape fs "" _ _ _).1.trans hwf.1
  refine ⟨?_, ?_, ?_, ?_⟩
  · intro op
    rw [hload]
    exact mount_node_reached tmp t false "" "" "" op
  · exact reached_sub_placed t false "" "" ""
  · intro x hx hlnk
    have hpt := placed_list_of_symlinks_ok fs t.children false "" t.pfx hsym x hx hlnk
    refine ⟨hpt, ?_, ?_⟩
    · intro hl
      rw [hpt]
      exact (own_ops_symlink tmp x.ppath x.rpfx x.path x.node hl).1
    · intro op hop tg htg
      rw [hpt] at hop
      have := own_ops_target tmp x.ppath x.rpfx x.path x.node op hop tg htg
      refine ⟨this, ?_⟩
      rw [this]
      intro he
      have := length_worker_path tmp x.path
      rw [he] at this
      exact Nat.lt_irrefl _ this
  · intro x hx hl hty
    have hpl := reached_list_sub_placed_list t.children false "" t.pfx x hx
    have hpt := placed_list_of_symlinks_ok fs t.children false "" t.pfx hsym x hpl (Or.inl hl)
    obtain ⟨src, hsrc⟩ := (own_ops_symlink tmp x.ppath x.rpfx x.path x.node hl).2 hty
    refine ⟨src, ?_⟩
    rw [hload, mount_node_reached]
    refine ⟨x, ?_, by rw [hpt]; exact hsrc⟩
    cases t with
    | mk nm ty f e r m p cs =>
      simp only [Node.node_type_mk] at htroot
      subst htroot
      simp only [reached, List.mem_cons]
      exact Or.inr hx

/-- Instance of C2: `m1` ships the symlink `system/etc/lnk`; the mount pass
reaches its node below the tmpfs node of `etc`, installs it by `cp_afc` at its
worker path, and the node makes no `mount` call. -/
theorem symlink_nodes_not_bind_mounted_witness :
    (∃ src, Op.cp_afc src "/debug_ramdisk/.magisk/worker/system/etc/lnk" ∈
      load_modules "/debug_ramdisk" fs_link mfs_etc_lnk default_partitions ["m1"]) ∧
    ∀ op ∈ own_ops "/debug_ramdisk" true "/system/etc" "" "/system/etc/lnk"
        (Node.mk "lnk" .module .lnk false false "m1" "" []), op.is_mount = false :=
  ⟨(symlink_nodes_not_bind_mounted "/debug_ramdisk" fs_link mfs_etc_lnk default_partitions
      ["m1"] (prepare fs_link "" (build_tree fs_link mfs_etc_lnk default_partitions ["m1"])).2
      (by decide)).2.2.2
      ⟨Node.mk "lnk" .module .lnk false false "m1" "" [], "/system/etc/lnk", "/system/etc",
        true, ""⟩
      (by decide) (by decide) (Or.inl (by decide)),
    ((symlink_nodes_not_bind_mounted "/debug_ramdisk" fs_link mfs_etc_lnk default_partitions
      ["m1"] (prepare fs_link "" (build_tree fs_link mfs_etc_lnk default_partitions ["m1"])).2
      (by decide)).2.2.1
      ⟨Node.mk "lnk" .module .lnk false false "m1" "" [], "/system/etc/lnk", "/system/etc",
        true, ""⟩
      (by decide) (Or.inl (by decide))).2.1 (by decide)⟩

/-- A node the mount pass does not reach: `/system/etc/d` is a symlink that
opens as a directory holding the symlink `z`, and `m1` ships the new file
`system/etc/new`.  The tmpfs node of `etc` mirrors `d` with its entry `z`, but
`tmpfs_node::mount` of `d` copies the symlink and returns: the node of `z` is in
the tree and no call of the pass is for it. -/
theorem unreached_below_symlink_dir :
    (⟨Node.mk "z" .tmpfs .lnk false false "" "" [], "/system/etc/d/z", "/system/etc/d",
        true, ""⟩ : Placed) ∈
      placed false "" "" ""
        (prepare fs_link_dir ""
          (build_tree fs_link_dir mfs_etc_new default_partitions ["m1"])).2 ∧
    (⟨Node.mk "z" .tmpfs .lnk false false "" "" [], "/system/etc/d/z", "/system/etc/d",
        true, ""⟩ : Placed) ∉
      reached false "" "" ""
        (prepare fs_link_dir ""
          (build_tree fs_link_dir mfs_etc_new default_partitions ["m1"])).2 ∧
    load_modules "/debug_ramdisk" fs_link_dir mfs_etc_new default_partitions ["m1"] =
      [Op.mkdirs "/debug_ramdisk/.magisk/worker/system/etc",
        Op.mount (some "/debug_ramdisk/.magisk/worker/system/etc")
          "/debug_ramdisk/.magisk/worker/system/etc" none (MS_BIND ||| MS_REC),
        Op.clone_attr "/system/etc" "/debug_ramdisk/.magisk/worker/system/etc",
        Op.cp_afc "/system/etc/d" "/debug_ramdisk/.magisk/worker/system/etc/d",
        Op.creat "/debug_ramdisk/.magisk/worker/system/etc/new",
        Op.mount (some "/data/adb/modules/m1/system/etc/new")
          "/debug_ramdisk/.magisk/worker/system/etc/new" none (MS_BIND ||| MS_REC),
        Op.mount (some "/debug_ramdisk/.magisk/worker/system/etc") "/system/etc" none
          (MS_MOVE ||| MS_REC),
        Op.mount none "/system/etc" none (MS_REMOUNT ||| MS_RDONLY),
        Op.mount none "/system/etc" none MS_PRIVATE] := by
  refine ⟨by decide, by decide, by decide⟩

/-- Counterexample to C2 as stated: `m1` ships the regular file `system/etc/x`
and the base entry `/system/etc/x` is a symlink.  The module node of `x`
survives `prepare` below the tmpfs node of `etc`, and its `mount` issues a bind
mount, of the module's file onto the placeholder at the worker path. -/
theorem bind_mount_for_symlink_base_entry :
    fs_link.lstat "/system/etc/x" = some FileType.lnk ∧
    (⟨Node.mk "x" .module .reg true false "m1" "" [], "/system/etc/x", "/system/etc",
        true, ""⟩ : Placed) ∈
      placed false "" "" ""
        (prepare fs_link "" (build_tree fs_link mfs_etc_x default_partitions ["m1"])).2 ∧
    bind_mount "/data/adb/modules/m1/system/etc/x"
        "/debug_ramdisk/.magisk/worker/system/etc/x" false ⊆
      own_ops "/debug_ramdisk" true "/system/etc" "" "/system/etc/x"
        (Node.mk "x" .module .reg true false "m1" "" []) ∧
    Op.mount (some "/data/adb/modules/m1/system/etc/x")
        "/debug_ramdisk/.magisk/worker/system/etc/x" none (MS_BIND ||| MS_REC) ∈
      load_modules "/debug_ramdisk" fs_link mfs_etc_x default_partitions ["m1"] := by
  refine ⟨by decide, by decide, by decide, by decide⟩

/-- Instance of C5: a replaced `app` with a directory `res` below it. -/
theorem prepare_propagates_replace_witness :
    (prepare fs_demo "/system/app" app_replaced).2.children =
        [.mk "Foo.apk" .module .reg false false "m1" "" [],
         .mk "res" .tmpfs .dir false true "" ""
           [.mk "a.xml" .module .reg false false "m1" "" []]] ∧
      ∀ x ∈ subnodes_list (prepare fs_demo "/system/app" app_replaced).2.children,
        x.isa_dir = true → x.replace = true :=
  ⟨by decide, prepare_propagates_replace fs_demo "/system/app" app_replaced rfl⟩

/-- Instance of C6: a replaced `app` holding only `Foo.apk` becomes a tmpfs node
with exactly `Foo.apk`, although `/system/app` has `Old.apk`. -/
theorem tmpfs_node_child_names_witness :
    names (tmpfs_node fs_demo "/system/app" app_foo).children = ["Foo.apk"] ∧
      "hosts" ∈ names (tmpfs_node fs_demo "/system/etc" etc_x).children :=
  ⟨((tmpfs_node_child_names fs_demo "/system/app" app_foo).2.1 rfl).trans (by decide),
    ((tmpfs_node_child_names fs_demo "/system/etc" etc_x).2.2.1 "hosts").mpr
      (Or.inr ⟨rfl, [⟨".", .dir⟩, ⟨"..", .dir⟩, ⟨"hosts", .reg⟩, ⟨"y", .lnk⟩], by decide,
        ⟨"hosts", .reg⟩, by decide, rfl, by decide, by decide⟩)⟩

/-- Instance of C7: the calls of a tmpfs `app` below the `system` root. -/
theorem tmpfs_mount_sequence_witness :
    mount_node "/debug_ramdisk" false "/system" "" "/system/app" app_tmpfs =
      [Op.mkdirs "/debug_ramdisk/.magisk/worker/system/app",
       Op.mount (some "/debug_ramdisk/.magisk/worker/system/app")
         "/debug_ramdisk/.magisk/worker/system/app" none (MS_BIND ||| MS_REC),
       Op.clone_attr "/system/app" "/debug_ramdisk/.magisk/worker/system/app",
       Op.creat "/debug_ramdisk/.magisk/worker/system/app/Foo.apk",
       Op.mount (some "/data/adb/modules/m1/system/app/Foo.apk")
         "/debug_ramdisk/.magisk/worker/system/app/Foo.apk" none (MS_BIND ||| MS_REC),
       Op.mount (some "/debug_ramdisk/.magisk/worker/system/app") "/system/app" none
         (MS_MOVE ||| MS_REC),
       Op.mount none "/system/app" none (MS_REMOUNT ||| MS_RDONLY),
       Op.mount none "/system/app" none MS_PRIVATE] :=
  (tmpfs_mount_sequence "/debug_ramdisk" "/system" "" "/system/app" app_tmpfs rfl rfl).1.trans
    (by decide)

/-! ## C14: which intermediate nodes stay -/

theorem inter_settled_of_all_tmpfs (fs : BaseFs) (path : String) (n : Node)
    (h : all_tmpfs n = true) : inter_settled fs path n = true := by
  cases n with
  | mk nm t f e r m p cs => cases t <;> simp_all [all_tmpfs, inter_settled]

theorem cannot_mnt_congr (fs : BaseFs) (path : String) (a b : Node)
    (h : a.file_type = b.file_type) : cannot_mnt fs path a = cannot_mnt fs path b := by
  simp [cannot_mnt, Node.is_lnk, h]

theorem file_type_upgrade_tmpfs (fs : BaseFs) (path : String) (n : Node) :
    (upgrade_tmpfs fs path n).file_type = n.file_type := by
  unfold upgrade_tmpfs
  split
  · exact file_type_tmpfs_node fs path n
  · rfl

theorem kept_child_file_type (fs : BaseFs) (cpath : String) (ex rep : Bool) (c : Node) :
    (if c.isa_dir then
      (if (prepare_node fs cpath ex rep c).1 then
        upgrade_tmpfs fs cpath (prepare_node fs cpath ex rep c).2
      else (prepare_node fs cpath ex rep c).2)
    else c.set_exist ex).file_type = c.file_type := by
  split_ifs <;> simp [file_type_upgrade_tmpfs, (prepare_node_shape fs cpath ex rep c).2]

theorem prepare_node_flags (fs : BaseFs) (path : String) (ex rep : Bool) (n : Node) :
    (prepare_node fs path ex rep n).2.exist = ex ∧
      (prepare_node fs path ex rep n).2.replace = rep ∧
      ((prepare_node fs path ex rep n).1 = false → ex = true ∧ rep = false) := by
  cases n with
  | mk nm t f e r m p cs =>
    simp only [prepare_node, Node.exist_mk, Node.replace_mk, true_and]
    intro h
    rw [prepare_loop_fst] at h
    simp only [Bool.or_eq_false_iff, Bool.not_eq_false'] at h
    exact ⟨h.1.2, h.1.1⟩

/-- The child `prepare` leaves for an intermediate child is settled. -/
theorem settled_inter_child (fs : BaseFs) (cpath : String) (ex rep : Bool) (c : Node)
    (roots : Bool) (hwf : well_formed roots c = true) (hct : c.node_type = NodeType.inter)
    (hsub : (prepare_node fs cpath ex rep c).1 = false →
      inter_settled_list fs true cpath (prepare_node fs cpath ex rep c).2.children = true) :
    inter_settled fs cpath
      (if (prepare_node fs cpath ex rep c).1 then
        upgrade_tmpfs fs cpath (prepare_node fs cpath ex rep c).2
      else (prepare_node fs cpath ex rep c).2) = true := by
  have hshape := prepare_node_shape fs cpath ex rep c
  have hflags := prepare_node_flags fs cpath ex rep c
  cases hb : (prepare_node fs cpath ex rep c).1 with
  | true =>
    simp only [if_true]
    have hu : upgrade_tmpfs fs cpath (prepare_node fs cpath ex rep c).2 =
        tmpfs_node fs cpath (prepare_node fs cpath ex rep c).2 := by
      simp [upgrade_tmpfs, hshape.1, hct, type_id]
    rw [hu]
    apply inter_settled_of_all_tmpfs
    apply all_tmpfs_tmpfs_node
    exact ((prepared_node_ok fs c roots cpath ex rep hwf).1 hct).1
  | false =>
    simp only [Bool.false_eq_true, if_false]
    have hs := hsub hb
    obtain ⟨hex, hrep⟩ := hflags.2.2 hb
    generalize prepare_node fs cpath ex rep c = r at hshape hflags hs
    obtain ⟨b, r2⟩ := r
    cases r2 with
    | mk nm t f e rr m p cs =>
      simp only [Node.node_type_mk, Node.exist_mk, Node.replace_mk, Node.children_mk] at *
      rw [hshape.1.trans hct] 
      simp [inter_settled, hflags.1, hflags.2.1, hex, hrep, hs]

mutual
/-- Below a node `prepare` has worked on, every intermediate node that stays is
settled: below an intermediate node if `prepare` returned false, below a root
node always. -/
theorem settled_node (fs : BaseFs) :
    ∀ (n : Node) (roots : Bool) (path : String) (ex rep : Bool),
      well_formed roots n = true →
      (n.node_type = NodeType.inter → (prepare_node fs path ex rep n).1 = false →
        inter_settled_list fs true path (prepare_node fs path ex rep n).2.children = true) ∧
      (n.node_type = NodeType.root →
        inter_settled_list fs false path (prepare_node fs path ex rep n).2.children = true)
  | .mk nm t f e r m p cs, roots, path, ex, rep, hwf => by
    simp only [prepare_node, Node.children_mk, Node.node_type_mk]
    cases t with
    | inter =>
      simp only [well_formed] at hwf
      have h := settled_loop fs cs false path NodeType.inter rep (rep || !ex) hwf
      exact ⟨fun _ => h.1 rfl rfl, fun hh => by simp at hh⟩
    | root =>
      simp only [well_formed, Bool.and_eq_true] at hwf
      have h := settled_loop fs cs true path NodeType.root rep (rep || !ex) hwf.2
      exact ⟨fun hh => by simp at hh, fun _ => h.2 rfl⟩
    | module => exact ⟨fun hh => by simp at hh, fun hh => by simp at hh⟩
    | tmpfs => exact ⟨fun hh => by simp at hh, fun hh => by simp at hh⟩
/-- The same for the loop of `prepare` in a node of variant `t`. -/
theorem settled_loop (fs : BaseFs) :
    ∀ (cs : List Node) (roots : Bool) (path : String) (t : NodeType) (rep up : Bool),
      well_formed_list roots cs = true →
      (t = NodeType.inter → roots = false → (prepare_loop fs path t rep cs up).1 = false →
        inter_settled_list fs true path (prepare_loop fs path t rep cs up).2 = true) ∧
      (t = NodeType.root →
        inter_settled_list fs false path (prepare_loop fs path t rep cs up).2 = true)
  | [], roots, path, t, rep, up, _ => by
    simp [prepare_loop, inter_settled_list]
  | c :: cs, roots, path, t, rep, up, hwf => by
    simp only [well_formed_list, Bool.and_eq_true] at hwf
    obtain ⟨hwc, hwcs⟩ := hwf
    by_cases hdrop : (cannot_mnt fs (child_path path c.name) c &&
        decide (type_id t > type_id NodeType.tmpfs)) = true
    · rw [prepare_loop_cons_drop fs path t rep c cs up hdrop]
      exact settled_loop fs cs roots path t rep up hwcs
    · simp only [Bool.not_eq_true] at hdrop
      obtain ⟨ex, heq⟩ := prepare_loop_snd_cons_keep fs path t rep c cs up hdrop
      rw [heq]
      have ihcs := settled_loop fs cs roots path t rep
        (up || cannot_mnt fs (child_path path c.name) c) hwcs
      have ihc := settled_node fs c roots (child_path path c.name) ex
        (if rep then true else c.replace) hwc
      have hshape := prepare_node_shape fs (child_path path c.name) ex
        (if rep then true else c.replace) c
      have hcong := cannot_mnt_congr fs (child_path path c.name) _ c
        (kept_child_file_type fs (child_path path c.name) ex (if rep then true else c.replace) c)
      simp only [inter_settled_list, Bool.and_eq_true, kept_child_name, hcong]
      have hchild : inter_settled fs (child_path path c.name)
          (if c.isa_dir then
            (if (prepare_node fs (child_path path c.name) ex
                (if rep then true else c.replace) c).1 then
              upgrade_tmpfs fs (child_path path c.name)
                (prepare_node fs (child_path path c.name) ex
                  (if rep then true else c.replace) c).2
            else (prepare_node fs (child_path path c.name) ex
              (if rep then true else c.replace) c).2)
          else c.set_exist ex) = true := by
        rcases well_formed_cases roots c hwc with hct | hct | ⟨hct, _⟩
        · have hd : c.isa_dir = false := by simp [Node.isa_dir, hct]
          simp only [hd, Bool.false_eq_true, if_false]
          cases c with
          | mk nm t' f e r m p ccs =>
            simp only [Node.node_type_mk] at hct
            subst hct
            simp [Node.set_exist, inter_settled]
        · have hd : c.isa_dir = true := by simp [Node.isa_dir, hct]
          simp only [hd, if_true]
          exact settled_inter_child fs _ ex _ c roots hwc hct (ihc.1 hct)
        · have hd : c.isa_dir = true := by simp [Node.isa_dir, hct]
          simp only [hd, if_true]
          have hu : ∀ b : Bool, (if b then upgrade_tmpfs fs (child_path path c.name)
              (prepare_node fs (child_path path c.name) ex
                (if rep then true else c.replace) c).2
              else (prepare_node fs (child_path path c.name) ex
                (if rep then true else c.replace) c).2) =
              (prepare_node fs (child_path path c.name) ex
                (if rep then true else c.replace) c).2 := by
            intro b
            cases b
            · simp
            · simp only [if_true]
              unfold upgrade_tmpfs
              rw [hshape.1, hct]
              simp [type_id]
          rw [hu]
          have hs := ihc.2 hct
          generalize prepare_node fs (child_path path c.name) ex
            (if rep then true else c.replace) c = r at hshape hs
          obtain ⟨b, r2⟩ := r
          cases r2 with
          | mk nm t' f e rr m p ccs =>
            simp only [Node.node_type_mk, Node.children_mk] at hshape hs
            rw [hshape.1.trans hct]
            simpa [inter_settled] using hs
      constructor
      · intro ht hroots h1
        subst ht hroots
        have hcm : cannot_mnt fs (child_path path c.name) c = false := by
          rw [prepare_loop_fst] at h1
          simp only [Bool.or_eq_false_iff] at h1
          exact h1.1.2
        exact ⟨⟨by simp [hcm], hchild⟩, ihcs.1 rfl rfl h1⟩
      · intro ht
        subst ht
        exact ⟨⟨by simp, hchild⟩, ihcs.2 rfl⟩
end

mutual
/-- A tmpfs subtree holds no intermediate node. -/
theorem placed_all_tmpfs :
    ∀ (n : Node) (ptmpfs : Bool) (ppath rpfx path : String),
      all_tmpfs n = true →
      ∀ x ∈ placed ptmpfs ppath rpfx path n, x.node.node_type ≠ NodeType.inter
  | .mk nm t f e r m p cs, ptmpfs, ppath, rpfx, path, h, x, hx => by
    simp only [placed, List.mem_cons] at hx
    cases t with
    | inter => simp [all_tmpfs] at h
    | root => simp [all_tmpfs] at h
    | module =>
      rcases hx with rfl | hx
      · simp
      · simp at hx
    | tmpfs =>
      rcases hx with rfl | hx
      · simp
      · simp only [all_tmpfs] at h
        exact placed_list_all_tmpfs cs true path rpfx h x hx
/-- A list of tmpfs subtrees holds no intermediate node. -/
theorem placed_list_all_tmpfs :
    ∀ (cs : List Node) (ptmpfs : Bool) (ppath rpfx : String),
      all_tmpfs_list cs = true →
      ∀ x ∈ placed_list ptmpfs ppath rpfx cs, x.node.node_type ≠ NodeType.inter
  | [], _, _, _, _, x, hx => by simp [placed_list] at hx
  | c :: cs, ptmpfs, ppath, rpfx, h, x, hx => by
    simp only [all_tmpfs_list, Bool.and_eq_true] at h
    simp only [placed_list, List.mem_append] at hx
    rcases hx with hx | hx
    · exact placed_all_tmpfs c ptmpfs ppath rpfx _ h.1 x hx
    · exact placed_list_all_tmpfs cs ptmpfs ppath rpfx h.2 x hx
end

theorem inter_settled_list_mountable (fs : BaseFs) (ppath : String) :
    ∀ (cs : List Node), inter_settled_list fs true ppath cs = true →
      ∀ c ∈ cs, cannot_mnt fs (child_path ppath c.name) c = false
  | [], _, c, hc => by simp at hc
  | d :: ds, h, c, hc => by
    simp only [inter_settled_list, Bool.and_eq_true, Bool.not_true, Bool.false_or,
      Bool.not_eq_true'] at h
    rcases List.mem_cons.mp hc with rfl | hc
    · exact h.1.1
    · exact inter_settled_list_mountable fs ppath ds h.2 c hc

mutual
/-- In a settled tree under a parent that is not a tmpfs node, every
intermediate node has a parent that is not a tmpfs node, exists in the base
file system, is not replaced, and has only children that can be mounted. -/
theorem placed_of_inter_settled (fs : BaseFs) :
    ∀ (n : Node) (ppath rpfx path : String),
      inter_settled fs path n = true →
      ∀ x ∈ placed false ppath rpfx path n, x.node.node_type = NodeType.inter →
        x.ptmpfs = false ∧ x.node.exist = true ∧ x.node.replace = false ∧
          ∀ c ∈ x.node.children, cannot_mnt fs (child_path x.path c.name) c = false
  | .mk nm t f e r m p cs, ppath, rpfx, path, h, x, hx, hxt => by
    simp only [placed, List.mem_cons] at hx
    cases t with
    | module =>
      rcases hx with rfl | hx
      · simp at hxt
      · simp at hx
    | tmpfs =>
      rcases hx with rfl | hx
      · simp at hxt
      · simp only [inter_settled] at h
        exact (placed_list_all_tmpfs cs true path rpfx h x hx hxt).elim
    | inter =>
      simp only [inter_settled, Bool.and_eq_true, Bool.not_eq_true'] at h
      rcases hx with rfl | hx
      · exact ⟨rfl, h.1.1, h.1.2, inter_settled_list_mountable fs path cs h.2⟩
      · exact placed_list_of_inter_settled fs cs true path rpfx h.2 x hx hxt
    | root =>
      simp only [inter_settled] at h
      rcases hx with rfl | hx
      · simp at hxt
      · exact placed_list_of_inter_settled fs cs false path p h x hx hxt
/-- The same for the children of a node that is not a tmpfs node. -/
theorem placed_list_of_inter_settled (fs : BaseFs) :
    ∀ (cs : List Node) (strict : Bool) (ppath rpfx : String),
      inter_settled_list fs strict ppath cs = true →
      ∀ x ∈ placed_list false ppath rpfx cs, x.node.node_type = NodeType.inter →
        x.ptmpfs = false ∧ x.node.exist = true ∧ x.node.replace = false ∧
          ∀ c ∈ x.node.children, cannot_mnt fs (child_path x.path c.name) c = false
  | [], _, _, _, _, x, hx, _ => by simp [placed_list] at hx
  | c :: cs, strict, ppath, rpfx, h, x, hx, hxt => by
    simp only [inter_settled_list, Bool.and_eq_true] at h
    simp only [placed_list, List.mem_append] at hx
    rcases hx with hx | hx
    · exact placed_of_inter_settled fs c ppath rpfx _ h.1.2 x hx hxt
    · exact placed_list_of_inter_settled fs cs strict ppath rpfx h.2 x hx hxt
end

theorem mount_node_inter (tmp : String) (ptmpfs : Bool) (ppath rpfx path : String) (n : Node)
    (h : n.node_type = NodeType.inter) :
    mount_node tmp ptmpfs ppath rpfx path n = mount_children tmp false path rpfx n.children := by
  cases n with
  | mk nm t f e r m p cs =>
    simp only [Node.node_type_mk] at h
    subst h
    simp [mount_node]

/-- C14, amended: in the tree `load_modules` prepares, an intermediate node may
remain, and every one that does has a parent that is not a tmpfs node, exists in
the base file system, is not replaced, and has only children whose base entry
exists and is no symlink and which are no symlinks themselves; its `mount` is
the `mount` of its children in place.  Below a tmpfs node no intermediate node
remains. -/
theorem remaining_intermediate_nodes (tmp : String) (fs : BaseFs) (mfs : ModuleFs)
    (partitions ms : List String) (t : Node)
    (h : prepared_tree fs mfs partitions ms = some t) :
    ∀ x ∈ placed_list false "" t.pfx t.children, x.node.node_type = NodeType.inter →
      x.ptmpfs = false ∧ x.node.exist = true ∧ x.node.replace = false ∧
        (∀ c ∈ x.node.children, ∃ st, fs.lstat (child_path x.path c.name) = some st ∧
          st ≠ FileType.lnk ∧ c.is_lnk = false) ∧
        mount_node tmp x.ptmpfs x.ppath x.rpfx x.path x.node =
          mount_children tmp false x.path x.rpfx x.node.children := by
  intro x hx hxt
  have ht : t = (prepare fs "" (build_tree fs mfs partitions ms)).2 := by
    unfold prepared_tree at h
    split at h
    · simp at h
    · exact (Option.some.inj h).symm
  have hwf := well_formed_build_tree fs mfs partitions ms
  have hs := (settled_node fs (build_tree fs mfs partitions ms) true ""
    (build_tree fs mfs partitions ms).exist (build_tree fs mfs partitions ms).replace hwf.2).2
    hwf.1
  change inter_settled_list fs false "" (prepare fs "" (build_tree fs mfs partitions ms)).2.children
    = true at hs
  rw [← ht] at hs
  obtain ⟨h1, h2, h3, h4⟩ := placed_list_of_inter_settled fs t.children false "" t.pfx hs x hx hxt
  refine ⟨h1, h2, h3, ?_, mount_node_inter tmp _ _ _ _ _ hxt⟩
  intro c hc
  exact (cannot_mnt_eq_false_iff fs _ c).mp (h4 c hc)

/-- Instance of C14: `m1` ships `system/lib/libfoo.so`; the intermediate node of
`lib` stays, under the root node of `/system`, existing and not replaced, and
its one child has a base entry that is a regular file. -/
theorem remaining_intermediate_nodes_witness :
    (⟨lib_kept, "/system/lib", "/system", false, ""⟩ : Placed).ptmpfs = false ∧
      lib_kept.exist = true ∧ lib_kept.replace = false ∧
      (∀ c ∈ lib_kept.children, ∃ st, fs_demo.lstat (child_path "/system/lib" c.name) = some st ∧
        st ≠ FileType.lnk ∧ c.is_lnk = false) ∧
      mount_node "/debug_ramdisk" false "/system" "" "/system/lib" lib_kept =
        mount_children "/debug_ramdisk" false "/system/lib" "" lib_kept.children :=
  remaining_intermediate_nodes "/debug_ramdisk" fs_demo
    (mfs_single (single_file ["lib"] "libfoo.so")) default_partitions ["m1"]
    (prepare fs_demo ""
      (build_tree fs_demo (mfs_single (single_file ["lib"] "libfoo.so")) default_partitions
        ["m1"])).2
    (by decide) ⟨lib_kept, "/system/lib", "/system", false, ""⟩ (by decide) (by decide)

/-- Counterexample to C14 as stated: `m1` ships `system/lib/libfoo.so`, and
`/system/lib` and the file exist in the base file system.  After `prepare` the
node of `lib` is still of the intermediate variant, and the mount pass runs over
it: the one module node below it is bind mounted in place. -/
theorem intermediate_node_survives_prepare :
    prepared_tree fs_demo (mfs_single (single_file ["lib"] "libfoo.so")) default_partitions
        ["m1"] =
      some (.mk "" .root .dir true false "" ""
        [.mk "system" .root .dir true false "" "" [lib_kept]]) ∧
    lib_kept.node_type = NodeType.inter ∧
    lib_kept ∈ subnodes (.mk "" .root .dir true false "" ""
      [.mk "system" .root .dir true false "" "" [lib_kept]]) ∧
    (load_modules "/debug_ramdisk" fs_demo (mfs_single (single_file ["lib"] "libfoo.so"))
        default_partitions ["m1"]).filter Op.is_mount =
      [Op.mount (some "/data/adb/modules/m1/system/lib/libfoo.so") "/system/lib/libfoo.so"
        none (MS_BIND ||| MS_REC)] := by
  refine ⟨by decide, rfl, by decide, by decide⟩

/-! ## C16: a directory entry whose name is taken -/

/-- C16: in `dir_node::collect_module_files`, a directory entry whose name is
held by a child that is not an intermediate node is not descended into: the
child map stays as it is, whatever the directory holds and however deep, and
the node is unchanged altogether unless the name is `.replace`, which only sets
the flag of the node. -/
theorem collect_entry_taken_name (module name : String) (opens : Bool) (sub : List ModEntry)
    (n c : Node) (hfind : find_child name n.children = some c)
    (hc : c.isa_inter = false) :
    (collect_entry module (.mk name .dir opens sub) n).children = n.children ∧
      (name ≠ ".replace" → collect_entry module (.mk name .dir opens sub) n = n) ∧
      ∀ rest, (collect_entries module (.mk name .dir opens sub :: rest) n).children =
        (collect_entries module rest (if name = ".replace" then n.set_replace true else n)).children := by
  have key : collect_entry module (.mk name .dir opens sub) n =
      if name = ".replace" then n.set_replace true else n := by
    unfold collect_entry
    by_cases h1 : (name == "." || name == "..") = true
    · rw [if_pos h1]
      have : name ≠ ".replace" := by
        intro he
        subst he
        simp at h1
      rw [if_neg this]
    · rw [if_neg h1]
      by_cases h2 : name = ".replace"
      · simp [h2]
      · have h2b : ¬ ((name == ".replace") = true) := by simpa using h2
        rw [if_neg h2b, if_neg h2]
        simp [hfind, hc]
  refine ⟨?_, ?_, ?_⟩
  · rw [key]
    cases n with
    | mk nm t f e r m p cs => split <;> simp [Node.set_replace]
  · intro hne
    rw [key, if_neg hne]
  · intro rest
    rw [collect_entries, key]

/-- Instance of C16: `m0` has put the file `lib` under `system`; a later module
with a directory `lib` holding `a/b/deep` changes nothing. -/
theorem collect_entry_taken_name_witness :
    collect_entry "m1" (.mk "lib" .dir true (single_file ["a", "b"] "deep")) system_lib_file =
      system_lib_file :=
  (collect_entry_taken_name "m1" "lib" true (single_file ["a", "b"] "deep") system_lib_file
    (.mk "lib" .module .reg false false "m0" "" []) (by decide) (by decide)).2.1 (by decide)

/-! ## C15: when a module node clones attributes -/

/-- C15, amended: `module_node::mount` makes a `clone_attr` call exactly when the
node exists in the base file system, whether its parent is a tmpfs node or not,
and the call copies from the node path onto the module's backing file. -/
theorem module_mount_clone_attr (tmp : String) (ptmpfs : Bool) (ppath rpfx path : String)
    (n : Node) (h : n.node_type = NodeType.module) (a b : String) :
    Op.clone_attr a b ∈ mount_node tmp ptmpfs ppath rpfx path n ↔
      n.exist = true ∧ a = path ∧ b = MODULEROOT ++ "/" ++ (n.module ++ (rpfx ++ path)) := by
  cases n with
  | mk nm t f e r m p cs =>
    simp only [Node.node_type_mk] at h
    subst h
    simp only [mount_node, module_mount, Node.exist_mk, Node.module_mk, Node.file_type_mk,
      List.mem_append]
    cases e <;> cases ptmpfs <;>
      simp [bind_mount, create_and_mount] <;>
      split_ifs <;> simp

/-- Instance of C15: the module node of `/system/lib/libfoo.so` exists in the
base file system and its parent is no tmpfs node; its `mount` clones the
attributes onto the module's file. -/
theorem module_mount_clone_attr_witness :
    Op.clone_attr "/system/lib/libfoo.so" "/data/adb/modules/m1/system/lib/libfoo.so" ∈
      mount_node "/debug_ramdisk" false "/system/lib" "" "/system/lib/libfoo.so" libfoo_node :=
  (module_mount_clone_attr "/debug_ramdisk" false "/system/lib" "" "/system/lib/libfoo.so"
    libfoo_node rfl "/system/lib/libfoo.so" "/data/adb/modules/m1/system/lib/libfoo.so").mpr
    ⟨rfl, rfl, by decide⟩

/-- Counterexample to C15 as stated: `m1` ships `system/lib/libfoo.so` and the
file exists in the base file system.  The parent of the module node is the
intermediate node of `lib`, not a tmpfs node, and the mount pass still calls
`clone_attr` from `/system/lib/libfoo.so` onto the module's backing file. -/
theorem clone_attr_without_tmpfs_parent :
    (⟨libfoo_node, "/system/lib/libfoo.so", "/system/lib", false, ""⟩ : Placed) ∈
      placed false "" "" ""
        (prepare fs_demo ""
          (build_tree fs_demo (mfs_single (single_file ["lib"] "libfoo.so")) default_partitions
            ["m1"])).2 ∧
    mount_node "/debug_ramdisk" false "/system/lib" "" "/system/lib/libfoo.so" libfoo_node =
      [Op.clone_attr "/system/lib/libfoo.so" "/data/adb/modules/m1/system/lib/libfoo.so",
        Op.mount (some "/data/adb/modules/m1/system/lib/libfoo.so") "/system/lib/libfoo.so"
          none (MS_BIND ||| MS_REC)] ∧
    Op.clone_attr "/system/lib/libfoo.so" "/data/adb/modules/m1/system/lib/libfoo.so" ∈
      load_modules "/debug_ramdisk" fs_demo (mfs_single (single_file ["lib"] "libfoo.so"))
        default_partitions ["m1"] := by
  refine ⟨by decide, by decide, by decide⟩

/-! ## C11, C12: the exit code of `main` -/

theorem main_of_subcommand (sys : Sys) (argv : List String) (hlen : 2 ≤ argv.length)
    (hsub : argv.getD 1 "" = "mount" ∨ argv.getD 1 "" = "umount") :
    main sys argv =
      if argv.getD 1 "" = "umount" then
        (0, umount_modules (parse_options (argv.drop 2) default_config).magic sys.mountinfo
          sys.umount2_fails)
      else if sys.mount_fails (some (parse_options (argv.drop 2) default_config).magic)
          (parse_options (argv.drop 2) default_config).tmp_path (some "tmpfs") 0 = true then
        (1, [Op.mount (some (parse_options (argv.drop 2) default_config).magic)
            (parse_options (argv.drop 2) default_config).tmp_path (some "tmpfs") 0,
          Op.log_error "mount tmp"])
      else if sys.mount_fails none (parse_options (argv.drop 2) default_config).tmp_path none
          MS_PRIVATE = true then
        (1, [Op.mount (some (parse_options (argv.drop 2) default_config).magic)
            (parse_options (argv.drop 2) default_config).tmp_path (some "tmpfs") 0,
          Op.mount none (parse_options (argv.drop 2) default_config).tmp_path none MS_PRIVATE,
          Op.log_error "mount tmp private"])
      else
        (0, [Op.mount (some (parse_options (argv.drop 2) default_config).magic)
              (parse_options (argv.drop 2) default_config).tmp_path (some "tmpfs") 0,
            Op.mount none (parse_options (argv.drop 2) default_config).tmp_path none
              MS_PRIVATE] ++
          handle_modules (parse_options (argv.drop 2) default_config).tmp_path sys.fs sys.mfs
            (parse_options (argv.drop 2) default_config).partitions ++
          [Op.umount2 (parse_options (argv.drop 2) default_config).tmp_path MNT_DETACH] ++
          (if sys.umount2_fails (parse_options (argv.drop 2) default_config).tmp_path then
            [Op.log_error "umount tmp"] else [])) := by
  unfold main
  have h1 : ¬ argv.length < 2 := by omega
  rw [if_neg h1]
  generalize argv.getD 1 "" = sub at hsub ⊢
  rcases hsub with rfl | rfl
  · simp
  · simp

/-- C11: for an argument vector whose subcommand is `mount` or `umount`, `main`
returns 1 exactly when the subcommand is `mount` and the tmpfs mount on the work
dir or its `MS_PRIVATE` remount fails; then it has made those one or two calls
and logged the error, and module handling was not run.  In every other case it
returns 0, whatever `umount2` calls fail; for `umount` it runs `umount_modules`
and nothing else. -/
theorem main_exit_code (sys : Sys) (argv : List String) (hlen : 2 ≤ argv.length)
    (hsub : argv.getD 1 "" = "mount" ∨ argv.getD 1 "" = "umount") :
    ((main sys argv).1 = 1 ↔
      argv.getD 1 "" = "mount" ∧
        (sys.mount_fails (some (parse_options (argv.drop 2) default_config).magic)
            (parse_options (argv.drop 2) default_config).tmp_path (some "tmpfs") 0 = true ∨
          sys.mount_fails none (parse_options (argv.drop 2) default_config).tmp_path none
            MS_PRIVATE = true)) ∧
    ((main sys argv).1 = 1 →
      (main sys argv).2 =
        [Op.mount (some (parse_options (argv.drop 2) default_config).magic)
          (parse_options (argv.drop 2) default_config).tmp_path (some "tmpfs") 0] ++
        (if sys.mount_fails (some (parse_options (argv.drop 2) default_config).magic)
            (parse_options (argv.drop 2) default_config).tmp_path (some "tmpfs") 0 = true then
          [Op.log_error "mount tmp"]
        else
          [Op.mount none (parse_options (argv.drop 2) default_config).tmp_path none MS_PRIVATE,
            Op.log_error "mount tmp private"])) ∧
    ((main sys argv).1 ≠ 1 → (main sys argv).1 = 0) ∧
    (argv.getD 1 "" = "umount" →
      main sys argv =
        (0, umount_modules (parse_options (argv.drop 2) default_config).magic sys.mountinfo
          sys.umount2_fails)) := by
  have hm := main_of_subcommand sys argv hlen hsub
  generalize argv.getD 1 "" = sub at hm hsub ⊢
  have hne : sub = "umount" → sub ≠ "mount" := by
    intro h
    rw [h]
    decide
  by_cases hu : sub = "umount"
  · rw [if_pos hu] at hm
    rw [hm]
    refine ⟨?_, ?_, ?_, ?_⟩
    · simp [hne hu]
    · simp
    · simp
    · intro _
      rfl
  · have hmt : sub = "mount" := by
      rcases hsub with h | h
      · exact h
      · exact (hu h).elim
    rw [if_neg hu] at hm
    by_cases hf1 : sys.mount_fails (some (parse_options (argv.drop 2) default_config).magic)
        (parse_options (argv.drop 2) default_config).tmp_path (some "tmpfs") 0 = true
    · rw [if_pos hf1] at hm
      rw [hm]
      simp [hmt, hf1]
    · rw [if_neg hf1] at hm
      by_cases hf2 : sys.mount_fails none (parse_options (argv.drop 2) default_config).tmp_path
          none MS_PRIVATE = true
      · rw [if_pos hf2] at hm
        rw [hm]
        simp [hmt, hf1, hf2]
      · rw [if_neg hf2] at hm
        rw [hm]
        simp [hmt, hf1, hf2, hu]

/-- Instance of C11: `mount` with a work dir that cannot be mounted returns 1
after the one failed call. -/
theorem main_exit_code_witness :
    main sys_no_tmp ["magic_mount", "mount"] =
      (1, [Op.mount (some "magic") "/debug_ramdisk" (some "tmpfs") 0, Op.log_error "mount tmp"]) :=
  Prod.ext
    ((main_exit_code sys_no_tmp ["magic_mount", "mount"] (by decide) (Or.inl (by decide))).1.mpr
      ⟨by decide, Or.inl (by decide)⟩)
    ((main_exit_code sys_no_tmp ["magic_mount", "mount"] (by decide) (Or.inl (by decide))).2.1
      (by decide))

theorem parse_options_skip_head (a : String) (rest : List String) (cfg : Config)
    (ha : a ∉ option_names) : parse_options (a :: rest) cfg = parse_options rest cfg := by
  simp only [option_names, List.mem_cons, List.mem_singleton, List.not_mem_nil, or_false,
    not_or] at ha
  simp [parse_options, ha.1, ha.2.1, ha.2.2]

theorem parse_options_single (a : String) (cfg : Config) : parse_options [a] cfg = cfg := by
  simp [parse_options]

/-- One round of the option loop on an argument that has a successor. -/
theorem parse_options_cons_cons (b c : String) (l : List String) (cfg : Config) :
    parse_options (b :: c :: l) cfg =
      parse_options (c :: l)
        (if b = "--work-dir" then { cfg with tmp_path := c }
         else if b = "--magic" then { cfg with magic := c }
         else if b = "--add-partitions" then
           { cfg with partitions := add_partitions c cfg.partitions }
         else cfg) := by
  rw [parse_options]
  simp only [List.isEmpty_cons, Bool.not_false, Bool.and_true, List.headD_cons, beq_iff_eq]
  split_ifs <;> rfl

/-- An argument that is not an option name and does not follow one has no
effect on what the option loop computes. -/
theorem parse_options_skip (a : String) (rest : List String) (ha : a ∉ option_names) :
    ∀ (pre : List String) (cfg : Config), (∀ o ∈ pre.getLast?, o ∉ option_names) →
      parse_options (pre ++ a :: rest) cfg = parse_options (pre ++ rest) cfg
  | [], cfg, _ => by
    simp only [List.nil_append]
    exact parse_options_skip_head a rest cfg ha
  | [b], cfg, h => by
    have hb : b ∉ option_names := h b (by simp)
    simp only [List.singleton_append]
    rw [parse_options_skip_head b _ cfg hb, parse_options_skip_head b _ cfg hb,
      parse_options_skip_head a rest cfg ha]
  | b :: c :: pre, cfg, h => by
    have h2 : ∀ o ∈ (c :: pre).getLast?, o ∉ option_names := by
      intro o ho
      exact h o (by simpa [List.getLast?_cons_cons] using ho)
    have ih := fun cfg1 => parse_options_skip a rest ha (c :: pre) cfg1 h2
    simp only [List.cons_append] at ih ⊢
    rw [parse_options_cons_cons b c (pre ++ a :: rest), parse_options_cons_cons b c (pre ++ rest)]
    exact ih _

/-- A last argument that does not follow an option name has no effect on what
the option loop computes, whatever it is. -/
theorem parse_options_skip_last (a : String) :
    ∀ (pre : List String) (cfg : Config), (∀ o ∈ pre.getLast?, o ∉ option_names) →
      parse_options (pre ++ [a]) cfg = parse_options pre cfg
  | [], cfg, _ => by
    simp only [List.nil_append]
    rw [parse_options_single]
    simp [parse_options]
  | [b], cfg, h => by
    have hb : b ∉ option_names := h b (by simp)
    simp only [List.singleton_append]
    rw [parse_options_skip_head b _ cfg hb, parse_options_skip_head b _ cfg hb,
      parse_options_single]
    simp [parse_options]
  | b :: c :: pre, cfg, h => by
    have h2 : ∀ o ∈ (c :: pre).getLast?, o ∉ option_names := by
      intro o ho
      exact h o (by simpa [List.getLast?_cons_cons] using ho)
    have ih := fun cfg1 => parse_options_skip_last a (c :: pre) cfg1 h2
    simp only [List.cons_append] at ih ⊢
    rw [parse_options_cons_cons b c (pre ++ [a]), parse_options_cons_cons b c pre]
    exact ih _

theorem main_congr (sys : Sys) (prog sub : String) (opts1 opts2 : List String)
    (h : parse_options opts1 default_config = parse_options opts2 default_config) :
    main sys (prog :: sub :: opts1) = main sys (prog :: sub :: opts2) := by
  have hl1 : ¬ (opts1.length + 1 + 1 < 2) := by omega
  have hl2 : ¬ (opts2.length + 1 + 1 < 2) := by omega
  simp only [main, List.length_cons, List.drop_succ_cons, List.drop_zero, h, if_neg hl1,
    if_neg hl2]
  simp

/-- C12, amended: `main` logs the usage text and returns 1, with no mount or
umount call, exactly when the subcommand is missing or is neither `mount` nor
`umount`; no option argument ever causes it.  An argument that does not follow
`--work-dir`, `--magic` or `--add-partitions` (so is not read as the value of
one) is skipped when it is none of these three names, and also when it is the
last argument, whatever it is: `main` does what it does with that argument
taken out. -/
theorem main_usage (sys : Sys) :
    (∀ argv, main sys argv = (1, help) ↔
      (argv.length < 2 ∨ (argv.getD 1 "" ≠ "mount" ∧ argv.getD 1 "" ≠ "umount"))) ∧
    (∀ prog sub pre a rest, (∀ o ∈ pre.getLast?, o ∉ option_names) → a ∉ option_names →
      main sys (prog :: sub :: (pre ++ a :: rest)) = main sys (prog :: sub :: (pre ++ rest))) ∧
    (∀ prog sub pre a, (∀ o ∈ pre.getLast?, o ∉ option_names) →
      main sys (prog :: sub :: (pre ++ [a])) = main sys (prog :: sub :: pre)) := by
  refine ⟨?_, ?_, ?_⟩
  · intro argv
    constructor
    · intro h
      by_contra hcon
      simp only [not_or, not_lt, not_and_or, not_not] at hcon
      have hm := main_of_subcommand sys argv hcon.1 hcon.2
      rw [h] at hm
      have hhelp : ∀ ops, (1, help) ≠ ((0 : Nat), ops) := by
        intro ops he
        have := congrArg Prod.fst he
        simp at this
      split_ifs at hm
      · exact hhelp _ hm
      · have := congrArg Prod.snd hm
        simp [help] at this
      · have := congrArg Prod.snd hm
        simp [help] at this
      · exact hhelp _ hm
      · exact hhelp _ hm
    · intro h
      unfold main
      rcases h with h | ⟨h1, h2⟩
      · rw [if_pos h]
      · by_cases hl : argv.length < 2
        · rw [if_pos hl]
        · rw [if_neg hl]
          generalize argv.getD 1 "" = sub at h1 h2 ⊢
          simp [h1, h2]
  · intro prog sub pre a rest hpre ha
    exact main_congr sys prog sub _ _ (parse_options_skip a rest ha pre default_config hpre)
  · intro prog sub pre a hpre
    exact main_congr sys prog sub _ _ (parse_options_skip_last a pre default_config hpre)

/-- Instance of C12: an unknown subcommand gives the usage text and 1; an
unknown option after a complete `--magic m` is skipped, and so is `--work-dir`
as the last argument. -/
theorem main_usage_witness :
    main sys_demo ["magic_mount", "remount"] = (1, help) ∧
      main sys_demo ["magic_mount", "mount", "--magic", "m", "--bogus", "--work-dir", "/w"] =
        main sys_demo ["magic_mount", "mount", "--magic", "m", "--work-dir", "/w"] ∧
      main sys_demo ["magic_mount", "mount", "--magic", "m", "--work-dir"] =
        main sys_demo ["magic_mount", "mount", "--magic", "m"] :=
  ⟨((main_usage sys_demo).1 ["magic_mount", "remount"]).mpr
      (Or.inr ⟨by decide, by decide⟩),
    (main_usage sys_demo).2.1 "magic_mount" "mount" ["--magic", "m"] "--bogus"
      ["--work-dir", "/w"] (by decide) (by decide),
    (main_usage sys_demo).2.2 "magic_mount" "mount" ["--magic", "m"] "--work-dir"
      (by decide)⟩

/-- Counterexample to C12 as stated: with an unknown option, and with `--magic`
given without a value, `main` prints no usage text, mounts the work dir, runs
module handling and returns 0, as it does without the option. -/
theorem main_ignores_bad_options :
    main sys_demo ["magic_mount", "mount", "--bogus"] =
      (0, [Op.mount (some "magic") "/debug_ramdisk" (some "tmpfs") 0,
        Op.mount none "/debug_ramdisk" none MS_PRIVATE,
        Op.clone_attr "/system/lib/libfoo.so" "/data/adb/modules/m1/system/lib/libfoo.so",
        Op.mount (some "/data/adb/modules/m1/system/lib/libfoo.so") "/system/lib/libfoo.so"
          none (MS_BIND ||| MS_REC),
        Op.umount2 "/debug_ramdisk" MNT_DETACH]) ∧
    main sys_demo ["magic_mount", "mount", "--magic"] =
      main sys_demo ["magic_mount", "mount", "--bogus"] ∧
    main sys_demo ["magic_mount", "mount", "--bogus"] ≠ (1, help) := by
  refine ⟨by decide, by decide, by decide⟩

/-- An argument that follows an option name is read as its value and is not
skipped: as the last argument `--work-dir` after `--magic` becomes the magic. -/
theorem option_value_not_skipped :
    main sys_demo ["magic_mount", "mount", "--magic", "--work-dir"] ≠
      main sys_demo ["magic_mount", "mount", "--magic"] := by
  decide

/-! ## C13: the value of `--add-partitions` -/

theorem split_commas_of_index (rest : List Char) :
    match index_of ',' rest with
    | none => split_commas rest = [rest]
    | some i => split_commas rest = rest.take i :: split_commas (rest.drop (i + 1)) := by
  induction rest with
  | nil => simp [index_of, split_commas]
  | cons c cs ih =>
    by_cases hc : c = ','
    · subst hc
      simp [index_of, split_commas]
    · have hb : (c == ',') = false := by simpa using hc
      simp only [index_of, hb, Bool.false_eq_true, if_false, split_commas, if_neg hc]
      cases hi : index_of ',' cs with
      | none =>
        rw [hi] at ih
        simp only at ih
        simp [ih]
      | some i =>
        rw [hi] at ih
        simp only at ih
        simp [ih]

/-- With enough rounds the loop of `--add-partitions` appends the pieces of
what is left of the value. -/
theorem add_partitions_loop_eq (ps : List Char) :
    ∀ (k pos : Nat) (parts : List String), ps.length < pos + k →
      add_partitions_loop ps k pos parts =
        parts ++ (split_commas (ps.drop pos)).map String.mk
  | 0, pos, parts, h => by
    have hd : ps.drop pos = [] := List.drop_eq_nil_of_le (by omega)
    simp [add_partitions_loop, sv_substr_from, hd, split_commas]
  | k + 1, pos, parts, h => by
    have hs := split_commas_of_index (ps.drop pos)
    simp only [add_partitions_loop, sv_find]
    cases hi : index_of ',' (ps.drop pos) with
    | none =>
      rw [hi] at hs
      simp only at hs
      simp [hs, sv_substr_from]
    | some i =>
      rw [hi] at hs
      simp only at hs
      simp only [Option.map_some']
      rw [add_partitions_loop_eq ps k (pos + i + 1) _ (by omega), hs]
      have hdd : List.drop (i + 1) (List.drop pos ps) = List.drop (pos + i + 1) ps := by
        rw [List.drop_drop]
        congr 1
      simp [sv_substr, hdd]

theorem add_partitions_eq (v : String) (parts : List String) :
    add_partitions v parts = parts ++ (split_commas v.data).map String.mk := by
  unfold add_partitions
  rw [add_partitions_loop_eq v.data (v.length + 1) 0 parts 
    (by show v.data.length < 0 + (v.data.length + 1); omega)]
  simp

theorem split_commas_ne_nil (l : List Char) : split_commas l ≠ [] := by
  cases l with
  | nil => simp [split_commas]
  | cons c cs =>
    simp only [split_commas]
    split_ifs
    · simp
    · split <;> simp

theorem length_split_commas (l : List Char) :
    (split_commas l).length = l.count ',' + 1 := by
  induction l with
  | nil => simp [split_commas]
  | cons c cs ih =>
    by_cases hc : c = ','
    · subst hc
      simp [split_commas, ih]
    · have hb : (c == ',') = false := by simpa using hc
      simp only [split_commas, if_neg hc, List.count_cons, hb, Bool.false_eq_true, if_false,
        Nat.add_zero]
      cases hs : split_commas cs with
      | nil => exact (split_commas_ne_nil cs hs).elim
      | cons p ps =>
        rw [hs] at ih
        simpa using ih

theorem no_comma_split_commas (l : List Char) : ∀ p ∈ split_commas l, ',' ∉ p := by
  induction l with
  | nil => simp [split_commas]
  | cons c cs ih =>
    by_cases hc : c = ','
    · subst hc
      intro p hp
      simp only [split_commas, if_true, List.mem_cons] at hp
      rcases hp with rfl | hp
      · simp
      · exact ih p hp
    · simp only [split_commas, if_neg hc]
      cases hs : split_commas cs with
      | nil => exact (split_commas_ne_nil cs hs).elim
      | cons q qs =>
        rw [hs] at ih
        intro p hp
        simp only [List.mem_cons] at hp
        rcases hp with rfl | hp
        · have := ih q (by simp)
          simp only [List.mem_cons, not_or]
          exact ⟨fun h => hc h.symm, this⟩
        · exact ih p (by simp [hp])

/-- The pieces of a list, the comma put back in front of every piece after the
first, give the list. -/
theorem join_split_commas (l : List Char) :
    ∀ p ps, split_commas l = p :: ps → p ++ (ps.map (fun q => ',' :: q)).flatten = l := by
  induction l with
  | nil =>
    intro p ps h
    simp only [split_commas, List.cons.injEq] at h
    obtain ⟨rfl, rfl⟩ := h
    simp
  | cons c cs ih =>
    intro p ps h
    by_cases hc : c = ','
    · subst hc
      simp only [split_commas, if_true, List.cons.injEq] at h
      obtain ⟨rfl, rfl⟩ := h
      cases hs : split_commas cs with
      | nil => exact (split_commas_ne_nil cs hs).elim
      | cons q qs =>
        have := ih q qs hs
        simp [this]
    · simp only [split_commas, if_neg hc] at h
      cases hs : split_commas cs with
      | nil => exact (split_commas_ne_nil cs hs).elim
      | cons q qs =>
        rw [hs] at h
        simp only [List.cons.injEq] at h
        obtain ⟨hp, hps⟩ := h
        rw [← hp, ← hps]
        have := ih q qs hs
        simp [this]

theorem intercalate_go_mk (acc : String) :
    ∀ (ps : List (List Char)) ,
      String.intercalate.go acc "," (ps.map String.mk) =
        acc ++ String.mk (ps.map (fun q => ',' :: q)).flatten
  | [] => by
    simp [String.intercalate.go]
  | q :: qs => by
    simp only [List.map_cons, String.intercalate.go, List.flatten_cons]
    rw [intercalate_go_mk (acc ++ "," ++ String.mk q) qs]
    apply String.ext
    simp [String.data_append]

theorem intercalate_split_commas (l : List Char) :
    ",".intercalate ((split_commas l).map String.mk) = String.mk l := by
  cases hs : split_commas l with
  | nil => exact (split_commas_ne_nil l hs).elim
  | cons p ps =>
    simp only [List.map_cons, String.intercalate]
    rw [intercalate_go_mk]
    have := join_split_commas l p ps hs
    apply String.ext
    simp [String.data_append, this]

theorem parse_options_keeps_partitions :
    ∀ (args : List String) (cfg : Config),
      cfg.partitions <+: (parse_options args cfg).partitions
  | [], cfg => by simp [parse_options]
  | a :: rest, cfg => by
    unfold parse_options
    simp only
    split_ifs
    · exact parse_options_keeps_partitions rest { cfg with tmp_path := rest.headD "" }
    · exact parse_options_keeps_partitions rest { cfg with magic := rest.headD "" }
    · refine List.IsPrefix.trans ?_ (parse_options_keeps_partitions rest
        { cfg with partitions := add_partitions (rest.headD "") cfg.partitions })
      simp only [add_partitions_eq]
      exact List.prefix_append _ _
    · exact parse_options_keeps_partitions rest cfg

/-- C13: after a single `--add-partitions v` the partition list is the three
default partitions followed by the pieces of `v` split at every comma, in
order: one piece more than `v` has commas, no piece holds a comma, empty pieces
are kept, and the pieces joined with `,` give `v`.  Whatever the arguments are,
the list parsed starts with the three default partitions. -/
theorem add_partitions_pieces (v : String) :
    (∃ pieces : List String,
      (parse_options ["--add-partitions", v] default_config).partitions =
        ["/vendor", "/product", "/system_ext"] ++ pieces ∧
      pieces.length = v.data.count ',' + 1 ∧
      (∀ p ∈ pieces, ',' ∉ p.data) ∧
      ",".intercalate pieces = v) ∧
    ∀ args : List String,
      ["/vendor", "/product", "/system_ext"] <+: (parse_options args default_config).partitions := by
  refine ⟨⟨(split_commas v.data).map String.mk, ?_, ?_, ?_, ?_⟩, ?_⟩
  · have h1 : parse_options ["--add-partitions", v] default_config =
        { default_config with partitions := add_partitions v default_config.partitions } := by
      simp [parse_options]
    rw [h1]
    simp only [add_partitions_eq]
    rfl
  · simp [length_split_commas]
  · intro p hp
    simp only [List.mem_map] at hp
    obtain ⟨q, hq, rfl⟩ := hp
    exact no_comma_split_commas v.data q hq
  · exact intercalate_split_commas v.data
  · intro args
    exact parse_options_keeps_partitions args default_config

/-- Instance of C13: the value `/a,,/b,` has three commas and gives four pieces,
two of them empty. -/
theorem add_partitions_pieces_witness :
    (parse_options ["--add-partitions", "/a,,/b,"] default_config).partitions =
        ["/vendor", "/product", "/system_ext", "/a", "", "/b", ""] ∧
      ["/vendor", "/product", "/system_ext"] <+:
        (parse_options ["--magic", "--add-partitions", "x"] default_config).partitions :=
  ⟨by decide, (add_partitions_pieces "/a,,/b,").2 ["--magic", "--add-partitions", "x"]⟩

end MagicMount
